import Mathlib

/-!
# nice_backtrace: a verification development of `backtrace.hpp`

A shallow embedding of the line reader, the path shortener, the frame
renderer and the batched symbolizer of `src/backtrace.hpp`.

Conventions of the embedding:

* a `std::string` is the list of its characters (`Str`);
* `size_t` values are natural numbers; wrap-around is written out with
  `% 2 ^ 64` at the places where the source can reach it;
* a C++ exception or an early exit is an explicit outcome value, and the state
  the object is left in is returned next to it;
* loops carry a fuel argument counting iterations; each caller passes a bound
  computed from its input, and where a loop of the source might not end,
  running out of fuel is an outcome of its own.
-/

namespace NiceBacktrace


/-- A `std::string`: the list of its characters. -/
abbrev Str := List Char

/-- The NUL character. -/
def NUL : Char := Char.ofNat 0

/-- The line-feed character. -/
def LF : Char := Char.ofNat 10

/-- The path separator. -/
def SLASH : Char := Char.ofNat 47

/-- The backslash character. -/
def BACKSLASH : Char := Char.ofNat 92

/-- Size of `size_t`: 2^64. -/
def SIZE : Nat := 2 ^ 64

/-! ## `std::ifstream` over a regular file -/

/-- The part of a `std::ifstream` the reader depends on: the bytes of the file,
the get position, and the two state bits `eofbit` and `failbit`. -/
structure IfStream where
  content : Str
  pos : Nat
  eofbit : Bool
  failbit : Bool
deriving DecidableEq, Repr

/-- Member `ifs.eof()`. -/
def IfStream.eof (s : IfStream) : Bool := s.eofbit

/-- Member `ifs.fail()`. -/
def IfStream.fail (s : IfStream) : Bool := s.failbit

/-- Member `ifs.good()`: no state bit is set. -/
def IfStream.good (s : IfStream) : Bool := !s.eofbit && !s.failbit

/-- Member `ifs.clear()`: resets the state bits. -/
def IfStream.clear (s : IfStream) : IfStream :=
  { s with eofbit := false, failbit := false }

/-- Member `ifs.seekg(off, std::ios::beg)`: clears `eofbit`, and moves the get
position unless `failbit` is set. -/
def IfStream.seekg (s : IfStream) (off : Nat) : IfStream :=
  if s.failbit then { s with eofbit := false }
  else { s with eofbit := false, pos := off }

/-- Member `ifs.tellg()` converted to `size_t`: the get position, or
`pos_type(-1)` when `fail()`. -/
def IfStream.tellg (s : IfStream) : Nat :=
  if s.failbit then SIZE - 1 else s.pos

/-- Character extraction of `std::getline`: scans up to the first line feed.
Returns the characters before it, the number of characters consumed (the line
feed included), and whether the end of the input was reached instead. -/
def scan_line : Str → Str × Nat × Bool
  | [] => ([], 0, true)
  | c :: cs =>
    if c = LF then ([], 1, false)
    else
      let r := scan_line cs
      (c :: r.1, r.2.1 + 1, r.2.2)

/-- Call `std::getline(ifs, the_line)`. With a stream that is not good the
sentry fails: `failbit` is set and `the_line` is left as it was. Otherwise
`the_line` is replaced by the characters up to the next line feed, which is
consumed; reaching the end of the file sets `eofbit`, and `failbit` too when
nothing at all was extracted. -/
def getline (s : IfStream) (the_line : Str) : IfStream × Str :=
  if s.good then
    let r := scan_line (s.content.drop s.pos)
    if r.2.2 then
      ({ s with pos := s.pos + r.2.1, eofbit := true,
                failbit := r.1.isEmpty }, r.1)
    else
      ({ s with pos := s.pos + r.2.1 }, r.1)
  else
    ({ s with failbit := true }, the_line)

/-! ## `std::map<size_t, size_t>` -/

/-- Member `emplace` of a `std::map<size_t,size_t>` kept as a list sorted by
key: inserts the pair at its place, and leaves the map alone when the key is
already present. -/
def map_emplace (k v : Nat) : List (Nat × Nat) → List (Nat × Nat)
  | [] => [(k, v)]
  | e :: rest =>
    if k < e.1 then (k, v) :: e :: rest
    else if k = e.1 then e :: rest
    else e :: map_emplace k v rest

/-- Member `upper_bound(k)`: the first entry whose key is greater than `k`;
`none` is `end()`. -/
def map_upper_bound (k : Nat) (m : List (Nat × Nat)) : Option (Nat × Nat) :=
  m.find? (fun e => decide (k < e.1))

/-- Member `rbegin()`: the entry with the greatest key. -/
def map_rbegin (m : List (Nat × Nat)) : Option (Nat × Nat) :=
  m.getLast?

/-! ## `LineReader` -/

/-- The ways a call can end other than by returning: the three exception
types of the source, dereferencing the iterator of an empty map, and fuel
running out in a loop of the model. -/
inductive Fault where
  | eof_error
  | runtime_error
  | invalid_argument
  | undefined_behaviour
  | out_of_fuel
deriving DecidableEq, Repr

/-- The constant `LineReader::LINE_GRANULARITY`. -/
def LINE_GRANULARITY : Nat := 16

/-- The members of `struct LineReader`. -/
structure LineReader where
  ifs : IfStream
  lineoffsets : List (Nat × Nat)
  currline : Nat
deriving DecidableEq, Repr

/-- State built by the constructor once the file was opened, `content` being
the bytes of the file. -/
def LineReader.init (content : Str) : LineReader :=
  { ifs := { content := content, pos := 0, eofbit := false, failbit := false },
    lineoffsets := [(LINE_GRANULARITY + 1, 0)],
    currline := 1 }

/-- The constructor `LineReader(path)`; `file` is what opening `path` for
reading gives, `none` when it cannot be opened. -/
def LineReader.new (file : Option Str) : Except Fault LineReader :=
  match file with
  | none => .error .invalid_argument
  | some content => .ok (LineReader.init content)

/-- Member `nextline(the_line)`. Returns the line read, or the exception
thrown, next to the state the reader is left in. -/
def LineReader.nextline (r : LineReader) (the_line : Str) :
    Except Fault Str × LineReader :=
  let g := getline r.ifs the_line
  if g.1.eof then
    (.error .eof_error, { r with ifs := g.1.clear })
  else if g.1.fail then
    (.error .runtime_error, { r with ifs := g.1 })
  else
    let currline := r.currline + 1
    if currline % LINE_GRANULARITY = 1 then
      (.ok g.2, { ifs := g.1,
                  lineoffsets :=
                    map_emplace (currline + LINE_GRANULARITY) g.1.tellg r.lineoffsets,
                  currline := currline })
    else
      (.ok g.2, { r with ifs := g.1, currline := currline })

/-- The loop `while (currline != linenr) this->nextline(the_line);`. -/
def LineReader.skip_to : Nat → Nat → LineReader → Str →
    Except Fault Str × LineReader
  | 0, _, r, _ => (.error .out_of_fuel, r)
  | fuel + 1, linenr, r, the_line =>
    if r.currline ≠ linenr then
      match r.nextline the_line with
      | (.ok l, r1) => LineReader.skip_to fuel linenr r1 l
      | (.error e, r1) => (.error e, r1)
    else (.ok the_line, r)

/-- The checkpoint `read_line` seeks to: `upper_bound(linenr)` when it is not
`end()`, and `rbegin()` otherwise. -/
def LineReader.seek_target (r : LineReader) (linenr : Nat) : Option (Nat × Nat) :=
  match map_upper_bound linenr r.lineoffsets with
  | some e => some e
  | none => map_rbegin r.lineoffsets

/-- Member `read_line(linenr)`. Every successful `nextline` consumes a line
feed, so the skipping loop runs at most once per byte of the file. -/
def LineReader.read_line (r : LineReader) (linenr : Nat) :
    Except Fault Str × LineReader :=
  if linenr ≠ r.currline then
    match r.seek_target linenr with
    | none => (.error .undefined_behaviour, r)
    | some e =>
      let r1 : LineReader :=
        { r with currline := e.1 - LINE_GRANULARITY, ifs := r.ifs.seekg e.2 }
      match LineReader.skip_to (r1.ifs.content.length + 1) linenr r1 [] with
      | (.ok l, r2) => r2.nextline l
      | (.error e, r2) => (.error e, r2)
  else r.nextline []

/-- A file made of the given lines, each followed by a line feed. -/
def file_of_lines (ls : List Str) : Str :=
  (ls.map (fun l => l ++ [LF])).flatten

/-- The reader after a sequence of `read_line` requests, whatever each of
them returned. -/
def run_requests (r : LineReader) (reqs : List Nat) : LineReader :=
  reqs.foldl (fun s n => (s.read_line n).2) r

/-! ## Layout of a file made of lines -/

/-- Byte offset at which the line after the first `j` lines starts. -/
def line_offset (ls : List Str) (j : Nat) : Nat :=
  (file_of_lines (ls.take j)).length

/-- The checkpoint recorded for line `16 * k + 1`: its key and its offset. -/
def checkpoint (ls : List Str) (k : Nat) : Nat × Nat :=
  (16 * k + 17, line_offset ls (16 * k))

/-- The checkpoint map once the lines `1, 17, ..., 16 * m + 1` are recorded. -/
def checkpoints (ls : List Str) (m : Nat) : List (Nat × Nat) :=
  (List.range (m + 1)).map (checkpoint ls)

/-- The reader is consistent with a file of lines `ls`: the stream is in good
state, the get position is the start of line `currline`, and the checkpoint
map holds the starts of the lines `1, 17, ..., 16 * m + 1` for some `m` that the
cursor has not run past. -/
structure Consistent (ls : List Str) (r : LineReader) : Prop where
  content_eq : r.ifs.content = file_of_lines ls
  eof_clear : r.ifs.eofbit = false
  fail_clear : r.ifs.failbit = false
  line_pos : 1 ≤ r.currline
  line_le : r.currline ≤ ls.length + 1
  pos_eq : r.ifs.pos = line_offset ls (r.currline - 1)
  index_eq : ∃ m, 16 * m ≤ ls.length ∧ r.currline ≤ 16 * m + 16 ∧
    r.lineoffsets = checkpoints ls m


/-! ## `shorten_path` -/

/-- Subscript `s[i]` of a `std::string`: the character at index `i`, and the
NUL character at `i = s.length()`. -/
def char_at (s : Str) (i : Nat) : Char := s.getD i NUL

/-- The literal `"../"`. -/
def DOTDOT : Str := ['.', '.', SLASH]

/-- The first loop of `shorten_path` (lines 185-195), from index `i` with the
current `same_pos`; returns the final `i` and `same_pos`. Every iteration
advances `i`, so `min(path.length(), rel_to.length()) - i` iterations are
enough. -/
def common_prefix_loop (path rel_to : Str) : Nat → Nat → Nat → Nat × Nat
  | 0, i, same_pos => (i, same_pos)
  | fuel + 1, i, same_pos =>
    if i < min path.length rel_to.length then
      if char_at path i ≠ char_at rel_to i then (i, same_pos)
      else if char_at path i = BACKSLASH ∧ i + 1 < path.length ∧ i + 1 < rel_to.length ∧
          char_at path (i + 1) = SLASH ∧ char_at rel_to (i + 1) = SLASH then
        common_prefix_loop path rel_to fuel (i + 2) same_pos
      else
        common_prefix_loop path rel_to fuel (i + 1)
          (if char_at path i = SLASH then i else same_pos)
    else (i, same_pos)

/-- Lines 183-203 of `shorten_path`: the first loop from `i = 0`,
`same_pos = 0`, then the step past a separator that follows a fully matched
`rel_to`. Returns `i` and `same_pos`. -/
def shorten_scan (path rel_to : Str) : Nat × Nat :=
  let r := common_prefix_loop path rel_to (min path.length rel_to.length) 0 0
  if r.1 = rel_to.length ∧ r.1 < path.length ∧ char_at path r.1 = SLASH then
    (r.1 + 1, r.1 + 1)
  else r

/-- The second loop of `shorten_path` (lines 208-215), from index `i` with the
current `relpath`. The test of line 209 is kept as written:
`rel_to[i] == '\\' && rel_to[i] == '/'`. -/
def dotdot_loop (rel_to : Str) : Nat → Nat → Str → Str
  | 0, _, relpath => relpath
  | fuel + 1, i, relpath =>
    if i < rel_to.length then
      if i + 1 < rel_to.length ∧ char_at rel_to i = BACKSLASH ∧ char_at rel_to i = SLASH then
        dotdot_loop rel_to fuel (i + 2) relpath
      else
        dotdot_loop rel_to fuel (i + 1)
          (if char_at rel_to i = SLASH then relpath ++ DOTDOT else relpath)
    else relpath

/-- Lines 205-215 of `shorten_path`: the `"../"` segments collected in
`relpath` before anything of `path` is appended. -/
def dotdot_segments (path rel_to : Str) : Str :=
  let i := (shorten_scan path rel_to).1
  dotdot_loop rel_to (rel_to.length - i) i (if i < rel_to.length then DOTDOT else [])

/-- Assignment `*s.rbegin() = c` on a non-empty string: the last character is
replaced, the length stays. -/
def set_last (s : Str) (c : Char) : Str := s.dropLast ++ [c]

/-- Lines 205-219 of `shorten_path`: the relative form, before it is compared
with `path`. `same_pos` never exceeds `path.length()`, so `substr` does not
throw. -/
def relative_form (path rel_to : Str) : Str :=
  let same_pos := (shorten_scan path rel_to).2
  let relpath := dotdot_segments path rel_to
  let relpath :=
    if relpath.length > 0 ∧ char_at path same_pos = SLASH then set_last relpath NUL
    else relpath
  relpath ++ path.drop same_pos

/-- Function `shorten_path(path, rel_to)`. -/
def shorten_path (path rel_to : Str) : Str :=
  let relpath := relative_form path rel_to
  if relpath.length < path.length then relpath else path


/-- Index of the last separator among the characters `c`, the first of which
has index `i`; `sp` when there is none. -/
def last_slash_from : Nat → Str → Nat → Nat
  | _, [], sp => sp
  | i, a :: c, sp => last_slash_from (i + 1) c (if a = SLASH then i else sp)

/-- Number of `/`-separated components of a non-empty relative path. -/
def component_count (s : Str) : Nat := s.count SLASH + 1

/-- The string made of `k` copies of `"../"`. -/
def dotdots (k : Nat) : Str := (List.replicate k DOTDOT).flatten


/-! ## Output formatting -/

/-- The escape character that starts a colour sequence. -/
def ESC : Char := Char.ofNat 27

/-- Sequence `"\033[31;1m"`: bold red. -/
def RED_BOLD : Str := ESC :: "[31;1m".toList

/-- Sequence `"\033[90m"`: grey. -/
def GREY : Str := ESC :: "[90m".toList

/-- Sequence `"\033[33m"`: yellow. -/
def YELLOW : Str := ESC :: "[33m".toList

/-- Sequence `"\033[31m"`: red. -/
def RED : Str := ESC :: "[31m".toList

/-- Sequence `"\033[0m"`: reset. -/
def RESET : Str := ESC :: "[0m".toList

/-- What `std::endl` writes. -/
def ENDL : Str := [LF]

/-- Output of `os << n` for an unsigned integer: its decimal digits. -/
def decimal (n : Nat) : Str := Nat.toDigits 10 n

/-- Output of `os << std::setw(w) << n`: the decimal digits, padded with spaces
on the left up to width `w`. -/
def setw_decimal (w n : Nat) : Str :=
  List.replicate (w - (decimal n).length) ' ' ++ decimal n

/-! ## `print_context` -/

/-- The constant `CONTEXT`. -/
def CONTEXT : Nat := 1

/-- The text written for one line of context (lines 139-141). -/
def context_row (nlinenrdigits err_linenr linenr : Nat) (the_line : Str) : Str :=
  (if linenr = err_linenr then RED_BOLD else GREY) ++ "  ".toList ++
    setw_decimal nlinenrdigits linenr ++ " │".toList ++ RESET ++ " ".toList ++
    the_line ++ ENDL

/-- What a call of `print_context` leaves behind: the exception that escaped
it, if any, the text written to `std::cerr`, and the state of the reader. -/
structure ContextResult where
  fault : Option Fault
  out : Str
  reader : LineReader
deriving DecidableEq, Repr

/-- The `for` loop of `print_context` from the line number `linenr` on, `out`
being the text written so far. `eof_error` leaves the loop; any other
exception escapes. The counter is a `size_t` and wraps. -/
def print_context_loop (nlinenrdigits err_linenr : Nat) :
    Nat → Nat → LineReader → Str → ContextResult
  | 0, _, r, out => { fault := some .out_of_fuel, out := out, reader := r }
  | fuel + 1, linenr, r, out =>
    if linenr ≤ (err_linenr + CONTEXT) % SIZE then
      match r.read_line linenr with
      | (.ok the_line, r1) =>
        print_context_loop nlinenrdigits err_linenr fuel ((linenr + 1) % SIZE) r1
          (out ++ context_row nlinenrdigits err_linenr linenr the_line)
      | (.error .eof_error, r1) => { fault := none, out := out, reader := r1 }
      | (.error e, r1) => { fault := some e, out := out, reader := r1 }
    else { fault := none, out := out, reader := r }

/-- Function `print_context(linereader, nlinenrdigits, err_linenr)`. The loop
body runs for at most `2 * CONTEXT + 1` line numbers before the bound is
passed; one more round is granted for the case `err_linenr + CONTEXT =
SIZE - 1`, where the counter wraps to line 0. -/
def print_context (r : LineReader) (nlinenrdigits err_linenr : Nat) : ContextResult :=
  print_context_loop nlinenrdigits err_linenr (2 * CONTEXT + 3)
    (if err_linenr > CONTEXT then err_linenr - CONTEXT else 1) r []

/-- The line numbers of the context window of line `e` in a file of `L`
lines: those `k` with `max 1 (e - 1) ≤ k ≤ e + 1` and `k ≤ L`, in increasing
order. -/
def context_window (e L : Nat) : List Nat :=
  (List.range' (max 1 (e - 1)) (e + 2 - max 1 (e - 1))).filter (fun k => decide (k ≤ L))

/-- The text of the context rows for the line numbers `ks` of the file with
lines `ls`. -/
def context_rows (nlinenrdigits err_linenr : Nat) (ls : List Str) (ks : List Nat) : Str :=
  (ks.map (fun k => context_row nlinenrdigits err_linenr k (ls.getD (k - 1) []))).flatten

/-! ## `split_path_filename` and `Frameinfo::print` -/

/-- The value `std::string::npos`, which is also `size_t(-1)`. -/
def NPOS : Nat := SIZE - 1

/-- Search of `rfind`: the greatest index `j ≤ i` with `s[j] = c`. -/
def rfind_from (s : Str) (c : Char) : Nat → Option Nat
  | 0 => if s.get? 0 = some c then some 0 else none
  | i + 1 => if s.get? (i + 1) = some c then some (i + 1) else rfind_from s c i

/-- Member `s.rfind(c, pos)`: the last index not after `pos` that holds `c`, or
`npos`. -/
def rfind (s : Str) (c : Char) (pos : Nat) : Nat :=
  match rfind_from s c (min pos (s.length - 1)) with
  | some i => i
  | none => NPOS

/-- The loop of `split_path_filename` (lines 176-177) from position `pos`.
`path[pos - 1]` with `pos - 1` beyond `path.length()` is undefined behaviour;
`pos - 2` is computed in `size_t`. -/
def split_path_filename_loop (path : Str) : Nat → Nat → Except Fault Nat
  | 0, _ => .error .out_of_fuel
  | fuel + 1, pos =>
    if pos > 0 then
      if path.length < pos - 1 then .error .undefined_behaviour
      else if char_at path (pos - 1) = BACKSLASH then
        split_path_filename_loop path fuel (rfind path SLASH ((pos + SIZE - 2) % SIZE))
      else .ok pos
    else .ok pos

/-- Function `split_path_filename(path)`, with the number of loop rounds
granted as `fuel`. -/
def split_path_filename (fuel : Nat) (path : Str) : Except Fault Nat :=
  if rfind path SLASH NPOS = NPOS then .ok NPOS
  else split_path_filename_loop path fuel (rfind path SLASH NPOS)

/-- The members of `struct Frameinfo`; `shared_obj = none` is the null
pointer. -/
structure Frameinfo where
  shared_obj : Option Str
  symbol : Str
  source_file_path : Str
  short_source_file_path : Str
  linenr : Nat
deriving DecidableEq, Repr

/-- The text of the first form of `Frameinfo::print` (line 237). -/
def unknown_location_text : Str :=
  GREY ++ "<unknown location>".toList ++ RESET ++ ENDL

/-- The text of the second and third form (lines 242 and 247). -/
def somewhere_in_text (what : Str) : Str :=
  GREY ++ "somewhere in".toList ++ RESET ++ " ".toList ++ what ++ ENDL

/-- The text of the full form (lines 252-257), `fname_pos` being the value
`split_path_filename` returned; `fname_pos + 1` is computed in `size_t`. -/
def full_form_text (f : Frameinfo) (fname_pos : Nat) : Str :=
  GREY ++ "at ".toList ++
    (if fname_pos > 0 then f.short_source_file_path.take ((fname_pos + 1) % SIZE) else []) ++
    YELLOW ++ f.short_source_file_path.drop ((fname_pos + 1) % SIZE) ++
    GREY ++ ":".toList ++ RED ++ decimal f.linenr ++ " ".toList ++ GREY ++ "in".toList ++
    YELLOW ++ " ".toList ++ f.symbol ++ RESET ++ ENDL

/-- Member `Frameinfo::print()`: the text written to `std::cerr`, or the way
`split_path_filename` failed to return. -/
def Frameinfo.print (fuel : Nat) (f : Frameinfo) : Except Fault Str :=
  match f.shared_obj with
  | none => .ok unknown_location_text
  | some shared_obj =>
    if f.symbol.length = 0 then .ok (somewhere_in_text shared_obj)
    else if f.source_file_path.length = 0 then .ok (somewhere_in_text f.symbol)
    else
      match split_path_filename fuel f.short_source_file_path with
      | .ok fname_pos => .ok (full_form_text f fname_pos)
      | .error e => .error e


/-! ## `getline_from_fd` -/

/-- Characters `fgets` stores when it may still read `k` of them: it stops
after a line feed, which is stored, or at the end of the stream. Returns the
characters stored and the rest of the stream. -/
def fgets_take : Nat → Str → Str × Str
  | 0, s => ([], s)
  | _ + 1, [] => ([], [])
  | k + 1, c :: cs =>
    if c = LF then ([c], cs)
    else
      let r := fgets_take k cs
      (c :: r.1, r.2)

/-- Call `std::fgets(line, n, fd)` on the stream whose unread part is `fd`:
`none` is the null pointer returned at the end of the stream; otherwise the
characters stored before the terminating NUL, and the unread rest. -/
def fgets (n : Nat) (fd : Str) : Option (Str × Str) :=
  match fd with
  | [] => none
  | _ :: _ => some (fgets_take (n - 1) fd)

/-- The C string held by a buffer: its characters before the first NUL. -/
def c_str (buf : Str) : Str := buf.takeWhile (fun c => decide (c ≠ NUL))

/-- Function `std::strlen`. -/
def strlen (buf : Str) : Nat := (c_str buf).length

/-- Function `getline_from_fd(fd)` from the label `parse_line` on, `str` being
the characters collected so far. Returns the string and the unread rest of
the stream. With `linelen = 0` the assignment `line[linelen - 1] = 0` writes
before the buffer, which is undefined behaviour. Every round that jumps back
has consumed 255 characters. -/
def getline_from_fd : Nat → Str → Str → Except Fault (Str × Str)
  | 0, _, _ => .error .out_of_fuel
  | fuel + 1, fd, str =>
    match fgets 256 fd with
    | none => .ok (str, fd)
    | some (line, rest) =>
      if strlen line = 255 ∧ char_at line 254 ≠ LF then
        getline_from_fd fuel rest (str ++ c_str line)
      else if strlen line = 0 then .error .undefined_behaviour
      else .ok (str ++ (c_str line).take (strlen line - 1), rest)

/-! ## Parsing of a resolver record -/

/-- Function `isspace` in the C locale. -/
def is_space (c : Char) : Bool :=
  c.toNat = 32 || (9 ≤ c.toNat && c.toNat ≤ 13)

/-- Value of a string of decimal digits. -/
def digits_value (ds : Str) : Nat :=
  ds.foldl (fun acc d => acc * 10 + (d.toNat - 48)) 0

/-- Function `std::strtoull(s, nullptr, 10)`: white space is skipped, a sign
is accepted, the longest run of digits is converted; no digits give 0, a value
that does not fit gives `ULLONG_MAX`, a minus sign negates in `size_t`. -/
def strtoull (s : Str) : Nat :=
  let s1 := s.dropWhile is_space
  let neg := s1.head? = some '-'
  let s2 := if s1.head? = some '-' ∨ s1.head? = some '+' then s1.tail else s1
  let ds := s2.takeWhile Char.isDigit
  if ds = [] then 0
  else if SIZE ≤ digits_value ds then SIZE - 1
  else if neg then (SIZE - digits_value ds) % SIZE
  else digits_value ds

/-- Lines 376-395: the record of one frame, from the module path of its batch
and the two lines read from the resolver. -/
def parse_frame (cwd shared_obj : Str) (finfo : Frameinfo) (symbol locspec : Str) :
    Frameinfo :=
  let colon_idx := rfind locspec ':' NPOS
  let source_file_path := locspec.take colon_idx
  let linenr := strtoull (locspec.drop ((colon_idx + 1) % SIZE))
  if source_file_path = "??".toList then
    { finfo with shared_obj := some shared_obj, symbol := symbol, source_file_path := [],
                 linenr := linenr }
  else
    { shared_obj := some shared_obj, symbol := symbol,
      source_file_path := source_file_path,
      short_source_file_path := shorten_path source_file_path cwd,
      linenr := linenr }

/-! ## `std::multimap<std::string, size_t>` -/

/-- Order of `std::string`: lexicographic by character. -/
def str_lt : Str → Str → Bool
  | [], [] => false
  | [], _ :: _ => true
  | _ :: _, [] => false
  | a :: as, b :: bs =>
    if a < b then true else if b < a then false else str_lt as bs

/-- Member `emplace` of a `std::multimap<std::string,size_t>` kept as a list
sorted by key: the pair goes after the entries whose key is not greater. -/
def multimap_emplace (k : Str) (v : Nat) : List (Str × Nat) → List (Str × Nat)
  | [] => [(k, v)]
  | e :: rest =>
    if str_lt k e.1 then (k, v) :: e :: rest
    else e :: multimap_emplace k v rest

/-- Member `lower_bound(k)`, an iterator being the entries from its position
on: the entries from the first one whose key is not less than `k`. -/
def multimap_lower_bound (k : Str) (m : List (Str × Nat)) : List (Str × Nat) :=
  m.dropWhile (fun e => str_lt e.1 k)

/-- Member `upper_bound(k)`: the entries from the first one whose key is
greater than `k`. -/
def multimap_upper_bound (k : Str) (m : List (Str × Nat)) : List (Str × Nat) :=
  m.dropWhile (fun e => !str_lt k e.1)

/-- The entries between two iterators of one container. -/
def range_between (first second : List (Str × Nat)) : List (Str × Nat) :=
  first.take (first.length - second.length)

/-! ## `print_backtrace`: grouping and symbolization -/

/-- The constant `MAX_DEPTH`. -/
def MAX_DEPTH : Nat := 64

/-- What `print_backtrace` gets from outside: the return addresses of the
call stack, innermost first; the answer of `dladdr1` for an address
(`dli_fname` and `l_addr`, `none` when the call returns 0); the working
directory; and, for a command line, what `popen` and `pclose` give: the text
the process writes and its exit status, `none` when `popen` returns null. -/
structure Env where
  stack : List Nat
  dladdr1 : Nat → Option (Str × Nat)
  cwd : Str
  popen : Str → Option (Str × Nat)

/-- The buffer `bt_buf` after `backtrace(&bt_buf[0], MAX_DEPTH)`. -/
def Env.bt_buf (env : Env) : List Nat := env.stack.take MAX_DEPTH

/-- The value `stack_depth`. -/
def Env.stack_depth (env : Env) : Nat := env.bt_buf.length

/-- The answer of `dladdr1` for frame `i`. -/
def Env.lookup (env : Env) (i : Nat) : Option (Str × Nat) :=
  env.dladdr1 (env.bt_buf.getD i 0)

/-- The module path `dlinfos[i].dli_fname` of frame `i`, when its lookup
succeeded. -/
def Env.module_of (env : Env) (i : Nat) : Option Str :=
  (env.lookup i).map Prod.fst

/-- The frame indices the loops `for (i = skip_frames; i < stack_depth; ++i)`
run through. -/
def Env.frame_range (env : Env) (skip_frames : Nat) : List Nat :=
  List.range' skip_frames (env.stack_depth - skip_frames)

/-- The loop of lines 304-322: the multimap `dynamic_objects`. -/
def group_frames (env : Env) (skip_frames : Nat) : List (Str × Nat) :=
  (env.frame_range skip_frames).foldl
    (fun m i =>
      match env.lookup i with
      | none => m
      | some d => multimap_emplace d.1 i m)
    []

/-- The text written to `std::cerr` by the loop of lines 304-322: one warning
for every frame whose lookup failed. -/
def grouping_warnings (env : Env) (skip_frames : Nat) : Str :=
  ((env.frame_range skip_frames).map
    (fun i =>
      match env.lookup i with
      | none => "WARNING: failed to trace an address".toList ++ ENDL
      | some _ => [])).flatten

/-- The argument passed for frame `i`: return address minus one minus the load
base of the module, in pointer (64-bit) arithmetic. -/
def elf_offset (env : Env) (i : Nat) : Nat :=
  match env.lookup i with
  | some d => (env.bt_buf.getD i 0 % SIZE + 2 * SIZE - 1 - d.2 % SIZE) % SIZE
  | none => 0

/-- Hexadecimal digits of `v`, most significant first, at most `fuel` of
them. -/
def hex_digits : Nat → Nat → Str
  | 0, _ => []
  | fuel + 1, v =>
    if v < 16 then [Nat.digitChar v]
    else hex_digits fuel (v / 16) ++ [Nat.digitChar (v % 16)]

/-- Output of the conversion `%p` of glibc for a 64-bit pointer. -/
def format_pointer (v : Nat) : Str :=
  if v = 0 then "(nil)".toList else "0x".toList ++ hex_digits 16 v

/-- The constant `command_base`. -/
def command_base : Str := "addr2line --demangle -f -e".toList

/-- The value `command_len` of lines 336-338; `sizeof(command_base)` counts
the terminating NUL. -/
def command_len (env : Env) (fname : Str) : Nat :=
  (command_base.length + 1) + 1 + fname.length + (3 + 16) * env.stack_depth + 1

/-- The loop of lines 344-360 over the frames of one range, `command` being
the text written so far; `none` is the exit of line 358. -/
def append_offsets (env : Env) (fname : Str) : List Nat → Str → Option Str
  | [], command => some command
  | i :: rest, command =>
    let command1 := command ++ " ".toList ++ format_pointer (elf_offset env i)
    if command1.length > command_len env fname then none
    else append_offsets env fname rest command1

/-- The command line built in lines 335-360 for the module `fname` and the
frames of its range. -/
def build_command (env : Env) (fname : Str) (frames : List Nat) : Option Str :=
  append_offsets env fname frames (command_base ++ " ".toList ++ fname)

/-- The command line as a text: the base, the module path, and one `%p`
argument per frame. -/
def batch_command (env : Env) (fname : Str) (frames : List Nat) : Str :=
  command_base ++ " ".toList ++ fname ++
    (frames.map (fun i => " ".toList ++ format_pointer (elf_offset env i))).flatten

/-- The value every element of `frameinfos` starts with. -/
def Frameinfo.empty : Frameinfo :=
  { shared_obj := none, symbol := [], source_file_path := [],
    short_source_file_path := [], linenr := 0 }

/-- The loop of lines 372-403 over the frames of one range: two lines are read
from the resolver for each frame and stored in its element of `frameinfos`.
Returns the array and the unread rest of the stream. -/
def process_batch (cwd fname : Str) :
    List Nat → Str → List Frameinfo → Except Fault (List Frameinfo × Str)
  | [], fd, fis => .ok (fis, fd)
  | i :: rest, fd, fis =>
    match getline_from_fd (fd.length + 1) fd [] with
    | .error e => .error e
    | .ok (symbol, fd1) =>
      match getline_from_fd (fd1.length + 1) fd1 [] with
      | .error e => .error e
      | .ok (locspec, fd2) =>
        process_batch cwd fname rest fd2
          (fis.set i (parse_frame cwd fname (fis.getD i Frameinfo.empty) symbol locspec))

/-- The ways the symbolization part of `print_backtrace` ends. -/
inductive RunOutcome where
  | completed
  | launch_failed
  | exited
  | fault (f : Fault)
deriving DecidableEq, Repr

/-- State of the symbolization: how it ended, the command lines passed to
`popen` in order, the ranges visited (module path and frame indices) in
order, and the array `frameinfos`. -/
structure SymbolizeResult where
  outcome : RunOutcome
  invocations : List Str
  batches : List (Str × List Nat)
  frameinfos : List Frameinfo
deriving DecidableEq, Repr

/-- The loop of lines 330-408, `it` being the entries from the iterator on and
`m` the whole multimap. -/
def symbolize_loop (env : Env) (m : List (Str × Nat)) :
    Nat → List (Str × Nat) → SymbolizeResult → SymbolizeResult
  | 0, _, acc => { acc with outcome := .fault .out_of_fuel }
  | _ + 1, [], acc => { acc with outcome := .completed }
  | fuel + 1, e :: _, acc =>
    let first := multimap_lower_bound e.1 m
    let second := multimap_upper_bound e.1 m
    let frames := (range_between first second).map Prod.snd
    match build_command env e.1 frames with
    | none => { acc with outcome := .exited }
    | some command =>
      match env.popen command with
      | none =>
        { acc with outcome := .launch_failed,
                   invocations := acc.invocations ++ [command],
                   batches := acc.batches ++ [(e.1, frames)] }
      | some (output, status) =>
        match process_batch env.cwd e.1 frames output acc.frameinfos with
        | .error f =>
          { acc with outcome := .fault f,
                     invocations := acc.invocations ++ [command],
                     batches := acc.batches ++ [(e.1, frames)] }
        | .ok (fis, _) =>
          if status ≠ 0 then
            { outcome := .exited,
              invocations := acc.invocations ++ [command],
              batches := acc.batches ++ [(e.1, frames)],
              frameinfos := fis }
          else
            symbolize_loop env m fuel second
              { acc with invocations := acc.invocations ++ [command],
                         batches := acc.batches ++ [(e.1, frames)],
                         frameinfos := fis }

/-- Lines 296-408 of `print_backtrace`: grouping, then one resolver call per
range of the multimap. Every round of the loop moves the iterator past at
least one entry. -/
def symbolize (env : Env) (skip_frames : Nat) : SymbolizeResult :=
  let m := group_frames env skip_frames
  symbolize_loop env m (m.length + 1) m
    { outcome := .completed, invocations := [], batches := [],
      frameinfos := List.replicate MAX_DEPTH Frameinfo.empty }

/-- The frames of module `fname`: the indices in the range whose lookup
reported that path, in increasing order. -/
def module_frames (env : Env) (skip_frames : Nat) (fname : Str) : List Nat :=
  (env.frame_range skip_frames).filter (fun i => decide (env.module_of i = some fname))

/-- The text a resolver writes for a list of records: for each one the symbol
line and the location line, each ended by a line feed. -/
def encode_records (recs : List (Str × Str)) : Str :=
  (recs.map (fun r => r.1 ++ [LF] ++ r.2 ++ [LF])).flatten

/-- A line of text: no line feed and no NUL in it. -/
def is_line (s : Str) : Prop := LF ∉ s ∧ NUL ∉ s

/-- A multimap is sorted: no entry has a key greater than the key of a later
entry. -/
def KeySorted (m : List (Str × Nat)) : Prop :=
  m.Pairwise (fun a b => str_lt b.1 a.1 = false)

/-- The test `key = k` on the entries of a multimap. -/
def has_key (k : Str) (e : Str × Nat) : Bool := decide (e.1 = k)


/-- The resolver answers every batch: for each module that has frames, the
command line of its batch launches, exits with status 0, and writes a text
without NUL characters. -/
def ResolverAnswers (env : Env) (skip_frames : Nat) : Prop :=
  ∀ k, module_frames env skip_frames k ≠ [] →
    ∃ out, env.popen (batch_command env k (module_frames env skip_frames k)) = some (out, 0) ∧
      NUL ∉ out

/-- The iterator `it` of the loop over the multimap `m` is sorted, points into
`m`, and has every entry of `m` with a greater key than one of its own. -/
structure IterAt (m it : List (Str × Nat)) : Prop where
  sorted : KeySorted it
  sub : ∀ x ∈ it, x ∈ m
  above : ∀ x ∈ it, m.filter (fun e => str_lt x.1 e.1) = it.filter (fun e => str_lt x.1 e.1)

/-- What the loop over the multimap has done when it ends, started at `it`
with the state `acc`: it completed; `new` lists the ranges it visited, one
per key of `it`, in increasing order of the keys, each with the frames of its
module and one resolver call; frames of other modules are as before; and the
frames of each range hold what the parsing loop of that range stored, having
been empty before it. -/
structure LoopPost (env : Env) (skip_frames : Nat) (it : List (Str × Nat))
    (acc res : SymbolizeResult) (new : List (Str × List Nat)) : Prop where
  outcome_eq : res.outcome = .completed
  batches_eq : res.batches = acc.batches ++ new
  invocations_eq : res.invocations
    = acc.invocations ++ new.map (fun b => batch_command env b.1 b.2)
  length_eq : res.frameinfos.length = acc.frameinfos.length
  increasing : (new.map Prod.fst).Pairwise (fun a b => str_lt a b = true)
  from_iter : ∀ b ∈ new, ∃ x ∈ it, x.1 = b.1
  covers : ∀ x ∈ it, ∃ b ∈ new, b.1 = x.1
  frames_eq : ∀ b ∈ new, b.2 = module_frames env skip_frames b.1
  untouched : ∀ i, (∀ x ∈ it, env.module_of i ≠ some x.1) →
    res.frameinfos.getD i Frameinfo.empty = acc.frameinfos.getD i Frameinfo.empty
  stored : ∀ b ∈ new, ∃ out fis0 fis1 rest,
    env.popen (batch_command env b.1 b.2) = some (out, 0) ∧
    process_batch env.cwd b.1 b.2 out fis0 = .ok (fis1, rest) ∧
    fis0.length = MAX_DEPTH ∧
    (∀ i ∈ b.2, fis0.getD i Frameinfo.empty = Frameinfo.empty) ∧
    (∀ i ∈ b.2, res.frameinfos.getD i Frameinfo.empty = fis1.getD i Frameinfo.empty)


/-- The resolver answers every batch with the records `recs`: for each module
`k` that has frames, the command line of its batch launches, exits with status
0, and writes one two-line record per frame, `recs k`, made of lines. -/
def ResolverWrites (env : Env) (skip_frames : Nat) (recs : Str → List (Str × Str)) : Prop :=
  ∀ k, module_frames env skip_frames k ≠ [] →
    env.popen (batch_command env k (module_frames env skip_frames k))
      = some (encode_records (recs k), 0) ∧
    (recs k).length = (module_frames env skip_frames k).length ∧
    ∀ r ∈ recs k, is_line r.1 ∧ is_line r.2

/-- A sample run: six return addresses, the one at index 3 unknown to the
loader, the others in `/bin/app` (loaded at 0x1000) or `/lib/libc.so` (loaded
at 0x2000); the resolver writes two records for either module, the two of
`/lib/libc.so` naming the same symbol. -/
def sample_env : Env :=
  { stack := [0x1010, 0x2020, 0x1030, 0x9999, 0x2040, 0x1050],
    dladdr1 := fun a =>
      if a = 0x9999 then none
      else if a < 0x2000 then some ("/bin/app".toList, 0x1000)
      else some ("/lib/libc.so".toList, 0x2000),
    cwd := "/home/u".toList,
    popen := fun cmd =>
      if cmd = "addr2line --demangle -f -e /bin/app 0x2f 0x4f".toList then
        some ("main\n/home/u/a.cpp:12\nf()\n??:0\n".toList, 0)
      else some ("g\n/x/y.c:7\ng\n/x/y.c:9\n".toList, 0) }

/-- The records the resolver of `sample_env` writes for a module. -/
def sample_records (k : Str) : List (Str × Str) :=
  if k = "/bin/app".toList then
    [("main".toList, "/home/u/a.cpp:12".toList), ("f()".toList, "??:0".toList)]
  else [("g".toList, "/x/y.c:7".toList), ("g".toList, "/x/y.c:9".toList)]


/-! ## Files of any content -/

/-- The lines of a file: the texts that are followed by a line feed, and the
text after the last line feed (the unterminated last line, empty when the file
ends with a line feed). -/
def lines_of : Str → List Str × Str
  | [] => ([], [])
  | c :: cs =>
    if c = LF then ([] :: (lines_of cs).1, (lines_of cs).2)
    else
      match (lines_of cs).1 with
      | [] => ([], c :: (lines_of cs).2)
      | l :: ls => ((c :: l) :: ls, (lines_of cs).2)

/-- The reader follows a file made of the terminated lines `ls` and the
unterminated rest `tail`: the stream is in good state; the cursor is on a line
`1 ≤ currline ≤ L + 1`; the get position is the start of that line, or the end
of the file after a read that ran into it; and the checkpoint map holds the
starts of the lines `1, 17, ..., 16 * m + 1` for some `m` that the cursor has
not run past. -/
structure Tracks (ls : List Str) (tail : Str) (r : LineReader) : Prop where
  content_eq : r.ifs.content = file_of_lines ls ++ tail
  eof_clear : r.ifs.eofbit = false
  fail_clear : r.ifs.failbit = false
  line_pos : 1 ≤ r.currline
  line_le : r.currline ≤ ls.length + 1
  pos_eq : r.ifs.pos = line_offset ls (r.currline - 1) ∨
    (r.currline = ls.length + 1 ∧ r.ifs.pos = (file_of_lines ls ++ tail).length)
  index_eq : ∃ m, 16 * m ≤ ls.length ∧ r.currline ≤ 16 * m + 16 ∧
    r.lineoffsets = checkpoints ls m

/-- The line a checkpoint entry stands for: its key minus the granularity. -/
def checkpoint_line (e : Nat × Nat) : Nat := e.1 - LINE_GRANULARITY


/-- The value `(size_t)std::ceil(std::log10(n))` of lines 414-415 for a line
number `n ≠ 0`: the least `k` with `n ≤ 10 ^ k`, which is the ceiling of the
real logarithm. The `double` computation gives this value for every line
number below `10 ^ 12`: up to there the conversion to `double` is exact, the
logarithm of a power of ten is a whole number that `log10` returns as such,
and any other logarithm is further from a whole number than the rounding
error. From about `10 ^ 15` on the rounding of the conversion and of the
logarithm can make the `double` computation differ from this value; nothing is
stated about such line numbers. Every `size_t` is below `10 ^ 20`. -/
def ceil_log10 (n : Nat) : Nat :=
  ((List.range 21).find? (fun k => decide (n ≤ 10 ^ k))).getD 20

/-- The loop of lines 411-416 of `print_backtrace`: the value of
`max_line_digits` after the frames `skip_frames ≤ i < stack_depth` of the
array `frameinfos`. -/
def max_line_digits (frameinfos : List Frameinfo) (skip_frames stack_depth : Nat) : Nat :=
  (List.range' skip_frames (stack_depth - skip_frames)).foldl
    (fun w i =>
      if (frameinfos.getD i Frameinfo.empty).linenr ≠ 0 then
        max w (ceil_log10 (frameinfos.getD i Frameinfo.empty).linenr)
      else w) 1

/-! ## Text without colour -/

/-- The text `s` with the colour sequences taken out: `inside` tells whether
the text starts within a sequence; a sequence runs from the escape character
to the next `m`. -/
def strip_escapes_from : Bool → Str → Str
  | _, [] => []
  | true, c :: cs => if c = 'm' then strip_escapes_from false cs else strip_escapes_from true cs
  | false, c :: cs =>
    if c = ESC then strip_escapes_from true cs else c :: strip_escapes_from false cs

/-- The text `s` as a terminal shows it: the colour sequences removed. -/
def strip_escapes (s : Str) : Str := strip_escapes_from false s

/-- The text the full form of `Frameinfo::print` is meant to show, colours
apart: `at <display path>:<line> in <symbol>` and the end of the line. -/
def plain_frame_text (f : Frameinfo) : Str :=
  "at ".toList ++ f.short_source_file_path ++ ":".toList ++ decimal f.linenr ++
    " in ".toList ++ f.symbol ++ ENDL


/-- The number of lines of a file: the lines that end with a line feed, and
one more when text follows the last line feed. -/
def line_count (content : Str) : Nat :=
  (lines_of content).1.length + (if (lines_of content).2 = [] then 0 else 1)


theorem scan_line_of_line (l rest : Str) (h : LF ∉ l) :
    scan_line (l ++ LF :: rest) = (l, l.length + 1, false) := by
  induction l with
  | nil => simp [scan_line]
  | cons c cs ih =>
    have hc : c ≠ LF := fun e => h (by simp [e])
    have hcs : LF ∉ cs := fun e => h (by simp [e])
    simp [scan_line, hc, ih hcs]

theorem file_of_lines_append (a b : List Str) :
    file_of_lines (a ++ b) = file_of_lines a ++ file_of_lines b := by
  simp [file_of_lines]

theorem file_of_lines_cons (l : Str) (ls : List Str) :
    file_of_lines (l :: ls) = l ++ LF :: file_of_lines ls := by
  simp [file_of_lines]

theorem file_of_lines_drop (ls : List Str) (j : Nat) :
    (file_of_lines ls).drop (line_offset ls j) = file_of_lines (ls.drop j) := by
  have h : file_of_lines ls = file_of_lines (ls.take j) ++ file_of_lines (ls.drop j) := by
    rw [← file_of_lines_append, List.take_append_drop]
  rw [h, line_offset, List.drop_left]

theorem line_offset_succ (ls : List Str) (j : Nat) (h : j < ls.length) :
    line_offset ls (j + 1) = line_offset ls j + ls[j].length + 1 := by
  unfold line_offset
  rw [List.take_succ, file_of_lines_append]
  simp [List.getElem?_eq_getElem h, file_of_lines]
  omega

theorem line_offset_all (ls : List Str) :
    line_offset ls ls.length = (file_of_lines ls).length := by
  simp [line_offset]

theorem length_le_file (ls : List Str) : ls.length ≤ (file_of_lines ls).length := by
  induction ls with
  | nil => simp
  | cons l ls ih => rw [file_of_lines_cons]; simp; omega

theorem checkpoints_succ (ls : List Str) (m : Nat) :
    checkpoints ls (m + 1) = checkpoints ls m ++ [checkpoint ls (m + 1)] := by
  simp [checkpoints, List.range_succ]

theorem checkpoints_zero (ls : List Str) : checkpoints ls 0 = [checkpoint ls 0] := by
  rfl

theorem mem_checkpoints {ls : List Str} {m : Nat} {e : Nat × Nat}
    (h : e ∈ checkpoints ls m) : ∃ k, k ≤ m ∧ e = checkpoint ls k := by
  simp only [checkpoints, List.mem_map, List.mem_range] at h
  obtain ⟨k, hk, rfl⟩ := h
  exact ⟨k, by omega, rfl⟩

theorem map_emplace_append_of_lt (k v : Nat) (l l2 : List (Nat × Nat))
    (h : ∀ e ∈ l, e.1 < k) : map_emplace k v (l ++ l2) = l ++ map_emplace k v l2 := by
  induction l with
  | nil => rfl
  | cons e rest ih =>
    have he : e.1 < k := h e (by simp)
    have h1 : ¬ k < e.1 := by omega
    have h2 : ¬ k = e.1 := by omega
    simp [map_emplace, h1, h2, ih (fun x hx => h x (by simp [hx]))]

theorem map_emplace_checkpoints_new (ls : List Str) (m v : Nat) :
    map_emplace (16 * (m + 1) + 17) v (checkpoints ls m)
      = checkpoints ls m ++ [(16 * (m + 1) + 17, v)] := by
  have h := map_emplace_append_of_lt (16 * (m + 1) + 17) v (checkpoints ls m) []
    (fun e he => by
      obtain ⟨k, hk, rfl⟩ := mem_checkpoints he
      simp only [checkpoint]; omega)
  simpa [map_emplace] using h

theorem map_emplace_checkpoints_old (ls : List Str) (m k v : Nat) (hk : k ≤ m) :
    map_emplace (16 * k + 17) v (checkpoints ls m) = checkpoints ls m := by
  induction m with
  | zero =>
    have : k = 0 := by omega
    subst this
    simp [checkpoints_zero, checkpoint, map_emplace]
  | succ m ih =>
    rw [checkpoints_succ]
    by_cases hkm : k ≤ m
    · have h := ih hkm
      generalize checkpoints ls m = l at h
      induction l with
      | nil => simp [map_emplace] at h
      | cons e rest ihl =>
        simp only [map_emplace, List.cons_append] at h ⊢
        by_cases h1 : 16 * k + 17 < e.1
        · simp [h1] at h
        · by_cases h2 : 16 * k + 17 = e.1
          · simp [h1, h2]
          · simp only [h1, h2, if_false, List.cons.injEq, true_and] at h ⊢
            exact ihl h
    · have : k = m + 1 := by omega
      subst this
      rw [map_emplace_append_of_lt]
      · simp [map_emplace, checkpoint]
      · intro e he
        obtain ⟨j, hj, rfl⟩ := mem_checkpoints he
        simp only [checkpoint]; omega

theorem map_upper_bound_checkpoints (ls : List Str) (m n : Nat) :
    map_upper_bound n (checkpoints ls m)
      = if (n - 1) / 16 ≤ m then some (checkpoint ls ((n - 1) / 16)) else none := by
  induction m with
  | zero =>
    simp only [checkpoints_zero, map_upper_bound, List.find?, checkpoint]
    by_cases h : n < 17
    · have : (n - 1) / 16 = 0 := by omega
      simp [h, this]
    · have : ¬ (n - 1) / 16 ≤ 0 := by omega
      simp [h, this]
  | succ m ih =>
    unfold map_upper_bound at ih ⊢
    rw [checkpoints_succ, List.find?_append, ih]
    by_cases h : (n - 1) / 16 ≤ m
    · have : (n - 1) / 16 ≤ m + 1 := by omega
      simp [h, this]
    · by_cases h2 : (n - 1) / 16 ≤ m + 1
      · have e : (n - 1) / 16 = m + 1 := by omega
        have h3 : n < 16 * (m + 1) + 17 := by omega
        simp [h, h2, checkpoint, h3, e]
      · have h3 : ¬ n < 16 * (m + 1) + 17 := by omega
        simp [h, h2, checkpoint, h3]

theorem map_rbegin_checkpoints (ls : List Str) (m : Nat) :
    map_rbegin (checkpoints ls m) = some (checkpoint ls m) := by
  cases m with
  | zero => simp [map_rbegin, checkpoints_zero]
  | succ m => simp [map_rbegin, checkpoints_succ]


theorem getline_at_line (ls : List Str) (hls : ∀ l ∈ ls, LF ∉ l) (r : LineReader)
    (hr : Consistent ls r) (h : r.currline ≤ ls.length) (x : Str) :
    getline r.ifs x
      = ({ r.ifs with pos := line_offset ls r.currline },
         ls.getD (r.currline - 1) []) := by
  have h1 := hr.line_pos
  have hj : r.currline - 1 < ls.length := by omega
  have hdrop : r.ifs.content.drop r.ifs.pos
      = ls[r.currline - 1] ++ LF :: file_of_lines (ls.drop (r.currline - 1 + 1)) := by
    rw [hr.content_eq, hr.pos_eq, file_of_lines_drop, List.drop_eq_getElem_cons hj,
      file_of_lines_cons]
  have hscan := scan_line_of_line ls[r.currline - 1]
    (file_of_lines (ls.drop (r.currline - 1 + 1))) (hls _ (List.getElem_mem hj))
  have hoff := line_offset_succ ls (r.currline - 1) hj
  have hc : r.currline - 1 + 1 = r.currline := by omega
  rw [hc] at hoff
  unfold getline
  simp only [IfStream.good, hr.eof_clear, hr.fail_clear, hdrop, hscan]
  simp only [List.getD_eq_getElem _ _ hj, hr.pos_eq, hoff, Bool.not_false, Bool.and_self,
    if_true, Bool.false_eq_true, if_false, Nat.add_assoc]

theorem getline_at_end (ls : List Str) (r : LineReader)
    (hr : Consistent ls r) (h : r.currline = ls.length + 1) (x : Str) :
    getline r.ifs x = ({ r.ifs with eofbit := true, failbit := true }, []) := by
  have hdrop : r.ifs.content.drop r.ifs.pos = [] := by
    rw [hr.content_eq, hr.pos_eq, file_of_lines_drop, h]
    simp [file_of_lines]
  unfold getline
  simp [IfStream.good, hr.eof_clear, hr.fail_clear, hdrop, scan_line]

theorem nextline_at_end (ls : List Str) (r : LineReader)
    (hr : Consistent ls r) (h : r.currline = ls.length + 1) (x : Str) :
    r.nextline x = (.error .eof_error, r) := by
  unfold LineReader.nextline
  rw [getline_at_end ls r hr h x]
  have e1 := hr.eof_clear
  have e2 := hr.fail_clear
  cases r with
  | mk ifs lo cl =>
    cases ifs with
    | mk c p e f =>
      simp only at e1 e2
      subst e1 e2
      simp [IfStream.eof, IfStream.clear]

theorem nextline_at_line (ls : List Str) (hls : ∀ l ∈ ls, LF ∉ l) (r : LineReader)
    (hr : Consistent ls r) (h : r.currline ≤ ls.length) (x : Str) :
    ∃ r2, r.nextline x = (.ok (ls.getD (r.currline - 1) []), r2) ∧
      Consistent ls r2 ∧ r2.currline = r.currline + 1 := by
  have hg := getline_at_line ls hls r hr h x
  obtain ⟨m, hm1, hm2, hm3⟩ := hr.index_eq
  have h1 := hr.line_pos
  unfold LineReader.nextline
  simp only [hg, IfStream.eof, IfStream.fail, hr.eof_clear, hr.fail_clear,
    LINE_GRANULARITY, IfStream.tellg]
  by_cases hmod : (r.currline + 1) % 16 = 1
  · simp only [hmod, if_true]
    refine ⟨_, rfl, ?_, rfl⟩
    by_cases hnew : r.currline = 16 * m + 16
    · refine ⟨hr.content_eq, rfl, rfl, by simp, by simp; omega,
        by simp, m + 1, by omega, by simp; omega, ?_⟩
      have : r.currline + 1 + 16 = 16 * (m + 1) + 17 := by omega
      simp only [Bool.false_eq_true, if_false, hm3, this]
      rw [map_emplace_checkpoints_new, checkpoints_succ, checkpoint]
      have : r.currline = 16 * (m + 1) := by omega
      rw [this]
    · refine ⟨hr.content_eq, rfl, rfl, by simp, by simp; omega,
        by simp, m, hm1, by simp; omega, ?_⟩
      have hk : r.currline + 1 + 16 = 16 * (r.currline / 16) + 17 := by omega
      simp only [Bool.false_eq_true, if_false, hm3, hk]
      exact map_emplace_checkpoints_old ls m _ _ (by omega)
  · simp only [hmod, if_false]
    refine ⟨_, rfl, ?_, rfl⟩
    exact ⟨hr.content_eq, rfl, rfl, by simp, by simp; omega,
        by simp, m, hm1, by simp; omega, hm3⟩


theorem skip_to_spec (ls : List Str) (hls : ∀ l ∈ ls, LF ∉ l) (n : Nat) :
    ∀ (d : Nat) (r : LineReader) (x : Str) (fuel : Nat), Consistent ls r →
      ls.length + 1 - r.currline = d → d < fuel →
      ∃ r2, Consistent ls r2 ∧
        ((r.currline ≤ n ∧ n ≤ ls.length + 1 →
            r2.currline = n ∧ ∃ y, LineReader.skip_to fuel n r x = (.ok y, r2)) ∧
         (¬ (r.currline ≤ n ∧ n ≤ ls.length + 1) →
            LineReader.skip_to fuel n r x = (.error .eof_error, r2))) := by
  intro d
  induction d with
  | zero =>
    intro r x fuel hr hd hf
    obtain ⟨f, rfl⟩ : ∃ f, fuel = f + 1 := ⟨fuel - 1, by omega⟩
    have hle := hr.line_le
    have hend : r.currline = ls.length + 1 := by omega
    refine ⟨r, hr, ?_, ?_⟩
    · intro hn
      have : r.currline = n := by omega
      exact ⟨this, x, by simp [LineReader.skip_to, this]⟩
    · intro hn
      have : r.currline ≠ n := by omega
      simp [LineReader.skip_to, this, nextline_at_end ls r hr hend]
  | succ d ih =>
    intro r x fuel hr hd hf
    obtain ⟨f, rfl⟩ : ∃ f, fuel = f + 1 := ⟨fuel - 1, by omega⟩
    have hle := hr.line_le
    by_cases hcn : r.currline = n
    · refine ⟨r, hr, ?_, ?_⟩
      · intro _
        exact ⟨hcn, x, by simp [LineReader.skip_to, hcn]⟩
      · intro hn
        omega
    · obtain ⟨r1, hnext, hr1, hc1⟩ := nextline_at_line ls hls r hr (by omega) x
      obtain ⟨r2, hr2, hok, herr⟩ :=
        ih r1 (ls.getD (r.currline - 1) []) f hr1 (by omega) (by omega)
      refine ⟨r2, hr2, ?_, ?_⟩
      · intro hn
        obtain ⟨e, y, hy⟩ := hok (by omega)
        refine ⟨e, y, ?_⟩
        simp only [LineReader.skip_to, ne_eq, hcn, not_false_eq_true, if_true, hnext]
        exact hy
      · intro hn
        have := herr (by omega)
        simp only [LineReader.skip_to, ne_eq, hcn, not_false_eq_true, if_true, hnext]
        exact this

theorem seek_target_checkpoints (ls : List Str) (r : LineReader) (m n : Nat)
    (h : r.lineoffsets = checkpoints ls m) :
    r.seek_target n = some (checkpoint ls (min ((n - 1) / 16) m)) := by
  unfold LineReader.seek_target
  rw [h, map_upper_bound_checkpoints, map_rbegin_checkpoints]
  by_cases hk : (n - 1) / 16 ≤ m
  · simp [hk]
  · have : min ((n - 1) / 16) m = m := by omega
    simp [hk, this]

theorem read_line_spec (ls : List Str) (hls : ∀ l ∈ ls, LF ∉ l) (r : LineReader)
    (hr : Consistent ls r) (n : Nat) :
    ∃ r2, Consistent ls r2 ∧
      r.read_line n
        = (if 1 ≤ n ∧ n ≤ ls.length then .ok (ls.getD (n - 1) []) else .error .eof_error,
           r2) := by
  have h1 := hr.line_pos
  have hle := hr.line_le
  by_cases hcn : n = r.currline
  · subst hcn
    by_cases hin : r.currline ≤ ls.length
    · obtain ⟨r2, hnext, hr2, _⟩ := nextline_at_line ls hls r hr hin []
      refine ⟨r2, hr2, ?_⟩
      have : 1 ≤ r.currline ∧ r.currline ≤ ls.length := ⟨h1, hin⟩
      rw [if_pos this]
      simp only [LineReader.read_line, ne_eq, not_true_eq_false, if_false, hnext]
    · refine ⟨r, hr, ?_⟩
      have : ¬ (1 ≤ r.currline ∧ r.currline ≤ ls.length) := by omega
      rw [if_neg this]
      simp only [LineReader.read_line, ne_eq, not_true_eq_false, if_false,
        nextline_at_end ls r hr (by omega)]
  · obtain ⟨m, hm1, hm2, hm3⟩ := hr.index_eq
    have hseek := seek_target_checkpoints ls r m n hm3
    let k := min ((n - 1) / 16) m
    have hk1 : k ≤ m := Nat.min_le_right _ _
    have hk2 : k ≤ (n - 1) / 16 := Nat.min_le_left _ _
    let r1 : LineReader :=
      { r with currline := (checkpoint ls k).1 - LINE_GRANULARITY,
               ifs := r.ifs.seekg (checkpoint ls k).2 }
    have hcur : r1.currline = 16 * k + 1 := by
      simp [r1, checkpoint, LINE_GRANULARITY]
    have hr1 : Consistent ls r1 := by
      refine ⟨?_, ?_, ?_, ?_, ?_, ?_, m, hm1, ?_, hm3⟩
      · simp [r1, IfStream.seekg, hr.fail_clear, hr.content_eq]
      · simp [r1, IfStream.seekg, hr.fail_clear]
      · simp [r1, IfStream.seekg, hr.fail_clear]
      · rw [hcur]; omega
      · rw [hcur]; omega
      · rw [hcur]; simp [r1, IfStream.seekg, hr.fail_clear, checkpoint]
      · rw [hcur]; omega
    have hlen : r1.ifs.content.length = (file_of_lines ls).length := by
      rw [hr1.content_eq]
    have hfile := length_le_file ls
    obtain ⟨r2, hr2, hok, herr⟩ := skip_to_spec ls hls n (ls.length + 1 - r1.currline) r1 []
      (r1.ifs.content.length + 1) hr1 rfl (by omega)
    by_cases hin : r1.currline ≤ n ∧ n ≤ ls.length + 1
    · obtain ⟨e, y, hy⟩ := hok hin
      have hstep : r.read_line n = r2.nextline y := by
        simp only [LineReader.read_line, hcn, ne_eq, not_false_eq_true, if_true, hseek]
        show (match LineReader.skip_to (r1.ifs.content.length + 1) n r1 [] with
          | (.ok l, r2) => r2.nextline l
          | (.error e, r2) => (.error e, r2)) = _
        rw [hy]
      by_cases hL : n ≤ ls.length
      · obtain ⟨r3, hnext, hr3, _⟩ := nextline_at_line ls hls r2 hr2 (by omega) y
        refine ⟨r3, hr3, ?_⟩
        have : 1 ≤ n ∧ n ≤ ls.length := ⟨by omega, hL⟩
        rw [hstep, hnext, e, if_pos this]
      · refine ⟨r2, hr2, ?_⟩
        have : ¬ (1 ≤ n ∧ n ≤ ls.length) := by omega
        rw [hstep, nextline_at_end ls r2 hr2 (by omega), if_neg this]
    · have hy := herr hin
      refine ⟨r2, hr2, ?_⟩
      have : ¬ (1 ≤ n ∧ n ≤ ls.length) := by
        rw [hcur] at hin
        omega
      rw [if_neg this]
      simp only [LineReader.read_line, hcn, ne_eq, not_false_eq_true, if_true, hseek]
      show (match LineReader.skip_to (r1.ifs.content.length + 1) n r1 [] with
          | (.ok l, r2) => r2.nextline l
          | (.error e, r2) => (.error e, r2)) = _
      rw [hy]

theorem consistent_init (ls : List Str) : Consistent ls (LineReader.init (file_of_lines ls)) := by
  refine ⟨rfl, rfl, rfl, by simp [LineReader.init], by simp [LineReader.init], ?_, 0, by omega,
    by simp [LineReader.init], rfl⟩
  simp [LineReader.init, line_offset, file_of_lines]

theorem consistent_run_requests (ls : List Str) (hls : ∀ l ∈ ls, LF ∉ l) (reqs : List Nat) :
    ∀ r, Consistent ls r → Consistent ls (run_requests r reqs) := by
  induction reqs with
  | nil => intro r hr; exact hr
  | cons n rest ih =>
    intro r hr
    obtain ⟨r2, hr2, h⟩ := read_line_spec ls hls r hr n
    have : run_requests r (n :: rest) = run_requests r2 rest := by
      simp [run_requests, h]
    rw [this]
    exact ih r2 hr2


/-- Opening a readable file gives the initial reader state. -/
theorem new_of_readable (content : Str) :
    LineReader.new (some content) = .ok (LineReader.init content) := rfl

/-- C1: in a file of `L` line-feed-terminated lines, after any sequence of
`read_line` requests on a freshly opened reader (any order, repeats, requests
that fail with end-of-file included), `read_line n` with `1 ≤ n ≤ L` returns
exactly the text of line `n`, without its line feed. -/
theorem read_line_returns_requested_line (ls : List Str) (hls : ∀ l ∈ ls, LF ∉ l)
    (reqs : List Nat) (n : Nat) (h1 : 1 ≤ n) (hn : n ≤ ls.length) :
    ((run_requests (LineReader.init (file_of_lines ls)) reqs).read_line n).1
      = .ok (ls.get ⟨n - 1, by omega⟩) := by
  obtain ⟨r2, _, h⟩ := read_line_spec ls hls _
    (consistent_run_requests ls hls reqs _ (consistent_init ls)) n
  have hj : n - 1 < ls.length := by omega
  rw [h, if_pos ⟨h1, hn⟩, List.getD_eq_getElem _ _ hj]
  rfl

/-- Witness for C1: a three-line file, the requests 3, 1, 0, 5, 2, then a
request for line 3. -/
theorem read_line_returns_requested_line_witness :
    (∀ l ∈ ["ab".toList, "".toList, "cde".toList], LF ∉ l) ∧
    ((run_requests (LineReader.init
        (file_of_lines ["ab".toList, "".toList, "cde".toList])) [3, 1, 0, 5, 2]).read_line 3).1
      = .ok "cde".toList :=
  ⟨by decide,
   read_line_returns_requested_line ["ab".toList, "".toList, "cde".toList] (by decide)
     [3, 1, 0, 5, 2] 3 (by decide) (by decide)⟩


theorem char_at_append_left (a b : Str) (i : Nat) (h : i < a.length) :
    char_at (a ++ b) i = char_at a i := by
  simp [char_at, List.getD_eq_getElem?_getD, List.getElem?_append_left h]

theorem char_at_length_cons (a : Str) (c : Char) (b : Str) :
    char_at (a ++ c :: b) a.length = c := by
  simp [char_at, List.getD_eq_getElem?_getD, List.getElem?_append_right (le_refl a.length)]

theorem slash_ne_backslash : SLASH ≠ BACKSLASH := by decide

/-- With `rel_to` a prefix of `path`, the first loop runs to the end of
`rel_to`. -/
theorem common_prefix_loop_under_base (base x : Str) :
    ∀ (fuel i sp : Nat), i ≤ base.length → base.length - i ≤ fuel →
      (common_prefix_loop (base ++ x) base fuel i sp).1 = base.length := by
  intro fuel
  induction fuel with
  | zero =>
    intro i sp h1 h2
    simp only [common_prefix_loop]
    omega
  | succ f ih =>
    intro i sp h1 h2
    simp only [common_prefix_loop]
    by_cases hi : i < base.length
    · have hmin : i < min (base ++ x).length base.length := by simp; omega
      have heq : char_at (base ++ x) i = char_at base i := char_at_append_left _ _ _ hi
      simp only [hmin, if_true, heq, ne_eq, not_true_eq_false, if_false]
      split
      · rename_i hskip
        exact ih _ _ (by omega) (by omega)
      · exact ih _ _ (by omega) (by omega)
    · have hmin : ¬ i < min (base ++ x).length base.length := by simp; omega
      simp only [hmin, if_false]
      omega

theorem shorten_scan_under_base (base rest : Str) :
    shorten_scan (base ++ SLASH :: rest) base = (base.length + 1, base.length + 1) := by
  have hmin : min (base ++ SLASH :: rest).length base.length = base.length := by simp
  have h := common_prefix_loop_under_base base (SLASH :: rest) base.length 0 0 (by omega)
    (by omega)
  have hlt : base.length < (base ++ SLASH :: rest).length := by simp
  unfold shorten_scan
  rw [hmin]
  simp only [h, char_at_length_cons, hlt, and_self, if_true]

/-- C4: for every base directory string `base` and every string `rest`,
`shorten_path(base + "/" + rest, base)` returns exactly `rest`. -/
theorem shorten_path_under_base (base rest : Str) :
    shorten_path (base ++ SLASH :: rest) base = rest := by
  have hscan := shorten_scan_under_base base rest
  have hdots : dotdot_segments (base ++ SLASH :: rest) base = [] := by
    simp [dotdot_segments, hscan, dotdot_loop]
  have hrel : relative_form (base ++ SLASH :: rest) base = rest := by
    simp only [relative_form, hscan, hdots]
    have : (base ++ SLASH :: rest).drop (base.length + 1) = rest := by
      rw [show base ++ SLASH :: rest = (base ++ [SLASH]) ++ rest by simp]
      exact List.drop_left' (by simp)
    simp [this]
  simp only [shorten_path, hrel]
  have : rest.length < (base ++ SLASH :: rest).length := by simp; omega
  rw [if_pos this]

/-- C5: for all strings `path` and `base`, `shorten_path(path, base)` is `path`
itself or a string strictly shorter than `path`; it is never longer. -/
theorem shorten_path_not_longer (path base : Str) :
    (shorten_path path base = path ∨ (shorten_path path base).length < path.length) ∧
    (shorten_path path base).length ≤ path.length := by
  unfold shorten_path
  by_cases h : (relative_form path base).length < path.length
  · rw [if_pos h]
    exact ⟨Or.inr h, by omega⟩
  · rw [if_neg h]
    exact ⟨Or.inl rfl, le_refl _⟩


theorem last_slash_from_no_slash (c : Str) (h : SLASH ∉ c) :
    ∀ i sp, last_slash_from i c sp = sp := by
  induction c with
  | nil => intro i sp; rfl
  | cons a c ih =>
    intro i sp
    have ha : a ≠ SLASH := fun e => h (by simp [e])
    have hc : SLASH ∉ c := fun e => h (by simp [e])
    simp [last_slash_from, ha, ih hc]

theorem last_slash_from_split (d f : Str) (h : SLASH ∉ f) :
    ∀ i sp, last_slash_from i (d ++ SLASH :: f) sp = i + d.length := by
  induction d with
  | nil =>
    intro i sp
    simp [last_slash_from, last_slash_from_no_slash f h]
  | cons a d ih =>
    intro i sp
    rw [List.cons_append]
    simp only [last_slash_from]
    rw [ih, List.length_cons]
    omega

/-- The first loop over a stretch `c` that both strings share and that holds
no backslash: it stops right after `c` when the strings part there. -/
theorem common_prefix_loop_shared (c : Str) (hc : BACKSLASH ∉ c) (ps bs : Str)
    (hdiff : ps = [] ∨ bs = [] ∨ ps.head? ≠ bs.head?) :
    ∀ (pre : Str) (fuel sp : Nat), c.length ≤ fuel →
      common_prefix_loop (pre ++ c ++ ps) (pre ++ c ++ bs) fuel pre.length sp
        = (pre.length + c.length, last_slash_from pre.length c sp) := by
  induction c with
  | nil =>
    intro pre fuel sp _
    cases fuel with
    | zero => simp [common_prefix_loop, last_slash_from]
    | succ f =>
      simp only [common_prefix_loop, List.append_nil, List.length_nil, Nat.add_zero,
        last_slash_from]
      by_cases hmin : pre.length < min (pre ++ ps).length (pre ++ bs).length
      · have hp : ps ≠ [] := by
          intro e; subst e; simp at hmin
        have hb : bs ≠ [] := by
          intro e; subst e; simp at hmin
        obtain ⟨x, ps2, rfl⟩ := List.exists_cons_of_ne_nil hp
        obtain ⟨y, bs2, rfl⟩ := List.exists_cons_of_ne_nil hb
        have hxy : x ≠ y := by
          rcases hdiff with h | h | h
          · simp at h
          · simp at h
          · simpa using h
        rw [if_pos hmin]
        have hne : char_at (pre ++ x :: ps2) pre.length ≠ char_at (pre ++ y :: bs2) pre.length := by
          rw [char_at_length_cons, char_at_length_cons]; exact hxy
        rw [if_pos hne]
      · rw [if_neg hmin]
  | cons a c ih =>
    intro pre fuel sp hf
    have ha : a ≠ BACKSLASH := fun e => hc (by simp [e])
    have hc2 : BACKSLASH ∉ c := fun e => hc (by simp [e])
    obtain ⟨f, rfl⟩ : ∃ f, fuel = f + 1 := ⟨fuel - 1, by simp at hf; omega⟩
    have hmin : pre.length < min (pre ++ a :: c ++ ps).length (pre ++ a :: c ++ bs).length := by
      simp
    have e1 : char_at (pre ++ a :: c ++ ps) pre.length = a := by
      rw [List.append_assoc, List.cons_append]; exact char_at_length_cons _ _ _
    have e2 : char_at (pre ++ a :: c ++ bs) pre.length = a := by
      rw [List.append_assoc, List.cons_append]; exact char_at_length_cons _ _ _
    have hstep := ih hc2 (pre ++ [a]) f (if a = SLASH then pre.length else sp)
      (by simp at hf; omega)
    have r1 : pre ++ [a] ++ c ++ ps = pre ++ a :: c ++ ps := by simp
    have r2 : pre ++ [a] ++ c ++ bs = pre ++ a :: c ++ bs := by simp
    rw [r1, r2] at hstep
    simp only [List.length_append, List.length_singleton] at hstep
    simp only [common_prefix_loop, hmin, if_true, e1, e2, ne_eq, not_true_eq_false, if_false,
      ha, false_and, hstep, last_slash_from, List.length_cons]
    congr 1
    omega

theorem dotdots_succ (k : Nat) : dotdots (k + 1) = dotdots k ++ DOTDOT := by
  simp [dotdots, List.replicate_succ']

theorem dotdots_cons (k : Nat) : dotdots (k + 1) = DOTDOT ++ dotdots k := by
  simp [dotdots, List.replicate_succ]

/-- The second loop appends one `"../"` for every separator it passes. -/
theorem dotdot_loop_count (s : Str) :
    ∀ (pre : Str) (fuel : Nat) (relpath : Str), s.length ≤ fuel →
      dotdot_loop (pre ++ s) fuel pre.length relpath
        = relpath ++ dotdots (s.count SLASH) := by
  induction s with
  | nil =>
    intro pre fuel relpath _
    cases fuel with
    | zero => simp [dotdot_loop, dotdots]
    | succ f => simp [dotdot_loop, dotdots]
  | cons a s ih =>
    intro pre fuel relpath hf
    obtain ⟨f, rfl⟩ : ∃ f, fuel = f + 1 := ⟨fuel - 1, by simp at hf; omega⟩
    have hlt : pre.length < (pre ++ a :: s).length := by simp
    have e1 : char_at (pre ++ a :: s) pre.length = a := char_at_length_cons _ _ _
    have hno : ¬ (pre.length + 1 < (pre ++ a :: s).length ∧ a = BACKSLASH ∧ a = SLASH) := by
      rintro ⟨_, h1, h2⟩
      exact slash_ne_backslash (h2.symm.trans h1)
    have hstep := ih (pre ++ [a]) f (if a = SLASH then relpath ++ DOTDOT else relpath)
      (by simp at hf; omega)
    have r1 : pre ++ [a] ++ s = pre ++ a :: s := by simp
    rw [r1] at hstep
    simp only [List.length_append, List.length_singleton] at hstep
    simp only [dotdot_loop, hlt, if_true, e1, hno, if_false, hstep]
    by_cases ha : a = SLASH
    · subst ha
      simp [dotdots_cons]
    · have : ¬ (a == SLASH) = true := by simpa using ha
      simp [ha, List.count_cons, this]


theorem dotdots_length (k : Nat) : (dotdots k).length = 3 * k := by
  induction k with
  | zero => rfl
  | succ k ih => rw [dotdots_succ, List.length_append, ih]; simp [DOTDOT]; omega

/-- Scan of two paths `d/c…` that share the directory `d` and the beginning
`c` of the next component, and part right after it. -/
theorem shorten_scan_diverging (d c ps bs : Str) (hd : BACKSLASH ∉ d) (hc : BACKSLASH ∉ c)
    (hs : SLASH ∉ c) (hbs : bs ≠ []) (hdiff : ps.head? ≠ bs.head?) :
    shorten_scan (d ++ SLASH :: (c ++ ps)) (d ++ SLASH :: (c ++ bs))
      = (d.length + 1 + c.length, d.length) := by
  have hno : BACKSLASH ∉ d ++ SLASH :: c := by
    simp only [List.mem_append, List.mem_cons, not_or]
    exact ⟨hd, fun e => slash_ne_backslash e.symm, hc⟩
  have hloop := common_prefix_loop_shared (d ++ SLASH :: c) hno ps bs
    (Or.inr (Or.inr hdiff)) [] (min (d ++ SLASH :: (c ++ ps)).length
      (d ++ SLASH :: (c ++ bs)).length) 0 (by simp)
  have e1 : [] ++ (d ++ SLASH :: c) ++ ps = d ++ SLASH :: (c ++ ps) := by simp
  have e2 : [] ++ (d ++ SLASH :: c) ++ bs = d ++ SLASH :: (c ++ bs) := by simp
  rw [e1, e2, last_slash_from_split d c hs] at hloop
  simp only [List.length_nil, Nat.zero_add] at hloop
  have hlen : bs.length ≠ 0 := by
    intro e; exact hbs (List.length_eq_zero.mp e)
  unfold shorten_scan
  simp only [hloop]
  simp only [List.length_append, List.length_cons]
  rw [if_neg]
  · congr 1; omega
  · intro h
    omega

theorem dotdot_segments_diverging (d c ps bs : Str) (hd : BACKSLASH ∉ d) (hc : BACKSLASH ∉ c)
    (hs : SLASH ∉ c) (hbs : bs ≠ []) (hdiff : ps.head? ≠ bs.head?) :
    dotdot_segments (d ++ SLASH :: (c ++ ps)) (d ++ SLASH :: (c ++ bs))
      = dotdots (component_count (c ++ bs)) := by
  have hscan := shorten_scan_diverging d c ps bs hd hc hs hbs hdiff
  have hlen : 0 < bs.length := List.length_pos.mpr hbs
  have hloop := dotdot_loop_count bs (d ++ SLASH :: c) bs.length DOTDOT (le_refl _)
  have e2 : (d ++ SLASH :: c) ++ bs = d ++ SLASH :: (c ++ bs) := by simp
  rw [e2] at hloop
  have hcount : (c ++ bs).count SLASH = bs.count SLASH := by
    rw [List.count_append, List.count_eq_zero_of_not_mem hs, Nat.zero_add]
  unfold dotdot_segments
  simp only [hscan, component_count, hcount, dotdots_cons]
  have h1 : d.length + 1 + c.length < (d ++ SLASH :: (c ++ bs)).length := by
    simp; omega
  have h2 : (d ++ SLASH :: (c ++ bs)).length - (d.length + 1 + c.length) = bs.length := by
    simp; omega
  have h3 : (d ++ SLASH :: c).length = d.length + 1 + c.length := by simp; omega
  rw [if_pos h1, h2, ← h3, hloop]

theorem relative_form_diverging (d c ps bs : Str) (hd : BACKSLASH ∉ d) (hc : BACKSLASH ∉ c)
    (hs : SLASH ∉ c) (hbs : bs ≠ []) (hdiff : ps.head? ≠ bs.head?) :
    relative_form (d ++ SLASH :: (c ++ ps)) (d ++ SLASH :: (c ++ bs))
      = (dotdots (component_count (c ++ bs))).dropLast ++ [NUL] ++ SLASH :: (c ++ ps) := by
  have hscan := shorten_scan_diverging d c ps bs hd hc hs hbs hdiff
  have hdots := dotdot_segments_diverging d c ps bs hd hc hs hbs hdiff
  unfold relative_form
  simp only [hscan, hdots, char_at_length_cons]
  have hpos : (dotdots (component_count (c ++ bs))).length > 0 := by
    rw [dotdots_length, component_count]; omega
  rw [if_pos ⟨hpos, trivial⟩, set_last, List.drop_left]

/-- C3 (amended): the example of the claim returns the path unchanged, its
relative form not being strictly shorter. In general, for `path = d/c·ps` and
`base = d/c·bs` where `d` and `c` hold no backslash, `c` no separator, and
`base` goes on after `c` with a character that `path` does not have there, the
scan stops at the separator after `d`, `shorten_path` collects `k` copies of
`"../"`, `k` being the number of components of `c·bs`, and the result is `path`
unchanged or a strictly shorter string that starts with those segments up to
their last character and ends with `/c·ps`. -/
theorem shorten_path_dotdot_segments :
    shorten_path "/a/b/c/file.cpp".toList "/a/b/x/y".toList = "/a/b/c/file.cpp".toList ∧
    ∀ (d c ps bs : Str), BACKSLASH ∉ d → BACKSLASH ∉ c → SLASH ∉ c → bs ≠ [] →
      ps.head? ≠ bs.head? →
      (shorten_scan (d ++ SLASH :: (c ++ ps)) (d ++ SLASH :: (c ++ bs))).2 = d.length ∧
      dotdot_segments (d ++ SLASH :: (c ++ ps)) (d ++ SLASH :: (c ++ bs))
        = dotdots (component_count (c ++ bs)) ∧
      (shorten_path (d ++ SLASH :: (c ++ ps)) (d ++ SLASH :: (c ++ bs))
          = d ++ SLASH :: (c ++ ps) ∨
        ((dotdots (component_count (c ++ bs))).dropLast
            <+: shorten_path (d ++ SLASH :: (c ++ ps)) (d ++ SLASH :: (c ++ bs)) ∧
         (SLASH :: (c ++ ps))
            <:+ shorten_path (d ++ SLASH :: (c ++ ps)) (d ++ SLASH :: (c ++ bs)) ∧
         (shorten_path (d ++ SLASH :: (c ++ ps)) (d ++ SLASH :: (c ++ bs))).length
            < (d ++ SLASH :: (c ++ ps)).length)) := by
  refine ⟨by decide, ?_⟩
  intro d c ps bs hd hc hs hbs hdiff
  have hscan := shorten_scan_diverging d c ps bs hd hc hs hbs hdiff
  have hrel := relative_form_diverging d c ps bs hd hc hs hbs hdiff
  refine ⟨by rw [hscan], dotdot_segments_diverging d c ps bs hd hc hs hbs hdiff, ?_⟩
  unfold shorten_path
  by_cases h : (relative_form (d ++ SLASH :: (c ++ ps)) (d ++ SLASH :: (c ++ bs))).length
      < (d ++ SLASH :: (c ++ ps)).length
  · rw [if_pos h]
    right
    refine ⟨?_, ?_, h⟩
    · rw [hrel, List.append_assoc]
      exact List.prefix_append _ _
    · rw [hrel]
      exact List.suffix_append _ _
  · rw [if_neg h]
    left
    rfl

/-- Counterexample to C3 as stated: the example does not return
`"../../c/file.cpp"`. -/
theorem shorten_path_dotdot_counterexample :
    shorten_path "/a/b/c/file.cpp".toList "/a/b/x/y".toList ≠ "../../c/file.cpp".toList := by
  decide

/-- Witness for C3: `/home/user/proj/src/file.cpp` seen from
`/home/user/proj/build/x`. -/
theorem shorten_path_dotdot_segments_witness :
    BACKSLASH ∉ "/home/user/proj".toList ∧ BACKSLASH ∉ ([] : Str) ∧ SLASH ∉ ([] : Str) ∧
    "build/x".toList ≠ [] ∧ "src/file.cpp".toList.head? ≠ "build/x".toList.head? ∧
    dotdot_segments ("/home/user/proj".toList ++ SLASH :: ([] ++ "src/file.cpp".toList))
        ("/home/user/proj".toList ++ SLASH :: ([] ++ "build/x".toList))
      = dotdots (component_count ([] ++ "build/x".toList)) :=
  ⟨by decide, by decide, by decide, by decide, by decide,
   (shorten_path_dotdot_segments.2 "/home/user/proj".toList [] "src/file.cpp".toList
      "build/x".toList (by decide) (by decide) (by decide) (by decide) (by decide)).2.1⟩

theorem mem_context_window (e L k : Nat) :
    k ∈ context_window e L ↔ max 1 (e - 1) ≤ k ∧ k ≤ e + 1 ∧ k ≤ L := by
  simp only [context_window, List.mem_filter, List.mem_range', decide_eq_true_eq]
  constructor
  · rintro ⟨⟨i, hi, rfl⟩, h2⟩
    refine ⟨by omega, ?_, h2⟩
    omega
  · rintro ⟨h1, h2, h3⟩
    exact ⟨⟨k - max 1 (e - 1), by omega, by omega⟩, h3⟩

theorem filter_le_range_of_lt (a n L : Nat) (h : L < a) :
    (List.range' a n).filter (fun k => decide (k ≤ L)) = [] := by
  rw [List.filter_eq_nil_iff]
  intro k hk
  simp only [List.mem_range'] at hk
  obtain ⟨i, _, rfl⟩ := hk
  simp only [Nat.mul_one, decide_eq_true_eq]
  omega

theorem context_rows_nil (w e : Nat) (ls : List Str) : context_rows w e ls [] = [] := rfl

theorem context_rows_cons (w e : Nat) (ls : List Str) (k : Nat) (ks : List Nat) :
    context_rows w e ls (k :: ks)
      = context_row w e k (ls.getD (k - 1) []) ++ context_rows w e ls ks := by
  simp [context_rows]

theorem print_context_loop_spec (ls : List Str) (hls : ∀ l ∈ ls, LF ∉ l) (w e : Nat)
    (hend : e + 1 < SIZE) (hL : ls.length + 1 < SIZE) :
    ∀ (fuel linenr : Nat) (r : LineReader) (out : Str), Consistent ls r → 1 ≤ linenr →
      linenr ≤ e + 2 → e + 2 - linenr < fuel →
      ∃ r2, Consistent ls r2 ∧
        print_context_loop w e fuel linenr r out
          = { fault := none,
              out := out ++ context_rows w e ls
                ((List.range' linenr (e + 2 - linenr)).filter (fun k => decide (k ≤ ls.length))),
              reader := r2 } := by
  have hmod : (e + CONTEXT) % SIZE = e + 1 := Nat.mod_eq_of_lt hend
  intro fuel
  induction fuel with
  | zero => intro linenr r out _ _ _ hf; omega
  | succ f ih =>
    intro linenr r out hr h1 h2 hf
    simp only [print_context_loop, hmod]
    by_cases hle : linenr ≤ e + 1
    · rw [if_pos hle]
      obtain ⟨r1, hr1, hread⟩ := read_line_spec ls hls r hr linenr
      rw [hread]
      by_cases hin : linenr ≤ ls.length
      · rw [if_pos ⟨h1, hin⟩]
        have hwrap : (linenr + 1) % SIZE = linenr + 1 := Nat.mod_eq_of_lt (by omega)
        obtain ⟨r2, hr2, hrest⟩ := ih (linenr + 1) r1
          (out ++ context_row w e linenr (ls.getD (linenr - 1) [])) hr1 (by omega) (by omega)
          (by omega)
        refine ⟨r2, hr2, ?_⟩
        simp only [hwrap]
        rw [hrest]
        have hcount : e + 2 - linenr = (e + 2 - (linenr + 1)) + 1 := by omega
        rw [hcount, List.range'_succ, List.filter_cons]
        simp only [hin, decide_True, if_true, context_rows_cons, List.append_assoc]
      · have hno : ¬ (1 ≤ linenr ∧ linenr ≤ ls.length) := fun h => hin h.2
        rw [if_neg hno]
        refine ⟨r1, hr1, ?_⟩
        rw [filter_le_range_of_lt _ _ _ (by omega), context_rows_nil, List.append_nil]
    · rw [if_neg hle]
      refine ⟨r, hr, ?_⟩
      have : e + 2 - linenr = 0 := by omega
      rw [this]
      simp [context_rows_nil]

/-- C9: in a file of `L` line-feed-terminated lines, from every reader state
reached by earlier `read_line` calls and for every faulting line `e ≥ 1`,
`print_context` returns normally and writes exactly the rows of the lines `k`
with `max 1 (e - 1) ≤ k ≤ e + 1` and `k ≤ L`, in increasing order, each row
carrying the number `k` and the text of line `k`; only the row of line `e`
starts with the bold red sequence, every other row starts with the grey one. -/
theorem print_context_prints_window (ls : List Str) (hls : ∀ l ∈ ls, LF ∉ l)
    (reqs : List Nat) (w e : Nat) (he : 1 ≤ e) (hsize : e < SIZE)
    (hfile : (file_of_lines ls).length < 2 ^ 63) :
    (print_context (run_requests (LineReader.init (file_of_lines ls)) reqs) w e).fault = none ∧
    (print_context (run_requests (LineReader.init (file_of_lines ls)) reqs) w e).out
      = context_rows w e ls (context_window e ls.length) ∧
    (∀ k, k ∈ context_window e ls.length ↔ max 1 (e - 1) ≤ k ∧ k ≤ e + 1 ∧ k ≤ ls.length) ∧
    (∀ k t, context_row w e k t
      = (if k = e then RED_BOLD else GREY) ++ "  ".toList ++ setw_decimal w k ++
          " │".toList ++ RESET ++ " ".toList ++ t ++ ENDL) := by
  have hr := consistent_run_requests ls hls reqs _ (consistent_init ls)
  have hlen := length_le_file ls
  have hL : ls.length < 2 ^ 63 := by omega
  have hS : SIZE = 2 ^ 64 := rfl
  refine ⟨?_, ?_, mem_context_window e ls.length, fun k t => rfl⟩
  all_goals
    by_cases hend : e + 1 < SIZE
    · have hstart : (if e > CONTEXT then e - CONTEXT else 1) = max 1 (e - 1) := by
        simp only [CONTEXT]
        split <;> omega
      obtain ⟨r2, _, h⟩ := print_context_loop_spec ls hls w e hend (by omega)
        (2 * CONTEXT + 3) (max 1 (e - 1)) _ [] hr (by omega) (by omega)
        (by simp only [CONTEXT]; omega)
      simp only [print_context, hstart, h, context_window, List.nil_append]
    · have he2 : e = SIZE - 1 := by omega
      have hmod : (e + CONTEXT) % SIZE = 0 := by
        simp only [CONTEXT, he2, hS]
        norm_num
      have hstart : (if e > CONTEXT then e - CONTEXT else 1) = e - 1 := by
        simp only [CONTEXT]
        split <;> omega
      have hgt : ¬ e - 1 ≤ 0 := by omega
      have hmax : max 1 (e - 1) = e - 1 := by omega
      simp only [print_context, hstart, print_context_loop, hmod, hgt, if_false,
        context_window, hmax]
      try rw [filter_le_range_of_lt _ _ _ (by omega), context_rows_nil]

/-- Witness for C9: a 40-line file, earlier requests 35, 3 and 100, faulting
line 40, width 2. -/
theorem print_context_prints_window_witness :
    (∀ l ∈ (List.replicate 40 "x".toList), LF ∉ l) ∧ 1 ≤ 40 ∧ 40 < SIZE ∧
    (file_of_lines (List.replicate 40 "x".toList)).length < 2 ^ 63 ∧
    (print_context (run_requests (LineReader.init
        (file_of_lines (List.replicate 40 "x".toList))) [35, 3, 100]) 2 40).out
      = context_rows 2 40 (List.replicate 40 "x".toList) (context_window 40 40) :=
  ⟨by decide, by decide, by decide, by decide,
   (print_context_prints_window (List.replicate 40 "x".toList) (by decide) [35, 3, 100] 2 40
      (by decide) (by decide) (by decide)).2.1⟩


theorem rfind_from_some (s : Str) (c : Char) :
    ∀ (i j : Nat), rfind_from s c i = some j → j ≤ i ∧ s.get? j = some c := by
  intro i
  induction i with
  | zero =>
    intro j h
    simp only [rfind_from] at h
    split at h
    · rename_i h0
      cases h
      exact ⟨le_refl _, h0⟩
    · cases h
  | succ i ih =>
    intro j h
    simp only [rfind_from] at h
    split at h
    · rename_i h0
      cases h
      exact ⟨le_refl _, h0⟩
    · obtain ⟨h1, h2⟩ := ih j h
      exact ⟨by omega, h2⟩

/-- A position returned by `rfind` other than `npos` is an index of the string
that holds the character searched. -/
theorem rfind_index (s : Str) (c : Char) (pos : Nat) :
    rfind s c pos = NPOS ∨ (rfind s c pos < s.length ∧ s.get? (rfind s c pos) = some c) := by
  unfold rfind
  cases h : rfind_from s c (min pos (s.length - 1)) with
  | none => left; rfl
  | some j =>
    right
    obtain ⟨_, h2⟩ := rfind_from_some s c _ j h
    have hj : j < s.length := by
      have := List.get?_eq_some.mp h2
      exact this.1
    exact ⟨hj, h2⟩

theorem char_at_mem (s : Str) (i : Nat) (h : i < s.length) : char_at s i ∈ s := by
  simp only [char_at, List.getD_eq_getElem _ _ h]
  exact List.getElem_mem h

/-- On a path without backslashes the loop of `split_path_filename` does not
iterate: the function returns the position of the last separator, or `npos`. -/
theorem split_path_filename_no_backslash (path : Str) (h : BACKSLASH ∉ path)
    (hs : path.length < NPOS) (fuel : Nat) :
    split_path_filename (fuel + 1) path = .ok (rfind path SLASH NPOS) := by
  unfold split_path_filename
  rcases rfind_index path SLASH NPOS with h0 | ⟨h1, _⟩
  · rw [if_pos h0, h0]
  · have hne : rfind path SLASH NPOS ≠ NPOS := by omega
    rw [if_neg hne]
    simp only [split_path_filename_loop]
    by_cases hpos : rfind path SLASH NPOS > 0
    · rw [if_pos hpos]
      have h2 : ¬ path.length < rfind path SLASH NPOS - 1 := by omega
      have h3 : char_at path (rfind path SLASH NPOS - 1) ≠ BACKSLASH := by
        intro e
        exact h (e ▸ char_at_mem path _ (by omega))
      rw [if_neg h2, if_neg h3]
    · rw [if_neg hpos]

/-- The three degraded forms of `Frameinfo::print`, and the full form for a
display path without backslashes. -/
theorem frameinfo_print_levels (fuel : Nat) (f : Frameinfo) :
    (f.shared_obj = none → Frameinfo.print fuel f = .ok unknown_location_text) ∧
    (∀ m, f.shared_obj = some m → f.symbol = [] →
      Frameinfo.print fuel f = .ok (somewhere_in_text m)) ∧
    (∀ m, f.shared_obj = some m → f.symbol ≠ [] → f.source_file_path = [] →
      Frameinfo.print fuel f = .ok (somewhere_in_text f.symbol)) ∧
    (∀ m, f.shared_obj = some m → f.symbol ≠ [] → f.source_file_path ≠ [] →
      BACKSLASH ∉ f.short_source_file_path → f.short_source_file_path.length < NPOS →
      Frameinfo.print (fuel + 1) f
        = .ok (full_form_text f (rfind f.short_source_file_path SLASH NPOS))) := by
  refine ⟨?_, ?_, ?_, ?_⟩
  · intro h
    simp [Frameinfo.print, h]
  · intro m h hs
    simp [Frameinfo.print, h, hs]
  · intro m h hs hp
    simp [Frameinfo.print, h, hs, hp]
  · intro m h hs hp hb hl
    simp [Frameinfo.print, h, hs, hp, split_path_filename_no_backslash _ hb hl]

theorem split_loop_escaped_separator (fuel : Nat) :
    split_path_filename_loop [BACKSLASH, SLASH, 'f', '.', 'c', 'p', 'p'] fuel 1
      = .error .out_of_fuel := by
  induction fuel with
  | zero => rfl
  | succ f ih =>
    have h1 : rfind [BACKSLASH, SLASH, 'f', '.', 'c', 'p', 'p'] SLASH ((1 + SIZE - 2) % SIZE) = 1 := by
      decide
    have h2 : char_at [BACKSLASH, SLASH, 'f', '.', 'c', 'p', 'p'] (1 - 1) = BACKSLASH := by
      decide
    simp only [split_path_filename_loop, h1, h2, ih]
    simp

/-- C10, the failing input: a source file `f.cpp` in a directory named by a
single backslash under the working directory `/home/u` gets the display path
`\/f.cpp`; for a frame with module, symbol and that source path,
`split_path_filename` finds the separator at position 1 again in every round,
so `Frameinfo::print` does not return, whatever the number of rounds granted,
and writes nothing. -/
theorem frameinfo_print_escaped_separator_diverges :
    shorten_path ("/home/u/".toList ++ [BACKSLASH, SLASH, 'f', '.', 'c', 'p', 'p'])
        "/home/u".toList = [BACKSLASH, SLASH, 'f', '.', 'c', 'p', 'p'] ∧
    ∀ fuel : Nat,
      Frameinfo.print fuel
        { shared_obj := some "/bin/app".toList,
          symbol := "main".toList,
          source_file_path := "/home/u/".toList ++ [BACKSLASH, SLASH, 'f', '.', 'c', 'p', 'p'],
          short_source_file_path := [BACKSLASH, SLASH, 'f', '.', 'c', 'p', 'p'],
          linenr := 3 }
        = .error .out_of_fuel := by
  refine ⟨by decide, ?_⟩
  intro fuel
  have h1 : rfind [BACKSLASH, SLASH, 'f', '.', 'c', 'p', 'p'] SLASH NPOS = 1 := by decide
  have h3 : (1 : Nat) ≠ NPOS := by decide
  simp only [Frameinfo.print, split_path_filename, h1, if_neg h3,
    split_loop_escaped_separator fuel]
  simp


theorem str_lt_irrefl (a : Str) : str_lt a a = false := by
  induction a with
  | nil => rfl
  | cons x xs ih => simp [str_lt, ih]

theorem str_lt_trans : ∀ (a b c : Str), str_lt a b = true → str_lt b c = true →
    str_lt a c = true := by
  intro a
  induction a with
  | nil =>
    intro b c hab hbc
    cases b with
    | nil => simp [str_lt] at hab
    | cons y ys =>
      cases c with
      | nil => simp [str_lt] at hbc
      | cons z zs => simp [str_lt]
  | cons x xs ih =>
    intro b c hab hbc
    cases b with
    | nil => simp [str_lt] at hab
    | cons y ys =>
      cases c with
      | nil => simp [str_lt] at hbc
      | cons z zs =>
        simp only [str_lt] at hab hbc ⊢
        by_cases hxy : x < y
        · by_cases hyz : y < z
          · simp [lt_trans hxy hyz]
          · by_cases hzy : z < y
            · simp [hyz, hzy] at hbc
            · have : y = z := le_antisymm (not_lt.mp hzy) (not_lt.mp hyz)
              subst this
              simp [hxy]
        · by_cases hyx : y < x
          · simp [hxy, hyx] at hab
          · have : x = y := le_antisymm (not_lt.mp hyx) (not_lt.mp hxy)
            subst this
            simp only [hxy, if_false] at hab
            by_cases hxz : x < z
            · simp [hxz]
            · by_cases hzx : z < x
              · simp [hxz, hzx] at hbc
              · simp only [hxz, hzx, if_false] at hbc ⊢
                exact ih ys zs hab hbc

theorem str_lt_total : ∀ (a b : Str), str_lt a b = false → str_lt b a = false → a = b := by
  intro a
  induction a with
  | nil =>
    intro b hab _
    cases b with
    | nil => rfl
    | cons y ys => simp [str_lt] at hab
  | cons x xs ih =>
    intro b hab hba
    cases b with
    | nil => simp [str_lt] at hba
    | cons y ys =>
      simp only [str_lt] at hab hba
      by_cases hxy : x < y
      · simp [hxy] at hab
      · by_cases hyx : y < x
        · simp [hyx] at hba
        · have : x = y := le_antisymm (not_lt.mp hyx) (not_lt.mp hxy)
          subst this
          simp only [hxy, if_false] at hab hba
          rw [ih ys hab hba]

theorem str_lt_asymm (a b : Str) (h : str_lt a b = true) : str_lt b a = false := by
  cases hba : str_lt b a with
  | false => rfl
  | true =>
    have := str_lt_trans a b a h hba
    rw [str_lt_irrefl] at this
    cases this

theorem str_lt_ne (a b : Str) (h : str_lt a b = true) : a ≠ b := by
  intro e
  subst e
  rw [str_lt_irrefl] at h
  cases h

/-- Transitivity of "not greater". -/
theorem str_le_trans (a b c : Str) (hab : str_lt b a = false) (hbc : str_lt c b = false) :
    str_lt c a = false := by
  cases hca : str_lt c a with
  | false => rfl
  | true =>
    -- c < a, a ≤ b, b ≤ c
    cases hab2 : str_lt a b with
    | true =>
      have := str_lt_trans c a b hca hab2
      rw [hbc] at this
      cases this
    | false =>
      have e := str_lt_total a b hab2 hab
      subst e
      rw [hbc] at hca
      cases hca

theorem str_lt_of_lt_of_le (a b c : Str) (hab : str_lt a b = true) (hbc : str_lt c b = false) :
    str_lt a c = true := by
  cases hbc2 : str_lt b c with
  | true => exact str_lt_trans a b c hab hbc2
  | false =>
    have e := str_lt_total b c hbc2 hbc
    subst e
    exact hab


theorem mem_multimap_emplace (k : Str) (v : Nat) (m : List (Str × Nat)) (x : Str × Nat) :
    x ∈ multimap_emplace k v m ↔ x = (k, v) ∨ x ∈ m := by
  induction m with
  | nil => simp [multimap_emplace]
  | cons e rest ih =>
    simp only [multimap_emplace]
    split
    · simp
    · simp only [List.mem_cons, ih]
      tauto

theorem multimap_emplace_sorted (k : Str) (v : Nat) (m : List (Str × Nat))
    (h : KeySorted m) : KeySorted (multimap_emplace k v m) := by
  induction m with
  | nil => simp [multimap_emplace, KeySorted]
  | cons e rest ih =>
    have h2 := List.pairwise_cons.mp h
    simp only [multimap_emplace]
    by_cases hlt : str_lt k e.1 = true
    · rw [if_pos hlt]
      refine List.pairwise_cons.mpr ⟨?_, h⟩
      intro x hx
      rcases List.mem_cons.mp hx with rfl | hx
      · exact str_lt_asymm _ _ hlt
      · have hxe := h2.1 x hx
        cases hxk : str_lt x.1 k with
        | false => rfl
        | true =>
          have := str_lt_trans _ _ _ hxk hlt
          rw [hxe] at this
          cases this
    · rw [if_neg hlt]
      refine List.pairwise_cons.mpr ⟨?_, ih h2.2⟩
      intro x hx
      rcases (mem_multimap_emplace k v rest x).mp hx with rfl | hx
      · simpa using hlt
      · exact h2.1 x hx

theorem filter_emplace_ne (k : Str) (v : Nat) (m : List (Str × Nat)) (k2 : Str)
    (h : k ≠ k2) :
    (multimap_emplace k v m).filter (has_key k2) = m.filter (has_key k2) := by
  have hk : has_key k2 (k, v) = false := by simp [has_key, h]
  induction m with
  | nil => simp [multimap_emplace, List.filter_cons, hk]
  | cons e rest ih =>
    simp only [multimap_emplace]
    split
    · rw [List.filter_cons, hk]
      simp
    · rw [List.filter_cons, List.filter_cons, ih]

theorem filter_emplace_eq (k : Str) (v : Nat) (m : List (Str × Nat)) (h : KeySorted m) :
    (multimap_emplace k v m).filter (has_key k) = m.filter (has_key k) ++ [(k, v)] := by
  have hk : has_key k (k, v) = true := by simp [has_key]
  induction m with
  | nil => simp [multimap_emplace, List.filter_cons, hk]
  | cons e rest ih =>
    have h2 := List.pairwise_cons.mp h
    simp only [multimap_emplace]
    by_cases hlt : str_lt k e.1 = true
    · rw [if_pos hlt]
      have hnone : (e :: rest).filter (has_key k) = [] := by
        rw [List.filter_eq_nil_iff]
        intro x hx
        have hkx : str_lt k x.1 = true := by
          rcases List.mem_cons.mp hx with rfl | hx
          · exact hlt
          · exact str_lt_of_lt_of_le _ _ _ hlt (h2.1 x hx)
        have := str_lt_ne _ _ hkx
        simp [has_key]
        exact fun e => this e.symm
      rw [List.filter_cons, hk, hnone]
      simp
    · rw [if_neg hlt, List.filter_cons, List.filter_cons, ih h2.2]
      split <;> simp

/-- The step of the grouping loop. -/
theorem group_frames_fold (env : Env) (is : List Nat) :
    ∀ m0 : List (Str × Nat), KeySorted m0 →
      KeySorted (is.foldl (fun m i =>
          match env.lookup i with
          | none => m
          | some d => multimap_emplace d.1 i m) m0) ∧
      ∀ k, ((is.foldl (fun m i =>
          match env.lookup i with
          | none => m
          | some d => multimap_emplace d.1 i m) m0).filter (has_key k)).map Prod.snd
        = (m0.filter (has_key k)).map Prod.snd
            ++ is.filter (fun i => decide (env.module_of i = some k)) := by
  induction is with
  | nil => intro m0 h; simp [h]
  | cons i rest ih =>
    intro m0 h
    simp only [List.foldl_cons]
    cases hl : env.lookup i with
    | none =>
      obtain ⟨h1, h2⟩ := ih m0 h
      refine ⟨h1, fun k => ?_⟩
      rw [h2 k, List.filter_cons]
      simp [Env.module_of, hl]
    | some d =>
      obtain ⟨h1, h2⟩ := ih (multimap_emplace d.1 i m0) (multimap_emplace_sorted _ _ _ h)
      refine ⟨h1, fun k => ?_⟩
      rw [h2 k, List.filter_cons]
      by_cases hk : d.1 = k
      · subst hk
        rw [filter_emplace_eq _ _ _ h]
        simp [Env.module_of, hl]
      · rw [filter_emplace_ne _ _ _ _ hk]
        simp [Env.module_of, hl, hk]

theorem group_frames_sorted (env : Env) (skip : Nat) : KeySorted (group_frames env skip) :=
  (group_frames_fold env _ [] List.Pairwise.nil).1

theorem group_frames_filter (env : Env) (skip : Nat) (k : Str) :
    ((group_frames env skip).filter (has_key k)).map Prod.snd = module_frames env skip k := by
  have := (group_frames_fold env (env.frame_range skip) [] List.Pairwise.nil).2 k
  simpa [group_frames, module_frames] using this


theorem upper_bound_eq_filter (k : Str) (m : List (Str × Nat)) (h : KeySorted m) :
    multimap_upper_bound k m = m.filter (fun e => str_lt k e.1) := by
  unfold multimap_upper_bound
  induction m with
  | nil => rfl
  | cons e rest ih =>
    have h2 := List.pairwise_cons.mp h
    by_cases hlt : str_lt k e.1 = true
    · have hall : rest.filter (fun e => str_lt k e.1) = rest := by
        rw [List.filter_eq_self]
        intro x hx
        exact str_lt_of_lt_of_le _ _ _ hlt (h2.1 x hx)
      rw [List.dropWhile_cons, List.filter_cons]
      simp only [hlt, Bool.not_true, Bool.false_eq_true, if_false, if_true, hall]
    · rw [List.dropWhile_cons, List.filter_cons]
      have : str_lt k e.1 = false := by simpa using hlt
      simp only [this, Bool.not_false, if_true, Bool.false_eq_true, if_false]
      exact ih h2.2

theorem lower_bound_eq_filter (k : Str) (m : List (Str × Nat)) (h : KeySorted m) :
    multimap_lower_bound k m = m.filter (fun e => !str_lt e.1 k) := by
  unfold multimap_lower_bound
  induction m with
  | nil => rfl
  | cons e rest ih =>
    have h2 := List.pairwise_cons.mp h
    by_cases hlt : str_lt e.1 k = true
    · rw [List.dropWhile_cons, List.filter_cons]
      simp only [hlt, if_true, Bool.not_true, Bool.false_eq_true, if_false]
      exact ih h2.2
    · have hf : str_lt e.1 k = false := by simpa using hlt
      have hall : rest.filter (fun e => !str_lt e.1 k) = rest := by
        rw [List.filter_eq_self]
        intro x hx
        have := str_le_trans k e.1 x.1 hf (h2.1 x hx)
        simp [this]
      rw [List.dropWhile_cons, List.filter_cons]
      simp only [hf, Bool.false_eq_true, if_false, Bool.not_false, if_true, hall]

theorem filter_ge_split (k : Str) (m : List (Str × Nat)) (h : KeySorted m) :
    m.filter (fun e => !str_lt e.1 k)
      = m.filter (has_key k) ++ m.filter (fun e => str_lt k e.1) := by
  induction m with
  | nil => rfl
  | cons e rest ih =>
    have h2 := List.pairwise_cons.mp h
    have ih2 := ih h2.2
    by_cases h1 : str_lt e.1 k = true
    · have h3 : str_lt k e.1 = false := str_lt_asymm _ _ h1
      have h4 : has_key k e = false := by
        simp only [has_key, decide_eq_false_iff_not]
        exact str_lt_ne _ _ h1
      simp only [List.filter_cons, h1, h3, h4, Bool.not_true, Bool.false_eq_true, if_false]
      exact ih2
    · have h1f : str_lt e.1 k = false := by simpa using h1
      by_cases h3 : str_lt k e.1 = true
      · have h4 : has_key k e = false := by
          simp only [has_key, decide_eq_false_iff_not]
          exact fun e2 => str_lt_ne _ _ h3 e2.symm
        have hnone : rest.filter (has_key k) = [] := by
          rw [List.filter_eq_nil_iff]
          intro x hx
          have hkx := str_lt_of_lt_of_le _ _ _ h3 (h2.1 x hx)
          simp only [has_key, decide_eq_true_eq]
          exact fun e2 => str_lt_ne _ _ hkx e2.symm
        simp only [List.filter_cons, h1f, h3, h4, Bool.not_false, if_true,
          Bool.false_eq_true, if_false, hnone, List.nil_append]
        rw [ih2, hnone, List.nil_append]
      · have h3f : str_lt k e.1 = false := by simpa using h3
        have he : e.1 = k := str_lt_total _ _ h1f h3f
        have h4 : has_key k e = true := by simp [has_key, he]
        simp only [List.filter_cons, h1f, h3f, h4, Bool.not_false, if_true,
          Bool.false_eq_true, if_false, List.cons_append]
        rw [ih2]

/-- In a sorted multimap the entries between `lower_bound(k)` and
`upper_bound(k)` are the entries with key `k`, in their order. -/
theorem equal_range_eq_filter (k : Str) (m : List (Str × Nat)) (h : KeySorted m) :
    range_between (multimap_lower_bound k m) (multimap_upper_bound k m)
      = m.filter (has_key k) := by
  rw [lower_bound_eq_filter k m h, upper_bound_eq_filter k m h, filter_ge_split k m h]
  unfold range_between
  rw [List.length_append, Nat.add_sub_cancel, List.take_left]

theorem keysorted_filter (p : Str × Nat → Bool) (m : List (Str × Nat)) (h : KeySorted m) :
    KeySorted (m.filter p) :=
  List.Pairwise.filter p h


theorem lf_ne_nul : LF ≠ NUL := by decide

theorem c_str_of_no_nul (s : Str) (h : NUL ∉ s) : c_str s = s := by
  unfold c_str
  rw [List.takeWhile_eq_self_iff]
  intro c hc
  simp only [ne_eq, decide_eq_true_eq]
  intro e
  exact h (e ▸ hc)

theorem strlen_of_no_nul (s : Str) (h : NUL ∉ s) : strlen s = s.length := by
  rw [strlen, c_str_of_no_nul s h]

theorem fgets_take_line (s rest : Str) (h : LF ∉ s) :
    ∀ k, s.length < k → fgets_take k (s ++ LF :: rest) = (s ++ [LF], rest) := by
  induction s with
  | nil =>
    intro k hk
    obtain ⟨j, rfl⟩ : ∃ j, k = j + 1 := ⟨k - 1, by simp at hk; omega⟩
    simp [fgets_take]
  | cons c cs ih =>
    intro k hk
    obtain ⟨j, rfl⟩ : ∃ j, k = j + 1 := ⟨k - 1, by simp at hk; omega⟩
    have hc : c ≠ LF := fun e => h (by simp [e])
    have hcs : LF ∉ cs := fun e => h (by simp [e])
    rw [List.cons_append]
    simp only [fgets_take, hc, if_false]
    rw [ih hcs j (by simp at hk; omega)]
    rfl

theorem fgets_take_full (s rest : Str) (h : LF ∉ s) :
    fgets_take s.length (s ++ rest) = (s, rest) := by
  induction s with
  | nil => simp [fgets_take]
  | cons c cs ih =>
    have hc : c ≠ LF := fun e => h (by simp [e])
    have hcs : LF ∉ cs := fun e => h (by simp [e])
    rw [List.cons_append, List.length_cons]
    simp only [fgets_take, hc, if_false]
    rw [ih hcs]

theorem fgets_take_split : ∀ (k : Nat) (fd : Str),
    (fgets_take k fd).1 ++ (fgets_take k fd).2 = fd ∧ (fgets_take k fd).1.length ≤ k ∧
    (0 < k → fd ≠ [] → (fgets_take k fd).1 ≠ []) := by
  intro k
  induction k with
  | zero => intro fd; simp [fgets_take]
  | succ k ih =>
    intro fd
    cases fd with
    | nil => simp [fgets_take]
    | cons c cs =>
      simp only [fgets_take]
      split
      · simp
      · obtain ⟨h1, h2, _⟩ := ih cs
        refine ⟨by simp [h1], by simp; omega, by simp⟩

/-- A line of any length that is followed by a line feed is returned whole,
and the stream is left right after the line feed. -/
theorem getline_from_fd_line :
    ∀ (fuel : Nat) (s rest acc : Str), LF ∉ s → NUL ∉ s → s.length < fuel →
      getline_from_fd fuel (s ++ LF :: rest) acc = .ok (acc ++ s, rest) := by
  intro fuel
  induction fuel with
  | zero => intro s rest acc _ _ h; omega
  | succ f ih =>
    intro s rest acc hlf hnul hf
    have hfd : fgets 256 (s ++ LF :: rest) = some (fgets_take 255 (s ++ LF :: rest)) := by
      cases s <;> rfl
    simp only [getline_from_fd, hfd]
    by_cases hshort : s.length < 255
    · rw [fgets_take_line s rest hlf 255 hshort]
      have hn : NUL ∉ s ++ [LF] := by
        simp only [List.mem_append, List.mem_singleton, not_or]
        exact ⟨hnul, fun e => lf_ne_nul e.symm⟩
      have hlen : strlen (s ++ [LF]) = s.length + 1 := by
        rw [strlen_of_no_nul _ hn]; simp
      have hlast : char_at (s ++ [LF]) s.length = LF := char_at_length_cons s LF []
      have hcond : ¬ (strlen (s ++ [LF]) = 255 ∧ char_at (s ++ [LF]) 254 ≠ LF) := by
        rintro ⟨h1, h2⟩
        have : s.length = 254 := by omega
        rw [this] at hlast
        exact h2 hlast
      have hz : ¬ strlen (s ++ [LF]) = 0 := by omega
      simp only [hcond, if_false, hz]
      rw [hlen, c_str_of_no_nul _ hn, Nat.add_sub_cancel, List.take_left]
    · have hsplit : s = s.take 255 ++ s.drop 255 := (List.take_append_drop 255 s).symm
      have hl1 : (s.take 255).length = 255 := by
        rw [List.length_take]; omega
      have hlf1 : LF ∉ s.take 255 := fun e => hlf (List.mem_of_mem_take e)
      have hlf2 : LF ∉ s.drop 255 := fun e => hlf (List.mem_of_mem_drop e)
      have hn1 : NUL ∉ s.take 255 := fun e => hnul (List.mem_of_mem_take e)
      have hn2 : NUL ∉ s.drop 255 := fun e => hnul (List.mem_of_mem_drop e)
      have hfull := fgets_take_full (s.take 255) (s.drop 255 ++ LF :: rest) hlf1
      rw [hl1] at hfull
      have hfd2 : s ++ LF :: rest = s.take 255 ++ (s.drop 255 ++ LF :: rest) := by
        rw [← List.append_assoc, List.take_append_drop]
      rw [hfd2, hfull]
      have hlen : strlen (s.take 255) = 255 := by
        rw [strlen_of_no_nul _ hn1, hl1]
      have hlast : char_at (s.take 255) 254 ≠ LF := by
        intro e
        exact hlf1 (e ▸ char_at_mem _ 254 (by omega))
      simp only [hlen, hlast, ne_eq, not_false_eq_true, and_self, if_true]
      rw [ih (s.drop 255) rest (acc ++ c_str (s.take 255)) hlf2 hn2
        (by rw [List.length_drop]; omega), c_str_of_no_nul _ hn1, List.append_assoc,
        List.take_append_drop]

/-- On a stream without NUL characters `getline_from_fd` returns, and leaves a
suffix of the stream unread. -/
theorem getline_from_fd_total :
    ∀ (fuel : Nat) (fd acc : Str), NUL ∉ fd → fd.length < fuel →
      ∃ s rest, getline_from_fd fuel fd acc = .ok (s, rest) ∧ rest <:+ fd := by
  intro fuel
  induction fuel with
  | zero => intro fd acc _ h; omega
  | succ f ih =>
    intro fd acc hnul hf
    cases fd with
    | nil => exact ⟨acc, [], by simp [getline_from_fd, fgets], List.suffix_refl _⟩
    | cons c cs =>
      obtain ⟨h1, h2, h3⟩ := fgets_take_split 255 (c :: cs)
      have hne : (fgets_take 255 (c :: cs)).1 ≠ [] := h3 (by omega) (by simp)
      have hsuf : (fgets_take 255 (c :: cs)).2 <:+ c :: cs := ⟨_, h1⟩
      have hn1 : NUL ∉ (fgets_take 255 (c :: cs)).1 := by
        intro e
        apply hnul
        rw [← h1]
        exact List.mem_append_left _ e
      have hn2 : NUL ∉ (fgets_take 255 (c :: cs)).2 := by
        intro e
        apply hnul
        rw [← h1]
        exact List.mem_append_right _ e
      have hlen : strlen (fgets_take 255 (c :: cs)).1 = (fgets_take 255 (c :: cs)).1.length :=
        strlen_of_no_nul _ hn1
      have hpos : 0 < (fgets_take 255 (c :: cs)).1.length := List.length_pos.mpr hne
      have htotal : (fgets_take 255 (c :: cs)).1.length + (fgets_take 255 (c :: cs)).2.length
          = (c :: cs).length := by
        rw [← List.length_append, h1]
      simp only [getline_from_fd, fgets]
      show ∃ s rest, (if strlen (fgets_take 255 (c :: cs)).1 = 255 ∧
            char_at (fgets_take 255 (c :: cs)).1 254 ≠ LF then
          getline_from_fd f (fgets_take 255 (c :: cs)).2
            (acc ++ c_str (fgets_take 255 (c :: cs)).1)
        else if strlen (fgets_take 255 (c :: cs)).1 = 0 then .error .undefined_behaviour
        else .ok (acc ++ (c_str (fgets_take 255 (c :: cs)).1).take
            (strlen (fgets_take 255 (c :: cs)).1 - 1), (fgets_take 255 (c :: cs)).2))
          = .ok (s, rest) ∧ rest <:+ c :: cs
      split
      · obtain ⟨s, rest, hs, hr⟩ := ih (fgets_take 255 (c :: cs)).2
          (acc ++ c_str (fgets_take 255 (c :: cs)).1) hn2 (by omega)
        exact ⟨s, rest, hs, hr.trans hsuf⟩
      · have hz : ¬ strlen (fgets_take 255 (c :: cs)).1 = 0 := by omega
        rw [if_neg hz]
        exact ⟨_, _, rfl, hsuf⟩


theorem getD_set_ne (fis : List Frameinfo) (i j : Nat) (x : Frameinfo) (h : i ≠ j) :
    (fis.set i x).getD j Frameinfo.empty = fis.getD j Frameinfo.empty := by
  simp [List.getD_eq_getElem?_getD, List.getElem?_set_ne h]

theorem getD_set_eq (fis : List Frameinfo) (i : Nat) (x : Frameinfo) (h : i < fis.length) :
    (fis.set i x).getD i Frameinfo.empty = x := by
  simp [List.getD_eq_getElem?_getD, List.getElem?_set_self, h]

theorem no_nul_of_suffix {a b : Str} (h : a <:+ b) (hb : NUL ∉ b) : NUL ∉ a :=
  fun e => hb (h.subset e)

/-- On a resolver output without NUL characters the parsing loop of a range
returns; it keeps the size of `frameinfos` and touches only the frames of the
range. -/
theorem process_batch_total (cwd fname : Str) :
    ∀ (frames : List Nat) (fd : Str) (fis : List Frameinfo), NUL ∉ fd →
      ∃ fis2 fd2, process_batch cwd fname frames fd fis = .ok (fis2, fd2) ∧
        fis2.length = fis.length ∧
        ∀ j, j ∉ frames → fis2.getD j Frameinfo.empty = fis.getD j Frameinfo.empty := by
  intro frames
  induction frames with
  | nil => intro fd fis _; exact ⟨fis, fd, rfl, rfl, fun _ _ => rfl⟩
  | cons i rest ih =>
    intro fd fis hnul
    obtain ⟨sym, fd1, h1, hs1⟩ := getline_from_fd_total (fd.length + 1) fd [] hnul (by omega)
    have hn1 := no_nul_of_suffix hs1 hnul
    obtain ⟨loc, fd2, h2, hs2⟩ := getline_from_fd_total (fd1.length + 1) fd1 [] hn1 (by omega)
    have hn2 := no_nul_of_suffix hs2 hn1
    obtain ⟨fis2, fd3, h3, hlen, hkeep⟩ := ih fd2
      (fis.set i (parse_frame cwd fname (fis.getD i Frameinfo.empty) sym loc)) hn2
    refine ⟨fis2, fd3, ?_, ?_, ?_⟩
    · simp only [process_batch, h1, h2, h3]
    · rw [hlen, List.length_set]
    · intro j hj
      have hji : i ≠ j := fun e => hj (by simp [e])
      have hjr : j ∉ rest := fun e => hj (by simp [e])
      rw [hkeep j hjr, getD_set_ne _ _ _ _ hji]

theorem encode_records_cons (r : Str × Str) (recs : List (Str × Str)) (tail : Str) :
    encode_records (r :: recs) ++ tail
      = r.1 ++ LF :: (r.2 ++ LF :: (encode_records recs ++ tail)) := by
  simp [encode_records]

/-- On an output made of one two-line record per frame, the parsing loop of a
range gives the record at each position to the frame at that position, and
touches no other frame. -/
theorem process_batch_records (cwd fname : Str) :
    ∀ (frames : List Nat) (recs : List (Str × Str)) (fis : List Frameinfo) (tail : Str),
      frames.Nodup → (∀ i ∈ frames, i < fis.length) → recs.length = frames.length →
      (∀ r ∈ recs, is_line r.1 ∧ is_line r.2) →
      ∃ fis2, process_batch cwd fname frames (encode_records recs ++ tail) fis
          = .ok (fis2, tail) ∧
        (∀ j, j ∉ frames → fis2.getD j Frameinfo.empty = fis.getD j Frameinfo.empty) ∧
        ∀ p ∈ frames.zip recs, fis2.getD p.1 Frameinfo.empty
          = parse_frame cwd fname (fis.getD p.1 Frameinfo.empty) p.2.1 p.2.2 := by
  intro frames
  induction frames with
  | nil =>
    intro recs fis tail _ _ hlen _
    have : recs = [] := List.length_eq_zero.mp (by simpa using hlen)
    subst this
    exact ⟨fis, by simp [process_batch, encode_records], fun _ _ => rfl, by simp⟩
  | cons i rest ih =>
    intro recs fis tail hnd hlt hlen hwf
    cases recs with
    | nil => simp at hlen
    | cons r recs2 =>
      have hnd2 := List.nodup_cons.mp hnd
      have hr := hwf r (by simp)
      have hi : i < fis.length := hlt i (by simp)
      have h1 := getline_from_fd_line
        ((r.1 ++ LF :: (r.2 ++ LF :: (encode_records recs2 ++ tail))).length + 1) r.1
        (r.2 ++ LF :: (encode_records recs2 ++ tail)) [] hr.1.1 hr.1.2
        (by simp; omega)
      have h2 := getline_from_fd_line
        ((r.2 ++ LF :: (encode_records recs2 ++ tail)).length + 1)
        r.2 (encode_records recs2 ++ tail) [] hr.2.1 hr.2.2 (by simp; omega)
      rw [List.nil_append] at h1 h2
      obtain ⟨fis2, h3, hkeep, hrec⟩ := ih recs2
        (fis.set i (parse_frame cwd fname (fis.getD i Frameinfo.empty) r.1 r.2)) tail hnd2.2
        (fun j hj => by rw [List.length_set]; exact hlt j (by simp [hj]))
        (by simpa using hlen) (fun x hx => hwf x (by simp [hx]))
      refine ⟨fis2, ?_, ?_, ?_⟩
      · rw [encode_records_cons]
        simp only [process_batch, h1, h2, h3]
      · intro j hj
        have hji : i ≠ j := fun e => hj (by simp [e])
        have hjr : j ∉ rest := fun e => hj (by simp [e])
        rw [hkeep j hjr, getD_set_ne _ _ _ _ hji]
      · intro p hp
        rw [List.zip_cons_cons, List.mem_cons] at hp
        rcases hp with rfl | hp
        · rw [hkeep i hnd2.1, getD_set_eq _ _ _ hi]
        · have hmem : p.1 ∈ rest := (List.of_mem_zip hp).1
          have hne : i ≠ p.1 := fun e => hnd2.1 (e ▸ hmem)
          rw [hrec p hp, getD_set_ne _ _ _ _ hne]

theorem hex_digits_length (fuel v : Nat) : (hex_digits fuel v).length ≤ fuel := by
  induction fuel generalizing v with
  | zero => simp [hex_digits]
  | succ f ih =>
    simp only [hex_digits]
    split
    · simp
    · rw [List.length_append]
      have := ih (v / 16)
      simp
      omega

theorem format_pointer_length (v : Nat) : (format_pointer v).length ≤ 18 := by
  unfold format_pointer
  split
  · decide
  · rw [List.length_append]
    have := hex_digits_length 16 v
    have h2 : "0x".toList.length = 2 := by decide
    omega

/-- The guard of line 354 does not fire as long as 19 characters per remaining
frame fit into the buffer. -/
theorem append_offsets_fits (env : Env) (fname : Str) :
    ∀ (frames : List Nat) (command : Str),
      command.length + 19 * frames.length ≤ command_len env fname →
      append_offsets env fname frames command
        = some (command ++
            (frames.map (fun i => " ".toList ++ format_pointer (elf_offset env i))).flatten) := by
  intro frames
  induction frames with
  | nil => intro command _; simp [append_offsets]
  | cons i rest ih =>
    intro command h
    have hp := format_pointer_length (elf_offset env i)
    have hsp : " ".toList.length = 1 := by decide
    have hlen : (command ++ " ".toList ++ format_pointer (elf_offset env i)).length
        ≤ command.length + 19 := by
      rw [List.length_append, List.length_append]; omega
    have hfit : ¬ (command ++ " ".toList ++ format_pointer (elf_offset env i)).length
        > command_len env fname := by
      simp only [List.length_cons] at h
      omega
    simp only [append_offsets, hfit, if_false]
    rw [ih _ (by simp only [List.length_cons] at h; omega)]
    simp

theorem build_command_eq (env : Env) (fname : Str) (frames : List Nat)
    (h : frames.length ≤ env.stack_depth) :
    build_command env fname frames = some (batch_command env fname frames) := by
  unfold build_command batch_command
  apply append_offsets_fits
  have hb : command_base.length = 26 := by decide
  have hsp : " ".toList.length = 1 := by decide
  simp only [command_len, List.length_append, hb, hsp]
  omega


theorem stack_depth_le (env : Env) : env.stack_depth ≤ MAX_DEPTH := by
  simp only [Env.stack_depth, Env.bt_buf, List.length_take]
  exact Nat.min_le_left _ _

theorem mem_module_frames (env : Env) (skip : Nat) (k : Str) (i : Nat) :
    i ∈ module_frames env skip k ↔
      skip ≤ i ∧ i < env.stack_depth ∧ env.module_of i = some k := by
  simp only [module_frames, Env.frame_range, List.mem_filter, List.mem_range'_1,
    decide_eq_true_eq]
  constructor
  · rintro ⟨⟨h1, h2⟩, h3⟩
    exact ⟨h1, by omega, h3⟩
  · rintro ⟨h1, h2, h3⟩
    exact ⟨⟨h1, by omega⟩, h3⟩

theorem module_frames_nodup (env : Env) (skip : Nat) (k : Str) :
    (module_frames env skip k).Nodup :=
  List.Nodup.filter _ (List.nodup_range' _ _)

theorem module_frames_length_le (env : Env) (skip : Nat) (k : Str) :
    (module_frames env skip k).length ≤ env.stack_depth := by
  have h1 := List.length_filter_le
    (fun i => decide (env.module_of i = some k)) (env.frame_range skip)
  have h2 : (env.frame_range skip).length = env.stack_depth - skip := by
    simp [Env.frame_range]
  simp only [module_frames]
  omega

/-- The frames of the range of key `k` are the frames of module `k`. -/
theorem range_frames_eq (env : Env) (skip : Nat) (k : Str) :
    (range_between (multimap_lower_bound k (group_frames env skip))
        (multimap_upper_bound k (group_frames env skip))).map Prod.snd
      = module_frames env skip k := by
  rw [equal_range_eq_filter k _ (group_frames_sorted env skip), group_frames_filter]

theorem module_frames_ne_nil_of_mem (env : Env) (skip : Nat) (e : Str × Nat)
    (h : e ∈ group_frames env skip) : module_frames env skip e.1 ≠ [] := by
  rw [← group_frames_filter]
  intro hnil
  have hmem : e ∈ (group_frames env skip).filter (has_key e.1) := by
    rw [List.mem_filter]
    exact ⟨h, by simp [has_key]⟩
  have : e.2 ∈ ((group_frames env skip).filter (has_key e.1)).map Prod.snd :=
    List.mem_map_of_mem _ hmem
  rw [hnil] at this
  cases this

theorem symbolize_loop_step (env : Env) (m : List (Str × Nat)) (fuel : Nat)
    (e : Str × Nat) (it : List (Str × Nat)) (acc : SymbolizeResult) (command out : Str)
    (fis : List Frameinfo) (rest : Str)
    (hcmd : build_command env e.1 ((range_between (multimap_lower_bound e.1 m)
      (multimap_upper_bound e.1 m)).map Prod.snd) = some command)
    (hpopen : env.popen command = some (out, 0))
    (hproc : process_batch env.cwd e.1 ((range_between (multimap_lower_bound e.1 m)
      (multimap_upper_bound e.1 m)).map Prod.snd) out acc.frameinfos = .ok (fis, rest)) :
    symbolize_loop env m (fuel + 1) (e :: it) acc
      = symbolize_loop env m fuel (multimap_upper_bound e.1 m)
          { acc with invocations := acc.invocations ++ [command],
                     batches := acc.batches ++ [(e.1, (range_between (multimap_lower_bound e.1 m)
                        (multimap_upper_bound e.1 m)).map Prod.snd)],
                     frameinfos := fis } := by
  simp only [symbolize_loop, hcmd, hpopen, hproc]
  simp

theorem iter_at_begin (m : List (Str × Nat)) (h : KeySorted m) : IterAt m m :=
  ⟨h, fun _ hx => hx, fun _ _ => rfl⟩

theorem iter_at_next (m : List (Str × Nat)) (hm : KeySorted m) (e : Str × Nat)
    (it : List (Str × Nat)) (h : IterAt m (e :: it)) :
    IterAt m (multimap_upper_bound e.1 m) ∧
    multimap_upper_bound e.1 m = it.filter (fun x => str_lt e.1 x.1) := by
  have hub := upper_bound_eq_filter e.1 m hm
  have habove := h.above e (by simp)
  have hit : multimap_upper_bound e.1 m = it.filter (fun x => str_lt e.1 x.1) := by
    rw [hub, habove, List.filter_cons]
    simp [str_lt_irrefl]
  refine ⟨⟨?_, ?_, ?_⟩, hit⟩
  · rw [hub]; exact keysorted_filter _ _ hm
  · intro x hx
    rw [hub] at hx
    exact (List.mem_filter.mp hx).1
  · intro x hx
    rw [hub] at hx ⊢
    have hlt : str_lt e.1 x.1 = true := (List.mem_filter.mp hx).2
    rw [List.filter_filter]
    apply List.filter_congr
    intro y _
    cases hxy : str_lt x.1 y.1 with
    | false => simp
    | true => simp [str_lt_trans _ _ _ hlt hxy]


theorem symbolize_loop_post (env : Env) (skip : Nat) (hres : ResolverAnswers env skip) :
    ∀ (fuel : Nat) (it : List (Str × Nat)) (acc : SymbolizeResult),
      IterAt (group_frames env skip) it → it.length < fuel →
      acc.frameinfos.length = MAX_DEPTH →
      (∀ x ∈ it, ∀ i ∈ module_frames env skip x.1,
        acc.frameinfos.getD i Frameinfo.empty = Frameinfo.empty) →
      ∃ new, LoopPost env skip it acc
        (symbolize_loop env (group_frames env skip) fuel it acc) new := by
  have hm := group_frames_sorted env skip
  intro fuel
  induction fuel with
  | zero => intro it acc _ h; omega
  | succ f ih =>
    intro it acc hit hfuel hlen hempty
    cases it with
    | nil =>
      refine ⟨[], ?_⟩
      exact ⟨rfl, by simp [symbolize_loop], by simp [symbolize_loop], rfl, by simp,
        by simp, by simp, by simp, fun _ _ => rfl, by simp⟩
    | cons e it2 =>
      have he : e ∈ group_frames env skip := hit.sub e (by simp)
      have hne := module_frames_ne_nil_of_mem env skip e he
      have hframes := range_frames_eq env skip e.1
      obtain ⟨out, hpopen, hnul⟩ := hres e.1 hne
      have hcmd := build_command_eq env e.1 (module_frames env skip e.1)
        (module_frames_length_le env skip e.1)
      obtain ⟨fis1, rest, hproc, hlen1, hkeep⟩ := process_batch_total env.cwd e.1
        (module_frames env skip e.1) out acc.frameinfos hnul
      obtain ⟨hnext, hnexteq⟩ := iter_at_next _ hm e it2 hit
      have hstep := symbolize_loop_step env (group_frames env skip) f e it2 acc
        (batch_command env e.1 (module_frames env skip e.1)) out fis1 rest
        (by rw [hframes]; exact hcmd) hpopen (by rw [hframes]; exact hproc)
      rw [hframes] at hstep
      have hsub : ∀ x ∈ multimap_upper_bound e.1 (group_frames env skip),
          x ∈ it2 ∧ str_lt e.1 x.1 = true := by
        intro x hx
        rw [hnexteq] at hx
        exact List.mem_filter.mp hx
      have hother : ∀ (k : Str) (i : Nat), k ≠ e.1 → i ∈ module_frames env skip k →
          i ∉ module_frames env skip e.1 := by
        intro k i hk hi hi2
        have h1 := ((mem_module_frames env skip k i).mp hi).2.2
        have h2 := ((mem_module_frames env skip e.1 i).mp hi2).2.2
        rw [h1] at h2
        exact hk (Option.some.inj h2)
      obtain ⟨new, hpost⟩ := ih (multimap_upper_bound e.1 (group_frames env skip))
        { acc with invocations := acc.invocations
                      ++ [batch_command env e.1 (module_frames env skip e.1)],
                   batches := acc.batches ++ [(e.1, module_frames env skip e.1)],
                   frameinfos := fis1 }
        hnext
        (by
          rw [hnexteq]
          have := List.length_filter_le (fun x => str_lt e.1 x.1) it2
          simp only [List.length_cons] at hfuel
          omega)
        (by simp [hlen1, hlen])
        (by
          intro x hx i hi
          have hx2 := hsub x hx
          have hk : x.1 ≠ e.1 := fun e2 => str_lt_ne _ _ hx2.2 e2.symm
          show fis1.getD i Frameinfo.empty = Frameinfo.empty
          rw [hkeep i (hother x.1 i hk hi)]
          exact hempty x (by simp [hx2.1]) i hi)
      rw [← hstep] at hpost
      refine ⟨(e.1, module_frames env skip e.1) :: new, ?_⟩
      refine ⟨hpost.outcome_eq, ?_, ?_, ?_, ?_, ?_, ?_, ?_, ?_, ?_⟩
      · rw [hpost.batches_eq]; simp
      · rw [hpost.invocations_eq]; simp
      · rw [hpost.length_eq]; exact hlen1
      · rw [List.map_cons, List.pairwise_cons]
        refine ⟨?_, hpost.increasing⟩
        intro k hk
        obtain ⟨b, hb, rfl⟩ := List.mem_map.mp hk
        obtain ⟨x, hx, hxk⟩ := hpost.from_iter b hb
        rw [← hxk]
        exact (hsub x hx).2
      · intro b hb
        rcases List.mem_cons.mp hb with rfl | hb
        · exact ⟨e, by simp, rfl⟩
        · obtain ⟨x, hx, hxk⟩ := hpost.from_iter b hb
          exact ⟨x, by simp [(hsub x hx).1], hxk⟩
      · intro x hx
        by_cases hxe : x.1 = e.1
        · exact ⟨(e.1, module_frames env skip e.1), by simp, hxe.symm⟩
        · have hx2 : x ∈ it2 := by
            rcases List.mem_cons.mp hx with rfl | h
            · exact absurd rfl hxe
            · exact h
          have hle : str_lt x.1 e.1 = false := (List.pairwise_cons.mp hit.sorted).1 x hx2
          have hlt : str_lt e.1 x.1 = true := by
            cases h : str_lt e.1 x.1 with
            | true => rfl
            | false => exact absurd (str_lt_total _ _ hle h) hxe
          have hx3 : x ∈ multimap_upper_bound e.1 (group_frames env skip) := by
            rw [hnexteq]
            exact List.mem_filter.mpr ⟨hx2, hlt⟩
          obtain ⟨b, hb, hbk⟩ := hpost.covers x hx3
          exact ⟨b, by simp [hb], hbk⟩
      · intro b hb
        rcases List.mem_cons.mp hb with rfl | hb
        · rfl
        · exact hpost.frames_eq b hb
      · intro i hi
        rw [hpost.untouched i (fun x hx => hi x (by simp [(hsub x hx).1]))]
        show fis1.getD i Frameinfo.empty = _
        apply hkeep
        intro hmem
        exact hi e (by simp) ((mem_module_frames env skip e.1 i).mp hmem).2.2
      · intro b hb
        rcases List.mem_cons.mp hb with rfl | hb
        · refine ⟨out, acc.frameinfos, fis1, rest, hpopen, hproc, hlen, ?_, ?_⟩
          · intro i hi
            exact hempty e (by simp) i hi
          · intro i hi
            rw [hpost.untouched i]
            intro x hx
            have h1 := ((mem_module_frames env skip e.1 i).mp hi).2.2
            rw [h1]
            intro e2
            exact str_lt_ne _ _ (hsub x hx).2 (Option.some.inj e2)
        · exact hpost.stored b hb

/-- The symbolization as a whole, when the resolver answers every batch. -/
theorem symbolize_post (env : Env) (skip : Nat) (hres : ResolverAnswers env skip) :
    ∃ new, LoopPost env skip (group_frames env skip)
      { outcome := .completed, invocations := [], batches := [],
        frameinfos := List.replicate MAX_DEPTH Frameinfo.empty }
      (symbolize env skip) new := by
  apply symbolize_loop_post env skip hres
  · exact iter_at_begin _ (group_frames_sorted env skip)
  · omega
  · simp
  · intro x _ i _
    simp only [List.getD_eq_getElem?_getD]
    cases h : (List.replicate MAX_DEPTH Frameinfo.empty)[i]? with
    | none => rfl
    | some v =>
      have := List.getElem?_eq_some.mp h
      obtain ⟨_, hv⟩ := this
      simp at hv
      simp [← hv]


theorem exists_entry_of_module (env : Env) (skip : Nat) (k : Str) (i : Nat)
    (hi : i ∈ module_frames env skip k) : ∃ x ∈ group_frames env skip, x.1 = k := by
  rw [← group_frames_filter] at hi
  obtain ⟨x, hx, _⟩ := List.mem_map.mp hi
  obtain ⟨h1, h2⟩ := List.mem_filter.mp hx
  exact ⟨x, h1, by simpa [has_key] using h2⟩

/-- C8: when the resolver launches and exits with status 0 for every batch,
the run completes; `popen` is called once per range visited, with the command
line of that range; no two ranges have the same module path; every range holds
exactly the frames whose lookup reported its module path, at least one, each
once; a frame of the range `skip_frames ≤ i < stack_depth` whose lookup reported
`m` lies in the range of `m` and in no other; and a frame whose lookup failed
lies in no range. -/
theorem module_batches_partition (env : Env) (skip : Nat) (hres : ResolverAnswers env skip) :
    (symbolize env skip).outcome = .completed ∧
    (symbolize env skip).invocations
      = (symbolize env skip).batches.map (fun b => batch_command env b.1 b.2) ∧
    ((symbolize env skip).batches.map Prod.fst).Nodup ∧
    (∀ b ∈ (symbolize env skip).batches,
      b.2 ≠ [] ∧ b.2.Nodup ∧ b.2 = module_frames env skip b.1 ∧
      ∀ i ∈ b.2, skip ≤ i ∧ i < env.stack_depth ∧ env.module_of i = some b.1) ∧
    (∀ i m, skip ≤ i → i < env.stack_depth → env.module_of i = some m →
      (m, module_frames env skip m) ∈ (symbolize env skip).batches ∧
      i ∈ module_frames env skip m ∧
      ∀ b ∈ (symbolize env skip).batches, i ∈ b.2 → b = (m, module_frames env skip m)) ∧
    (∀ i, env.module_of i = none → ∀ b ∈ (symbolize env skip).batches, i ∉ b.2) := by
  obtain ⟨new, hpost⟩ := symbolize_post env skip hres
  have hb : (symbolize env skip).batches = new := by
    rw [hpost.batches_eq]; rfl
  have hinv : (symbolize env skip).invocations
      = new.map (fun b => batch_command env b.1 b.2) := by
    rw [hpost.invocations_eq]; rfl
  rw [hb, hinv]
  have hbatch : ∀ b ∈ new, b = (b.1, module_frames env skip b.1) := by
    intro b hb2
    exact Prod.ext rfl (hpost.frames_eq b hb2)
  refine ⟨hpost.outcome_eq, rfl, ?_, ?_, ?_, ?_⟩
  · exact hpost.increasing.imp (fun h => str_lt_ne _ _ h)
  · intro b hb2
    have hfr := hpost.frames_eq b hb2
    obtain ⟨x, hx, hxk⟩ := hpost.from_iter b hb2
    refine ⟨?_, ?_, hfr, ?_⟩
    · rw [hfr, ← hxk]
      exact module_frames_ne_nil_of_mem env skip x hx
    · rw [hfr]
      exact module_frames_nodup env skip b.1
    · intro i hi
      rw [hfr] at hi
      exact (mem_module_frames env skip b.1 i).mp hi
  · intro i m h1 h2 h3
    have hi : i ∈ module_frames env skip m :=
      (mem_module_frames env skip m i).mpr ⟨h1, h2, h3⟩
    obtain ⟨x, hx, hxk⟩ := exists_entry_of_module env skip m i hi
    obtain ⟨b, hb2, hbk⟩ := hpost.covers x hx
    refine ⟨?_, hi, ?_⟩
    · have := hbatch b hb2
      rw [hbk, hxk] at this
      rw [← this]
      exact hb2
    · intro b2 hb3 hi2
      have hfr := hpost.frames_eq b2 hb3
      rw [hfr] at hi2
      have hm := ((mem_module_frames env skip b2.1 i).mp hi2).2.2
      rw [h3] at hm
      have : b2.1 = m := (Option.some.inj hm).symm
      rw [hbatch b2 hb3, this]
  · intro i hnone b hb2 hi
    rw [hpost.frames_eq b hb2] at hi
    have hm := ((mem_module_frames env skip b.1 i).mp hi).2.2
    rw [hnone] at hm
    cases hm

theorem encode_records_no_nul (recs : List (Str × Str))
    (h : ∀ r ∈ recs, is_line r.1 ∧ is_line r.2) : NUL ∉ encode_records recs := by
  induction recs with
  | nil => simp [encode_records]
  | cons r rest ih =>
    have hr := h r (by simp)
    have hrest := ih (fun x hx => h x (by simp [hx]))
    have hne : NUL ≠ LF := fun e => lf_ne_nul e.symm
    have : encode_records (r :: rest) = r.1 ++ [LF] ++ r.2 ++ [LF] ++ encode_records rest := by
      simp [encode_records]
    rw [this]
    simp only [List.mem_append, List.mem_singleton, not_or]
    exact ⟨⟨⟨⟨hr.1.2, hne⟩, hr.2.2⟩, hne⟩, hrest⟩

theorem resolver_answers_of_writes (env : Env) (skip : Nat) (recs : Str → List (Str × Str))
    (h : ResolverWrites env skip recs) : ResolverAnswers env skip := by
  intro k hk
  obtain ⟨h1, _, h3⟩ := h k hk
  exact ⟨_, h1, encode_records_no_nul _ h3⟩


theorem sample_frames_app :
    module_frames sample_env 1 "/bin/app".toList = [2, 5] := by decide

theorem sample_frames_libc :
    module_frames sample_env 1 "/lib/libc.so".toList = [1, 4] := by decide

theorem sample_frames_other (k : Str) (h1 : k ≠ "/bin/app".toList)
    (h2 : k ≠ "/lib/libc.so".toList) : module_frames sample_env 1 k = [] := by
  have hr : sample_env.frame_range 1 = [1, 2, 3, 4, 5] := by decide
  have hm : ∀ i ∈ [1, 2, 3, 4, 5],
      sample_env.module_of i = some "/bin/app".toList ∨
      sample_env.module_of i = some "/lib/libc.so".toList ∨
      sample_env.module_of i = none := by decide
  unfold module_frames
  rw [List.filter_eq_nil_iff, hr]
  intro i hi
  simp only [decide_eq_true_eq]
  rcases hm i hi with h | h | h
  · rw [h]; exact fun e => h1 (Option.some.inj e).symm
  · rw [h]; exact fun e => h2 (Option.some.inj e).symm
  · rw [h]; exact fun e => by cases e

/-- The resolver of the sample run writes the sample records. -/
theorem sample_resolver_writes : ResolverWrites sample_env 1 sample_records := by
  intro k hk
  by_cases h1 : k = "/bin/app".toList
  · subst h1
    rw [sample_frames_app]
    refine ⟨by decide, by decide, ?_⟩
    intro r hr
    have : r = ("main".toList, "/home/u/a.cpp:12".toList) ∨ r = ("f()".toList, "??:0".toList) := by
      simpa [sample_records] using hr
    rcases this with rfl | rfl <;> exact ⟨⟨by decide, by decide⟩, ⟨by decide, by decide⟩⟩
  · by_cases h2 : k = "/lib/libc.so".toList
    · subst h2
      rw [sample_frames_libc]
      refine ⟨by decide, by decide, ?_⟩
      intro r hr
      have : r = ("g".toList, "/x/y.c:7".toList) ∨ r = ("g".toList, "/x/y.c:9".toList) := by
        simpa [sample_records] using hr
      rcases this with rfl | rfl <;> exact ⟨⟨by decide, by decide⟩, ⟨by decide, by decide⟩⟩
    · exact absurd (sample_frames_other k h1 h2) hk

/-- Witness for C8: the sample run. -/
theorem module_batches_partition_witness :
    ResolverAnswers sample_env 1 ∧
    (symbolize sample_env 1).outcome = .completed ∧
    ((symbolize sample_env 1).batches.map Prod.fst).Nodup :=
  ⟨resolver_answers_of_writes sample_env 1 sample_records sample_resolver_writes,
   (module_batches_partition sample_env 1
      (resolver_answers_of_writes sample_env 1 sample_records sample_resolver_writes)).1,
   (module_batches_partition sample_env 1
      (resolver_answers_of_writes sample_env 1 sample_records sample_resolver_writes)).2.2.1⟩

/-- The sample run, evaluated: the two ranges, the two command lines, and the
records of the frames 2 and 5 of `/bin/app` and 1 and 4 of `/lib/libc.so`;
frame 3, whose lookup failed, keeps the initial value. -/
theorem sample_run :
    (symbolize sample_env 1).batches
      = [("/bin/app".toList, [2, 5]), ("/lib/libc.so".toList, [1, 4])] ∧
    (symbolize sample_env 1).invocations
      = ["addr2line --demangle -f -e /bin/app 0x2f 0x4f".toList,
         "addr2line --demangle -f -e /lib/libc.so 0x1f 0x3f".toList] ∧
    ((symbolize sample_env 1).frameinfos.getD 5 Frameinfo.empty).symbol = "f()".toList ∧
    ((symbolize sample_env 1).frameinfos.getD 1 Frameinfo.empty).linenr = 7 ∧
    ((symbolize sample_env 1).frameinfos.getD 4 Frameinfo.empty).linenr = 9 ∧
    (symbolize sample_env 1).frameinfos.getD 3 Frameinfo.empty = Frameinfo.empty := by
  decide


/-- A frame whose lookup failed keeps the initial value of its element of
`frameinfos`, and is printed in the unknown-location form. -/
theorem failed_lookup_renders_unknown (env : Env) (skip : Nat)
    (hres : ResolverAnswers env skip) (i : Nat) (h : env.module_of i = none) (fuel : Nat) :
    (symbolize env skip).frameinfos.getD i Frameinfo.empty = Frameinfo.empty ∧
    Frameinfo.print fuel ((symbolize env skip).frameinfos.getD i Frameinfo.empty)
      = .ok unknown_location_text := by
  obtain ⟨new, hpost⟩ := symbolize_post env skip hres
  have hkeep := hpost.untouched i (fun x _ => by rw [h]; exact fun e => by cases e)
  have hinit : (List.replicate MAX_DEPTH Frameinfo.empty).getD i Frameinfo.empty
      = Frameinfo.empty := by
    simp only [List.getD_eq_getElem?_getD]
    cases h2 : (List.replicate MAX_DEPTH Frameinfo.empty)[i]? with
    | none => rfl
    | some v =>
      obtain ⟨_, hv⟩ := List.getElem?_eq_some.mp h2
      simp at hv
      simp [← hv]
  have hval : (symbolize env skip).frameinfos.getD i Frameinfo.empty = Frameinfo.empty := by
    rw [hkeep]; exact hinit
  refine ⟨hval, ?_⟩
  rw [hval]
  rfl

/-- The fuel passed to the first loop of `shorten_path` is enough: with one
more round the result is the same. -/
theorem common_prefix_loop_fuel (path rel_to : Str) :
    ∀ (fuel i sp : Nat), min path.length rel_to.length - i ≤ fuel →
      common_prefix_loop path rel_to (fuel + 1) i sp
        = common_prefix_loop path rel_to fuel i sp := by
  intro fuel
  induction fuel with
  | zero =>
    intro i sp h
    have : ¬ i < min path.length rel_to.length := by omega
    simp [common_prefix_loop, this]
  | succ f ih =>
    intro i sp h
    rw [common_prefix_loop]
    conv => rhs; rw [common_prefix_loop]
    by_cases hi : i < min path.length rel_to.length
    · simp only [hi, if_true]
      rw [ih (i + 2) sp (by omega), ih (i + 1) _ (by omega)]
    · simp only [hi, if_false]

/-- The fuel passed to the second loop of `shorten_path` is enough. -/
theorem dotdot_loop_fuel (rel_to : Str) :
    ∀ (fuel i : Nat) (relpath : Str), rel_to.length - i ≤ fuel →
      dotdot_loop rel_to (fuel + 1) i relpath = dotdot_loop rel_to fuel i relpath := by
  intro fuel
  induction fuel with
  | zero =>
    intro i relpath h
    have : ¬ i < rel_to.length := by omega
    simp [dotdot_loop, this]
  | succ f ih =>
    intro i relpath h
    rw [dotdot_loop]
    conv => rhs; rw [dotdot_loop]
    by_cases hi : i < rel_to.length
    · simp only [hi, if_true]
      rw [ih (i + 2) relpath (by omega), ih (i + 1) _ (by omega)]
    · simp only [hi, if_false]


theorem lines_of_spec (content : Str) :
    file_of_lines (lines_of content).1 ++ (lines_of content).2 = content ∧
    (∀ l ∈ (lines_of content).1, LF ∉ l) ∧ LF ∉ (lines_of content).2 := by
  induction content with
  | nil => simp [lines_of, file_of_lines]
  | cons c cs ih =>
    obtain ⟨h1, h2, h3⟩ := ih
    by_cases hc : c = LF
    · subst hc
      simp only [lines_of, if_true]
      refine ⟨?_, ?_, h3⟩
      · rw [file_of_lines_cons, List.nil_append, List.cons_append, h1]
      · intro l hl
        rcases List.mem_cons.mp hl with rfl | hl
        · simp
        · exact h2 l hl
    · simp only [lines_of, hc, if_false]
      cases hls : (lines_of cs).1 with
      | nil =>
        rw [hls] at h1
        simp only [file_of_lines, List.map_nil, List.flatten_nil, List.nil_append] at h1 ⊢
        refine ⟨by rw [h1], by simp, ?_⟩
        simp only [List.mem_cons, not_or]
        exact ⟨fun e => hc e.symm, h3⟩
      | cons l ls =>
        rw [hls] at h1 h2
        simp only
        refine ⟨?_, ?_, h3⟩
        · have e : file_of_lines ((c :: l) :: ls) ++ (lines_of cs).2
              = c :: (file_of_lines (l :: ls) ++ (lines_of cs).2) := by
            simp [file_of_lines]
          rw [e, h1]
        · intro x hx
          rcases List.mem_cons.mp hx with rfl | hx
          · simp only [List.mem_cons, not_or]
            exact ⟨fun e => hc e.symm, h2 l (by simp)⟩
          · exact h2 x (by simp [hx])

theorem checkpoints_length (ls : List Str) (m : Nat) : (checkpoints ls m).length = m + 1 := by
  simp [checkpoints]

theorem scan_line_no_lf (s : Str) (h : LF ∉ s) : scan_line s = (s, s.length, true) := by
  induction s with
  | nil => rfl
  | cons c cs ih =>
    have hc : c ≠ LF := fun e => h (by simp [e])
    have hcs : LF ∉ cs := fun e => h (by simp [e])
    simp [scan_line, hc, ih hcs]

theorem file_tail_drop (ls : List Str) (tail : Str) (j : Nat) :
    (file_of_lines ls ++ tail).drop (line_offset ls j) = file_of_lines (ls.drop j) ++ tail := by
  have h : file_of_lines ls = file_of_lines (ls.take j) ++ file_of_lines (ls.drop j) := by
    rw [← file_of_lines_append, List.take_append_drop]
  rw [h, List.append_assoc, line_offset, List.drop_left]

theorem tracks_getline_at_line (ls : List Str) (tail : Str) (hls : ∀ l ∈ ls, LF ∉ l)
    (r : LineReader) (hr : Tracks ls tail r) (h : r.currline ≤ ls.length) (x : Str) :
    getline r.ifs x
      = ({ r.ifs with pos := line_offset ls r.currline },
         ls.getD (r.currline - 1) []) := by
  have h1 := hr.line_pos
  have hj : r.currline - 1 < ls.length := by omega
  have hpos : r.ifs.pos = line_offset ls (r.currline - 1) := by
    rcases hr.pos_eq with hp | ⟨hc, _⟩
    · exact hp
    · omega
  have hdrop : r.ifs.content.drop r.ifs.pos
      = ls[r.currline - 1] ++ LF :: (file_of_lines (ls.drop (r.currline - 1 + 1)) ++ tail) := by
    rw [hr.content_eq, hpos, file_tail_drop, List.drop_eq_getElem_cons hj,
      file_of_lines_cons, List.append_assoc, List.cons_append]
  have hscan := scan_line_of_line ls[r.currline - 1]
    (file_of_lines (ls.drop (r.currline - 1 + 1)) ++ tail) (hls _ (List.getElem_mem hj))
  have hoff := line_offset_succ ls (r.currline - 1) hj
  have hc : r.currline - 1 + 1 = r.currline := by omega
  rw [hc] at hoff
  unfold getline
  simp only [IfStream.good, hr.eof_clear, hr.fail_clear, hdrop, hscan]
  simp only [List.getD_eq_getElem _ _ hj, hpos, hoff, Bool.not_false, Bool.and_self,
    if_true, Bool.false_eq_true, if_false, Nat.add_assoc]

/-- With the cursor after the last terminated line, `nextline` throws
`eof_error`, whether or not an unterminated text follows; the cursor and the
checkpoints stay. -/
theorem tracks_nextline_at_end (ls : List Str) (tail : Str) (htail : LF ∉ tail)
    (r : LineReader) (hr : Tracks ls tail r) (h : r.currline = ls.length + 1) (x : Str) :
    ∃ r2, r.nextline x = (.error .eof_error, r2) ∧ Tracks ls tail r2 ∧
      r2.currline = r.currline ∧ r2.lineoffsets = r.lineoffsets := by
  have hend : ∃ s n, scan_line (r.ifs.content.drop r.ifs.pos) = (s, n, true) ∧
      r.ifs.pos + n = (file_of_lines ls ++ tail).length := by
    rcases hr.pos_eq with hp | ⟨_, hp⟩
    · refine ⟨tail, tail.length, ?_, ?_⟩
      · rw [hr.content_eq, hp, file_tail_drop, h]
        simp [file_of_lines, scan_line_no_lf tail htail]
      · rw [hp, h]
        simp [line_offset]
    · refine ⟨[], 0, ?_, by rw [hp]; rfl⟩
      rw [hr.content_eq, hp, List.drop_length]
      rfl
  obtain ⟨s, n, hscan, hn⟩ := hend
  refine ⟨{ r with ifs := { content := r.ifs.content, pos := r.ifs.pos + n,
                            eofbit := false, failbit := false } }, ?_, ?_, rfl, rfl⟩
  · unfold LineReader.nextline getline
    simp only [IfStream.good, hr.eof_clear, hr.fail_clear, hscan, Bool.not_false,
      Bool.and_self, if_true, IfStream.eof, IfStream.clear]
  · exact ⟨hr.content_eq, rfl, rfl, hr.line_pos, hr.line_le, Or.inr ⟨h, hn⟩, hr.index_eq⟩

theorem tracks_nextline_at_line (ls : List Str) (tail : Str) (hls : ∀ l ∈ ls, LF ∉ l)
    (r : LineReader) (hr : Tracks ls tail r) (h : r.currline ≤ ls.length) (x : Str) :
    ∃ r2, r.nextline x = (.ok (ls.getD (r.currline - 1) []), r2) ∧
      Tracks ls tail r2 ∧ r2.currline = r.currline + 1 ∧
      r.lineoffsets.length ≤ r2.lineoffsets.length := by
  have hg := tracks_getline_at_line ls tail hls r hr h x
  obtain ⟨m, hm1, hm2, hm3⟩ := hr.index_eq
  have h1 := hr.line_pos
  unfold LineReader.nextline
  simp only [hg, IfStream.eof, IfStream.fail, hr.eof_clear, hr.fail_clear,
    LINE_GRANULARITY, IfStream.tellg]
  by_cases hmod : (r.currline + 1) % 16 = 1
  · simp only [hmod, if_true]
    by_cases hnew : r.currline = 16 * m + 16
    · have hkey : r.currline + 1 + 16 = 16 * (m + 1) + 17 := by omega
      have hmap : map_emplace (r.currline + 1 + 16) (line_offset ls r.currline) r.lineoffsets
          = checkpoints ls (m + 1) := by
        rw [hkey, hm3, map_emplace_checkpoints_new, checkpoints_succ, checkpoint]
        have : r.currline = 16 * (m + 1) := by omega
        rw [this]
      refine ⟨_, rfl, ?_, rfl, ?_⟩
      · simp only [Bool.false_eq_true, if_false, hmap]
        exact ⟨hr.content_eq, rfl, rfl, by simp, by simp; omega, Or.inl (by simp),
          m + 1, by omega, by simp; omega, rfl⟩
      · simp only [Bool.false_eq_true, if_false, hmap]
        rw [hm3, checkpoints_length, checkpoints_length]
        omega
    · have hk : r.currline + 1 + 16 = 16 * (r.currline / 16) + 17 := by omega
      have hmap : map_emplace (r.currline + 1 + 16) (line_offset ls r.currline) r.lineoffsets
          = r.lineoffsets := by
        rw [hk, hm3]
        exact map_emplace_checkpoints_old ls m _ _ (by omega)
      refine ⟨_, rfl, ?_, rfl, ?_⟩
      · simp only [Bool.false_eq_true, if_false, hmap]
        exact ⟨hr.content_eq, rfl, rfl, by simp, by simp; omega, Or.inl (by simp),
          m, hm1, by simp; omega, hm3⟩
      · simp only [Bool.false_eq_true, if_false, hmap]
        exact le_refl _
  · simp only [hmod, if_false]
    refine ⟨_, rfl, ?_, rfl, le_refl _⟩
    exact ⟨hr.content_eq, rfl, rfl, by simp, by simp; omega, Or.inl (by simp),
      m, hm1, by simp; omega, hm3⟩


theorem tracks_skip_to_spec (ls : List Str) (tail : Str) (hls : ∀ l ∈ ls, LF ∉ l)
    (htail : LF ∉ tail) (n : Nat) :
    ∀ (d : Nat) (r : LineReader) (x : Str) (fuel : Nat), Tracks ls tail r →
      ls.length + 1 - r.currline = d → d < fuel →
      ∃ r2, Tracks ls tail r2 ∧ r.lineoffsets.length ≤ r2.lineoffsets.length ∧
        ((r.currline ≤ n ∧ n ≤ ls.length + 1 →
            r2.currline = n ∧ ∃ y, LineReader.skip_to fuel n r x = (.ok y, r2)) ∧
         (¬ (r.currline ≤ n ∧ n ≤ ls.length + 1) →
            LineReader.skip_to fuel n r x = (.error .eof_error, r2))) := by
  intro d
  induction d with
  | zero =>
    intro r x fuel hr hd hf
    obtain ⟨f, rfl⟩ : ∃ f, fuel = f + 1 := ⟨fuel - 1, by omega⟩
    have hle := hr.line_le
    have hend : r.currline = ls.length + 1 := by omega
    by_cases hcn : r.currline = n
    · refine ⟨r, hr, le_refl _, ?_, ?_⟩
      · intro _
        exact ⟨hcn, x, by simp [LineReader.skip_to, hcn]⟩
      · intro hn
        omega
    · obtain ⟨r2, hnext, hr2, _, hlo⟩ := tracks_nextline_at_end ls tail htail r hr hend x
      refine ⟨r2, hr2, by rw [hlo], ?_, ?_⟩
      · intro hn
        omega
      · intro _
        simp only [LineReader.skip_to, ne_eq, hcn, not_false_eq_true, if_true, hnext]
  | succ d ih =>
    intro r x fuel hr hd hf
    obtain ⟨f, rfl⟩ : ∃ f, fuel = f + 1 := ⟨fuel - 1, by omega⟩
    have hle := hr.line_le
    by_cases hcn : r.currline = n
    · refine ⟨r, hr, le_refl _, ?_, ?_⟩
      · intro _
        exact ⟨hcn, x, by simp [LineReader.skip_to, hcn]⟩
      · intro hn
        omega
    · obtain ⟨r1, hnext, hr1, hc1, hlen1⟩ :=
        tracks_nextline_at_line ls tail hls r hr (by omega) x
      obtain ⟨r2, hr2, hlen2, hok, herr⟩ :=
        ih r1 (ls.getD (r.currline - 1) []) f hr1 (by omega) (by omega)
      refine ⟨r2, hr2, le_trans hlen1 hlen2, ?_, ?_⟩
      · intro hn
        obtain ⟨e, y, hy⟩ := hok (by omega)
        refine ⟨e, y, ?_⟩
        simp only [LineReader.skip_to, ne_eq, hcn, not_false_eq_true, if_true, hnext]
        exact hy
      · intro hn
        have := herr (by omega)
        simp only [LineReader.skip_to, ne_eq, hcn, not_false_eq_true, if_true, hnext]
        exact this

theorem length_le_file_tail (ls : List Str) (tail : Str) :
    ls.length ≤ (file_of_lines ls ++ tail).length := by
  have := length_le_file ls
  rw [List.length_append]
  omega

/-- State of the reader right after the seek of `read_line`. -/
theorem tracks_after_seek (ls : List Str) (tail : Str) (r : LineReader)
    (hr : Tracks ls tail r) (k : Nat) (hk : checkpoint ls k ∈ r.lineoffsets) :
    Tracks ls tail
      { r with currline := (checkpoint ls k).1 - LINE_GRANULARITY,
               ifs := r.ifs.seekg (checkpoint ls k).2 } := by
  obtain ⟨m, hm1, hm2, hm3⟩ := hr.index_eq
  rw [hm3] at hk
  obtain ⟨j, hj, hjk⟩ := mem_checkpoints hk
  have hkj : k = j := by
    have := congrArg Prod.fst hjk
    simp only [checkpoint] at this
    omega
  subst hkj
  refine ⟨?_, ?_, ?_, ?_, ?_, Or.inl ?_, m, hm1, ?_, hm3⟩
  · simp [IfStream.seekg, hr.fail_clear, hr.content_eq]
  · simp [IfStream.seekg, hr.fail_clear]
  · simp [IfStream.seekg, hr.fail_clear]
  · simp [checkpoint, LINE_GRANULARITY]
  · simp only [checkpoint, LINE_GRANULARITY]; omega
  · simp [IfStream.seekg, hr.fail_clear, checkpoint, LINE_GRANULARITY]
  · simp only [checkpoint, LINE_GRANULARITY]; omega

theorem tracks_read_line_spec (ls : List Str) (tail : Str) (hls : ∀ l ∈ ls, LF ∉ l)
    (htail : LF ∉ tail) (r : LineReader) (hr : Tracks ls tail r) (n : Nat) :
    ∃ r2, Tracks ls tail r2 ∧ r.lineoffsets.length ≤ r2.lineoffsets.length ∧
      r.read_line n
        = (if 1 ≤ n ∧ n ≤ ls.length then .ok (ls.getD (n - 1) []) else .error .eof_error,
           r2) := by
  have h1 := hr.line_pos
  have hle := hr.line_le
  by_cases hcn : n = r.currline
  · subst hcn
    by_cases hin : r.currline ≤ ls.length
    · obtain ⟨r2, hnext, hr2, _, hlen⟩ := tracks_nextline_at_line ls tail hls r hr hin []
      refine ⟨r2, hr2, hlen, ?_⟩
      have : 1 ≤ r.currline ∧ r.currline ≤ ls.length := ⟨h1, hin⟩
      rw [if_pos this]
      simp only [LineReader.read_line, ne_eq, not_true_eq_false, if_false, hnext]
    · obtain ⟨r2, hnext, hr2, _, hlo⟩ :=
        tracks_nextline_at_end ls tail htail r hr (by omega) []
      refine ⟨r2, hr2, by rw [hlo], ?_⟩
      have : ¬ (1 ≤ r.currline ∧ r.currline ≤ ls.length) := by omega
      rw [if_neg this]
      simp only [LineReader.read_line, ne_eq, not_true_eq_false, if_false, hnext]
  · obtain ⟨m, hm1, hm2, hm3⟩ := hr.index_eq
    have hseek := seek_target_checkpoints ls r m n hm3
    let k := min ((n - 1) / 16) m
    have hk1 : k ≤ m := Nat.min_le_right _ _
    have hk2 : k ≤ (n - 1) / 16 := Nat.min_le_left _ _
    have hmem : checkpoint ls k ∈ r.lineoffsets := by
      rw [hm3]
      simp only [checkpoints, List.mem_map, List.mem_range]
      exact ⟨k, by omega, rfl⟩
    let r1 : LineReader :=
      { r with currline := (checkpoint ls k).1 - LINE_GRANULARITY,
               ifs := r.ifs.seekg (checkpoint ls k).2 }
    have hr1 : Tracks ls tail r1 := tracks_after_seek ls tail r hr k hmem
    have hcur : r1.currline = 16 * k + 1 := by
      simp [r1, checkpoint, LINE_GRANULARITY]
    have hlen : r1.ifs.content.length = (file_of_lines ls ++ tail).length := by
      rw [hr1.content_eq]
    have hfile := length_le_file_tail ls tail
    obtain ⟨r2, hr2, hlen2, hok, herr⟩ := tracks_skip_to_spec ls tail hls htail n
      (ls.length + 1 - r1.currline) r1 [] (r1.ifs.content.length + 1) hr1 rfl (by omega)
    have hlen1 : r.lineoffsets.length ≤ r2.lineoffsets.length := hlen2
    by_cases hin : r1.currline ≤ n ∧ n ≤ ls.length + 1
    · obtain ⟨e, y, hy⟩ := hok hin
      have hstep : r.read_line n = r2.nextline y := by
        simp only [LineReader.read_line, hcn, ne_eq, not_false_eq_true, if_true, hseek]
        show (match LineReader.skip_to (r1.ifs.content.length + 1) n r1 [] with
          | (.ok l, r2) => r2.nextline l
          | (.error e, r2) => (.error e, r2)) = _
        rw [hy]
      by_cases hL : n ≤ ls.length
      · obtain ⟨r3, hnext, hr3, _, hlen3⟩ :=
          tracks_nextline_at_line ls tail hls r2 hr2 (by omega) y
        refine ⟨r3, hr3, le_trans hlen1 hlen3, ?_⟩
        have : 1 ≤ n ∧ n ≤ ls.length := ⟨by omega, hL⟩
        rw [hstep, hnext, e, if_pos this]
      · obtain ⟨r3, hnext, hr3, _, hlo⟩ :=
          tracks_nextline_at_end ls tail htail r2 hr2 (by omega) y
        refine ⟨r3, hr3, by rw [hlo]; exact hlen1, ?_⟩
        have : ¬ (1 ≤ n ∧ n ≤ ls.length) := by omega
        rw [hstep, hnext, if_neg this]
    · have hy := herr hin
      refine ⟨r2, hr2, hlen1, ?_⟩
      have : ¬ (1 ≤ n ∧ n ≤ ls.length) := by
        rw [hcur] at hin
        omega
      rw [if_neg this]
      simp only [LineReader.read_line, hcn, ne_eq, not_false_eq_true, if_true, hseek]
      show (match LineReader.skip_to (r1.ifs.content.length + 1) n r1 [] with
          | (.ok l, r2) => r2.nextline l
          | (.error e, r2) => (.error e, r2)) = _
      rw [hy]

theorem tracks_init (ls : List Str) (tail : Str) :
    Tracks ls tail (LineReader.init (file_of_lines ls ++ tail)) := by
  refine ⟨rfl, rfl, rfl, by simp [LineReader.init], by simp [LineReader.init], Or.inl ?_,
    0, by omega, by simp [LineReader.init], rfl⟩
  simp [LineReader.init, line_offset, file_of_lines]

theorem tracks_run_requests (ls : List Str) (tail : Str) (hls : ∀ l ∈ ls, LF ∉ l)
    (htail : LF ∉ tail) (reqs : List Nat) :
    ∀ r, Tracks ls tail r → Tracks ls tail (run_requests r reqs) ∧
      r.lineoffsets.length ≤ (run_requests r reqs).lineoffsets.length := by
  induction reqs with
  | nil => intro r hr; exact ⟨hr, le_refl _⟩
  | cons n rest ih =>
    intro r hr
    obtain ⟨r2, hr2, hlen, h⟩ := tracks_read_line_spec ls tail hls htail r hr n
    have : run_requests r (n :: rest) = run_requests r2 rest := by
      simp [run_requests, h]
    rw [this]
    obtain ⟨h3, h4⟩ := ih r2 hr2
    exact ⟨h3, le_trans hlen h4⟩

/-- The reader of any file, after any requests, follows the lines of the
file. -/
theorem tracks_reachable (content : Str) (reqs : List Nat) :
    Tracks (lines_of content).1 (lines_of content).2
      (run_requests (LineReader.init content) reqs) := by
  obtain ⟨h1, h2, h3⟩ := lines_of_spec content
  have := (tracks_run_requests _ _ h2 h3 reqs _ (tracks_init _ _)).1
  rw [h1] at this
  exact this


theorem take_line_offset (ls : List Str) (tail : Str) (j : Nat) :
    (file_of_lines ls ++ tail).take (line_offset ls j) = file_of_lines (ls.take j) := by
  have h : file_of_lines ls = file_of_lines (ls.take j) ++ file_of_lines (ls.drop j) := by
    rw [← file_of_lines_append, List.take_append_drop]
  rw [h, List.append_assoc, line_offset, List.take_left]

/-- C11: for every file and every sequence of `read_line` calls after opening
it, the checkpoint map is the list of the entries for the lines
`1, 17, ..., 16 * m + 1` (for some `m` with `16 * m` not beyond the number of
terminated lines), in this order and without gaps: the entry of line
`16 * k + 1` has the key `16 * k + 1 + 16` and, as offset, the number of bytes
of the first `16 * k` lines, so that the bytes before the offset are exactly
those lines with their line feeds; the first entry is line 1 at offset 0. -/
theorem checkpoint_index_invariant (content : Str) (reqs : List Nat) :
    ∃ m, 16 * m ≤ (lines_of content).1.length ∧
      (run_requests (LineReader.init content) reqs).lineoffsets
        = (List.range (m + 1)).map (fun k =>
            (16 * k + 1 + LINE_GRANULARITY, line_offset (lines_of content).1 (16 * k))) ∧
      (∀ e ∈ (run_requests (LineReader.init content) reqs).lineoffsets,
        ∃ k, k ≤ m ∧ checkpoint_line e = 16 * k + 1 ∧
          content.take e.2 = file_of_lines ((lines_of content).1.take (16 * k))) ∧
      (run_requests (LineReader.init content) reqs).lineoffsets.map checkpoint_line
        = (List.range (m + 1)).map (fun k => 16 * k + 1) ∧
      (run_requests (LineReader.init content) reqs).lineoffsets.head? = some (17, 0) := by
  have htr := tracks_reachable content reqs
  obtain ⟨h1, _, _⟩ := lines_of_spec content
  obtain ⟨m, hm1, _, hm3⟩ := htr.index_eq
  refine ⟨m, hm1, ?_, ?_, ?_, ?_⟩
  · rw [hm3]; rfl
  · intro e he
    rw [hm3] at he
    obtain ⟨k, hk, rfl⟩ := mem_checkpoints he
    refine ⟨k, hk, by simp [checkpoint_line, checkpoint, LINE_GRANULARITY], ?_⟩
    have := take_line_offset (lines_of content).1 (lines_of content).2 (16 * k)
    rw [h1] at this
    exact this
  · rw [hm3]
    simp [checkpoints, checkpoint_line, checkpoint, LINE_GRANULARITY]
  · rw [hm3]
    simp [checkpoints, List.range_succ_eq_map, checkpoint, line_offset, file_of_lines]

/-- A line after the last line feed of the file is never returned: from every
reachable state, `read_line` for the line number of the unterminated rest ends
with `eof_error`. -/
theorem unterminated_line_unreadable (content : Str) (reqs : List Nat) :
    ((run_requests (LineReader.init content) reqs).read_line
        ((lines_of content).1.length + 1)).1 = .error .eof_error := by
  obtain ⟨_, h2, h3⟩ := lines_of_spec content
  obtain ⟨r2, _, _, h⟩ := tracks_read_line_spec _ _ h2 h3 _ (tracks_reachable content reqs)
    ((lines_of content).1.length + 1)
  have : ¬ (1 ≤ (lines_of content).1.length + 1 ∧
      (lines_of content).1.length + 1 ≤ (lines_of content).1.length) := by omega
  rw [h, if_neg this]

/-- C13, the failing input: the file `"a\nb"` has the two lines `a` and `b`,
the second one unterminated; `read_line(2)` on the freshly opened reader, and
after any earlier requests, ends with `eof_error` and does not return `b`. -/
theorem read_line_unterminated_last_line :
    lines_of "a\nb".toList = (["a".toList], "b".toList) ∧
    ((LineReader.init "a\nb".toList).read_line 2).1 = .error .eof_error ∧
    ∀ reqs : List Nat,
      ((run_requests (LineReader.init "a\nb".toList) reqs).read_line 2).1
        = .error .eof_error := by
  refine ⟨by decide, ?_, ?_⟩
  · exact unterminated_line_unreadable "a\nb".toList []
  · intro reqs
    exact unterminated_line_unreadable "a\nb".toList reqs

theorem shorten_scan_mid_component (d x y rest : Str) (hd : BACKSLASH ∉ d)
    (hx : BACKSLASH ∉ x) (hxs : SLASH ∉ x) (hy : SLASH ∉ y) (hyne : y ≠ []) :
    shorten_scan (d ++ SLASH :: (x ++ y ++ SLASH :: rest)) (d ++ SLASH :: x)
      = ((d ++ SLASH :: x).length, d.length) := by
  have hno : BACKSLASH ∉ d ++ SLASH :: x := by
    simp only [List.mem_append, List.mem_cons, not_or]
    exact ⟨hd, fun e => slash_ne_backslash e.symm, hx⟩
  have hloop := common_prefix_loop_shared (d ++ SLASH :: x) hno (y ++ SLASH :: rest) []
    (Or.inr (Or.inl rfl)) [] (min (d ++ SLASH :: (x ++ y ++ SLASH :: rest)).length
      (d ++ SLASH :: x).length) 0 (by simp)
  have e1 : [] ++ (d ++ SLASH :: x) ++ (y ++ SLASH :: rest)
      = d ++ SLASH :: (x ++ y ++ SLASH :: rest) := by simp
  have e2 : [] ++ (d ++ SLASH :: x) ++ ([] : Str) = d ++ SLASH :: x := by simp
  rw [e1, e2, last_slash_from_split d x hxs] at hloop
  simp only [List.length_nil, Nat.zero_add] at hloop
  obtain ⟨c, y2, rfl⟩ := List.exists_cons_of_ne_nil hyne
  have hc : c ≠ SLASH := fun e => hy (by simp [e])
  have hat : char_at (d ++ SLASH :: (x ++ (c :: y2) ++ SLASH :: rest)) (d ++ SLASH :: x).length
      = c := by
    have : d ++ SLASH :: (x ++ (c :: y2) ++ SLASH :: rest)
        = (d ++ SLASH :: x) ++ c :: (y2 ++ SLASH :: rest) := by simp
    rw [this, char_at_length_cons]
  unfold shorten_scan
  simp only [hloop, hat, hc, and_false, if_false]


theorem isDigit_iff (c : Char) : c.isDigit = true ↔ 48 ≤ c.toNat ∧ c.toNat ≤ 57 := by
  simp only [Char.isDigit, Bool.and_eq_true, decide_eq_true_eq, ge_iff_le, Char.toNat]
  constructor
  · rintro ⟨h1, h2⟩
    exact ⟨h1, h2⟩
  · rintro ⟨h1, h2⟩
    exact ⟨h1, h2⟩

theorem digitChar_spec (d : Nat) (h : d < 10) :
    (Nat.digitChar d).isDigit = true ∧ (Nat.digitChar d).toNat - 48 = d := by
  interval_cases d <;> decide

theorem digits_value_foldl (ds : Str) (a : Nat) :
    ds.foldl (fun acc d => acc * 10 + (d.toNat - 48)) a
      = a * 10 ^ ds.length + digits_value ds := by
  induction ds generalizing a with
  | nil => simp [digits_value]
  | cons c cs ih =>
    simp only [List.foldl_cons, digits_value, List.length_cons]
    rw [ih, ih (0 * 10 + (c.toNat - 48))]
    ring

theorem digits_value_cons (c : Char) (ds : Str) :
    digits_value (c :: ds) = (c.toNat - 48) * 10 ^ ds.length + digits_value ds := by
  simp only [digits_value, List.foldl_cons]
  rw [digits_value_foldl]
  simp [digits_value]

/-- The decimal digits written for `n` are digits, at least one, and stand for
`n`. -/
theorem toDigitsCore_spec :
    ∀ (fuel n : Nat) (acc : Str), n < fuel → (∀ c ∈ acc, c.isDigit = true) →
      (∀ c ∈ Nat.toDigitsCore 10 fuel n acc, c.isDigit = true) ∧
      Nat.toDigitsCore 10 fuel n acc ≠ [] ∧
      digits_value (Nat.toDigitsCore 10 fuel n acc) = n * 10 ^ acc.length + digits_value acc := by
  intro fuel
  induction fuel with
  | zero => intro n acc h; omega
  | succ f ih =>
    intro n acc hf hacc
    have hd := digitChar_spec (n % 10) (Nat.mod_lt _ (by omega))
    have hacc2 : ∀ c ∈ Nat.digitChar (n % 10) :: acc, c.isDigit = true := by
      intro c hc
      rcases List.mem_cons.mp hc with rfl | hc
      · exact hd.1
      · exact hacc c hc
    simp only [Nat.toDigitsCore]
    by_cases h0 : n / 10 = 0
    · simp only [h0, if_true]
      refine ⟨hacc2, by simp, ?_⟩
      rw [digits_value_cons, hd.2]
      have : n % 10 = n := by omega
      rw [this]
    · simp only [h0, if_false]
      obtain ⟨h1, h2, h3⟩ := ih (n / 10) (Nat.digitChar (n % 10) :: acc) (by omega) hacc2
      refine ⟨h1, h2, ?_⟩
      rw [h3, digits_value_cons, hd.2, List.length_cons, pow_succ]
      have := Nat.div_add_mod n 10
      conv => rhs; rw [← this]
      ring

theorem decimal_spec (n : Nat) :
    (∀ c ∈ decimal n, c.isDigit = true) ∧ decimal n ≠ [] ∧ digits_value (decimal n) = n := by
  have := toDigitsCore_spec (n + 1) n [] (by omega) (by simp)
  simpa [decimal, Nat.toDigits, digits_value] using this

theorem digit_not_space_or_sign (c : Char) (h : c.isDigit = true) :
    is_space c = false ∧ c ≠ '-' ∧ c ≠ '+' ∧ c ≠ ':' := by
  have h2 := (isDigit_iff c).mp h
  refine ⟨?_, ?_, ?_, ?_⟩
  · simp only [is_space, Bool.or_eq_false_iff, decide_eq_false_iff_not, Bool.and_eq_false_iff]
    omega
  · rintro rfl
    exact absurd h (by decide)
  · rintro rfl
    exact absurd h (by decide)
  · rintro rfl
    exact absurd h (by decide)

/-- Function `strtoull` reads back the decimal digits of a `size_t` value. -/
theorem strtoull_decimal (n : Nat) (h : n < SIZE) : strtoull (decimal n) = n := by
  obtain ⟨hall, hne, hval⟩ := decimal_spec n
  obtain ⟨c, cs, hcs⟩ := List.exists_cons_of_ne_nil hne
  have hc : c.isDigit = true := hall c (by rw [hcs]; simp)
  obtain ⟨hsp, hminus, hplus, _⟩ := digit_not_space_or_sign c hc
  have hdrop : (decimal n).dropWhile is_space = decimal n := by
    rw [hcs, List.dropWhile_cons, hsp]
    simp
  have hhead : (decimal n).head? = some c := by rw [hcs]; rfl
  have htake : (decimal n).takeWhile Char.isDigit = decimal n := by
    rw [List.takeWhile_eq_self_iff]
    exact hall
  have h1 : ¬ (some c = some '-' ∨ some c = some '+') := by
    rintro (e | e)
    · exact hminus (Option.some.inj e)
    · exact hplus (Option.some.inj e)
  have h2 : ¬ SIZE ≤ n := by omega
  have h3 : ¬ (some c = some '-') := fun e => hminus (Option.some.inj e)
  unfold strtoull
  have h4 : ¬ (some c = some '+') := fun e => hplus (Option.some.inj e)
  simp only [hdrop, hhead, h3, h4, or_self, if_false, htake, hne, hval, h2, decide_False,
    Bool.false_eq_true]

theorem rfind_from_at (p t : Str) (c : Char) (h : c ∉ t) :
    ∀ j, j ≤ t.length → rfind_from (p ++ c :: t) c (p.length + j) = some p.length := by
  have hget : (p ++ c :: t).get? p.length = some c := by
    simp [List.get?_eq_getElem?, List.getElem?_append_right (le_refl p.length)]
  intro j
  induction j with
  | zero =>
    intro _
    rw [Nat.add_zero]
    cases hp : p.length with
    | zero =>
      rw [hp] at hget
      simp only [rfind_from, hget, if_true]
    | succ q =>
      rw [hp] at hget
      simp only [rfind_from, hget, if_true]
  | succ j ih =>
    intro hj
    have hne : (p ++ c :: t).get? (p.length + (j + 1)) ≠ some c := by
      intro e
      have h1 : (p ++ c :: t).get? (p.length + (j + 1)) = t.get? j := by
        simp only [List.get?_eq_getElem?]
        rw [List.getElem?_append_right (by omega)]
        have : p.length + (j + 1) - p.length = j + 1 := by omega
        rw [this, List.getElem?_cons_succ]
      rw [h1] at e
      have := List.get?_mem e
      exact h this
    have : p.length + (j + 1) = (p.length + j) + 1 := by omega
    rw [this] at hne ⊢
    simp only [rfind_from, hne, if_false]
    exact ih (by omega)

theorem rfind_last_colon (p t : Str) (h : ':' ∉ t) (hsize : (p ++ ':' :: t).length < SIZE) :
    rfind (p ++ ':' :: t) ':' NPOS = p.length := by
  have hS : NPOS = SIZE - 1 := rfl
  have h1 : (p ++ ':' :: t).length - 1 = p.length + t.length := by simp
  have hlen : min NPOS ((p ++ ':' :: t).length - 1) = p.length + t.length := by
    rw [h1]
    apply Nat.min_eq_right
    simp only [List.length_append, List.length_cons] at hsize
    omega
  unfold rfind
  rw [hlen, rfind_from_at p t ':' h t.length (le_refl _)]


theorem parse_frame_fields (cwd m : Str) (fi : Frameinfo) (sym p t : Str) (h : ':' ∉ t)
    (hsize : (p ++ ':' :: t).length < SIZE) :
    (parse_frame cwd m fi sym (p ++ ':' :: t)).source_file_path
      = (if p = "??".toList then [] else p) ∧
    (parse_frame cwd m fi sym (p ++ ':' :: t)).linenr = strtoull t ∧
    (parse_frame cwd m fi sym (p ++ ':' :: t)).symbol = sym ∧
    (parse_frame cwd m fi sym (p ++ ':' :: t)).shared_obj = some m := by
  have hcolon := rfind_last_colon p t h hsize
  have htake : (p ++ ':' :: t).take p.length = p := List.take_left _ _
  have hmod : (p.length + 1) % SIZE = p.length + 1 := by
    apply Nat.mod_eq_of_lt
    simp only [List.length_append, List.length_cons] at hsize
    omega
  have hdrop : (p ++ ':' :: t).drop (p.length + 1) = t := by
    rw [show p ++ ':' :: t = (p ++ [':']) ++ t by simp]
    exact List.drop_left' (by simp)
  unfold parse_frame
  simp only [hcolon, htake, hmod, hdrop]
  by_cases hp : p = "??".toList
  · rw [if_pos hp, if_pos hp]
    exact ⟨rfl, rfl, rfl, rfl⟩
  · rw [if_neg hp, if_neg hp]
    exact ⟨rfl, rfl, rfl, rfl⟩

/-- C16, the failing input: a run whose only rendered frame is at line 10 gets
the column width 1, although 10 has two digits, and one at line 100 gets the
width 2, although 100 has three; in a run with frames at lines 9 and 10 the
width is 1, so the row of line 10 is one character wider than the row of
line 9. The width is the ceiling of the decimal logarithm, which is one less
than the number of digits at every power of ten. -/
theorem max_line_digits_power_of_ten :
    max_line_digits [{ Frameinfo.empty with linenr := 10 }] 0 1 = 1 ∧
    (decimal 10).length = 2 ∧
    max_line_digits [{ Frameinfo.empty with linenr := 100 }] 0 1 = 2 ∧
    (decimal 100).length = 3 ∧
    max_line_digits
      [{ Frameinfo.empty with linenr := 9 }, { Frameinfo.empty with linenr := 10 }] 0 2 = 1 ∧
    (setw_decimal 1 9).length = 1 ∧ (setw_decimal 1 10).length = 2 ∧
    max_line_digits [{ Frameinfo.empty with linenr := 11 }] 0 1 = 2 ∧
    max_line_digits [Frameinfo.empty] 0 1 = 1 := by
  decide

/-- C17, the failing inputs: on the path `\/f.cpp` the loop of
`split_path_filename` finds the separator at position 1 in every round
(`pos - 2` wraps to `size_t(-1)`), so the function does not return whatever
the number of rounds granted; on the path `a\/b` the search from position 0
gives `npos`, and the next test of the loop reads `path[npos - 1]`, outside
the string. -/
theorem split_path_filename_escaped_separator :
    (∀ fuel : Nat,
      split_path_filename fuel [BACKSLASH, SLASH, 'f', '.', 'c', 'p', 'p']
        = .error .out_of_fuel) ∧
    (∀ fuel : Nat,
      split_path_filename (fuel + 2) ['a', BACKSLASH, SLASH, 'b']
        = .error .undefined_behaviour) := by
  constructor
  · intro fuel
    have h1 : rfind [BACKSLASH, SLASH, 'f', '.', 'c', 'p', 'p'] SLASH NPOS = 1 := by decide
    have h3 : (1 : Nat) ≠ NPOS := by decide
    simp only [split_path_filename, h1, if_neg h3, split_loop_escaped_separator fuel]
  · intro fuel
    have h1 : rfind ['a', BACKSLASH, SLASH, 'b'] SLASH NPOS = 2 := by decide
    have h3 : (2 : Nat) ≠ NPOS := by decide
    have h4 : rfind ['a', BACKSLASH, SLASH, 'b'] SLASH ((2 + SIZE - 2) % SIZE) = NPOS := by
      decide
    have h5 : char_at ['a', BACKSLASH, SLASH, 'b'] (2 - 1) = BACKSLASH := by decide
    have h6 : ¬ (['a', BACKSLASH, SLASH, 'b'] : Str).length < 2 - 1 := by decide
    have h7 : NPOS > 0 := by decide
    have h8 : (['a', BACKSLASH, SLASH, 'b'] : Str).length < NPOS - 1 := by decide
    simp only [split_path_filename, h1, if_neg h3, split_path_filename_loop, h4, h5, h6, h7,
      h8, if_true, if_false, gt_iff_lt, Nat.lt_add_one, Nat.ofNat_pos]

/-- C18, the failing input: the source file `/f.cpp` seen from the working
directory `/home/u` keeps the display path `/f.cpp`, which holds no
backslash; `split_path_filename` returns 0 for it, the test `fname_pos > 0`
leaves the directory part out, and the frame at line 3 of `main` is printed,
colours apart, as `at f.cpp:3 in main`: the `/` is lost. -/
theorem frameinfo_print_root_file_loses_slash :
    shorten_path "/f.cpp".toList "/home/u".toList = "/f.cpp".toList ∧
    BACKSLASH ∉ "/f.cpp".toList ∧
    (∀ fuel : Nat, split_path_filename (fuel + 1) "/f.cpp".toList = .ok 0) ∧
    (∀ fuel : Nat,
      (Frameinfo.print (fuel + 1)
        { shared_obj := some "/bin/app".toList, symbol := "main".toList,
          source_file_path := "/f.cpp".toList, short_source_file_path := "/f.cpp".toList,
          linenr := 3 }).map strip_escapes = .ok "at f.cpp:3 in main\n".toList) ∧
    plain_frame_text
        { shared_obj := some "/bin/app".toList, symbol := "main".toList,
          source_file_path := "/f.cpp".toList, short_source_file_path := "/f.cpp".toList,
          linenr := 3 } = "at /f.cpp:3 in main\n".toList ∧
    "at f.cpp:3 in main\n".toList ≠ "at /f.cpp:3 in main\n".toList := by
  have hs : ∀ fuel : Nat, split_path_filename (fuel + 1) "/f.cpp".toList = .ok 0 := by
    intro fuel
    have h1 : rfind "/f.cpp".toList SLASH NPOS = 0 := by decide
    have h3 : (0 : Nat) ≠ NPOS := by decide
    simp only [split_path_filename, h1, if_neg h3, split_path_filename_loop]
    simp
  refine ⟨by decide, by decide, hs, ?_, by decide, by decide⟩
  intro fuel
  have hp : Frameinfo.print (fuel + 1)
        { shared_obj := some "/bin/app".toList, symbol := "main".toList,
          source_file_path := "/f.cpp".toList, short_source_file_path := "/f.cpp".toList,
          linenr := 3 }
      = .ok (full_form_text
        { shared_obj := some "/bin/app".toList, symbol := "main".toList,
          source_file_path := "/f.cpp".toList, short_source_file_path := "/f.cpp".toList,
          linenr := 3 } 0) := by
    simp only [Frameinfo.print, hs fuel]
    rfl
  rw [hp]
  show Except.ok (strip_escapes _) = _
  congr 1

/-- C19: a line `s` of any length without line feed and NUL that is followed
by a line feed in the stream is returned whole by `getline_from_fd`, as soon
as more rounds are granted than `s` has characters, and the stream is left
right after that line feed; at the end of the stream the empty string is
returned. -/
theorem getline_from_fd_whole_line (s rest : Str) (hlf : LF ∉ s) (hnul : NUL ∉ s) :
    (∀ fuel : Nat, s.length < fuel →
      getline_from_fd fuel (s ++ LF :: rest) [] = .ok (s, rest)) ∧
    (∀ fuel : Nat, getline_from_fd (fuel + 1) [] [] = .ok ([], [])) := by
  constructor
  · intro fuel hfuel
    have := getline_from_fd_line fuel s rest [] hlf hnul hfuel
    simpa using this
  · intro fuel
    rfl

/-- Witness for C19: a symbol of 255 characters, which takes two reads, in
front of its location line. -/
theorem getline_from_fd_whole_line_witness :
    LF ∉ List.replicate 255 'x' ∧ NUL ∉ List.replicate 255 'x' ∧
    getline_from_fd 256 (List.replicate 255 'x' ++ LF :: "f.cpp:3\n".toList) []
      = .ok (List.replicate 255 'x', "f.cpp:3\n".toList) :=
  ⟨fun h => absurd (List.eq_of_mem_replicate h) (by decide),
   fun h => absurd (List.eq_of_mem_replicate h) (by decide),
   (getline_from_fd_whole_line (List.replicate 255 'x') "f.cpp:3\n".toList
      (fun h => absurd (List.eq_of_mem_replicate h) (by decide))
      (fun h => absurd (List.eq_of_mem_replicate h) (by decide))).1 256
      (by rw [List.length_replicate]; exact Nat.lt_succ_self 255)⟩


/-! ### Extent of the column-width defect -/

theorem find_range_least (p : Nat → Bool) :
    ∀ (len s k : Nat), s ≤ k → k < s + len → p k = true →
      (∀ j, s ≤ j → j < k → p j = false) → (List.range' s len).find? p = some k := by
  intro len
  induction len with
  | zero => intro s k h1 h2; omega
  | succ len ih =>
    intro s k h1 h2 hp hlt
    rw [List.range'_succ]
    by_cases hsk : s = k
    · subst hsk
      simp [List.find?_cons, hp]
    · have hps : p s = false := hlt s (le_refl s) (by omega)
      rw [List.find?_cons, hps]
      exact ih (s + 1) k (by omega) (by omega) hp (fun j hj1 hj2 => hlt j (by omega) hj2)

/-- The value `ceil_log10 n` is the least exponent `k` with `n ≤ 10 ^ k`. -/
theorem ceil_log10_spec (n k : Nat) (hk : k ≤ 20) (h1 : n ≤ 10 ^ k)
    (h2 : k = 0 ∨ 10 ^ (k - 1) < n) : ceil_log10 n = k := by
  have hfind : (List.range 21).find? (fun k => decide (n ≤ 10 ^ k)) = some k := by
    rw [List.range_eq_range']
    apply find_range_least _ 21 0 k (Nat.zero_le k) (by omega)
    · simpa using h1
    · intro j _ hjk
      have hk0 : k ≠ 0 := by omega
      have h3 : 10 ^ (k - 1) < n := by
        rcases h2 with h2 | h2
        · exact absurd h2 hk0
        · exact h2
      have h4 : 10 ^ j ≤ 10 ^ (k - 1) := Nat.pow_le_pow_right (by decide) (by omega)
      simp only [decide_eq_false_iff_not, not_le]
      omega
  simp [ceil_log10, hfind]

theorem toDigitsCore_length_eq :
    ∀ (fuel n : Nat) (acc : Str) (d : Nat), n < fuel → 0 < d → n < 10 ^ d →
      (d = 1 ∨ 10 ^ (d - 1) ≤ n) →
      (Nat.toDigitsCore 10 fuel n acc).length = acc.length + d := by
  intro fuel
  induction fuel with
  | zero => intro n acc d h; omega
  | succ f ih =>
    intro n acc d hn hd hlt hge
    simp only [Nat.toDigitsCore]
    by_cases h0 : n / 10 = 0
    · rw [if_pos h0]
      have hn10 : n < 10 := by omega
      have hd1 : d = 1 := by
        rcases hge with h | h
        · exact h
        · by_contra hne
          have : 10 ^ 1 ≤ 10 ^ (d - 1) := Nat.pow_le_pow_right (by decide) (by omega)
          omega
      simp [hd1]
    · rw [if_neg h0]
      have hn10 : 10 ≤ n := by omega
      have hd2 : 2 ≤ d := by
        by_contra hne
        have : d = 1 := by omega
        subst this
        omega
      have hpow : 10 ^ d = 10 * 10 ^ (d - 1) := by
        rw [← pow_succ']
        congr 1
        omega
      have hpow2 : 10 ^ (d - 1) = 10 * 10 ^ (d - 1 - 1) := by
        rw [← pow_succ']
        congr 1
        omega
      have hge2 : 10 ^ (d - 1) ≤ n := by
        rcases hge with h | h
        · omega
        · exact h
      rw [ih (n / 10) (Nat.digitChar (n % 10) :: acc) (d - 1) (by omega) (by omega)
        (by omega) (Or.inr (by omega))]
      simp only [List.length_cons]
      omega

/-- The number of digits written for `n`: `d` when `10 ^ (d - 1) ≤ n < 10 ^ d`,
and 1 for `n < 10`. -/
theorem decimal_length (n d : Nat) (hd : 0 < d) (hlt : n < 10 ^ d)
    (hge : d = 1 ∨ 10 ^ (d - 1) ≤ n) : (decimal n).length = d := by
  have := toDigitsCore_length_eq (n + 1) n [] d (by omega) hd hlt hge
  simpa [decimal, Nat.toDigits] using this

/-- The extent of the defect behind C16, for line numbers below `10 ^ 12`,
where `ceil_log10` is what the `double` computation gives: at a power of ten
`10 ^ k` the value is `k`, one less than the `k + 1` digits; strictly between
two powers of ten it is the number of digits. -/
theorem ceil_log10_digits (k : Nat) (hk : k < 12) :
    (ceil_log10 (10 ^ k) = k ∧ (decimal (10 ^ k)).length = k + 1) ∧
    (∀ n, 10 ^ k < n → n < 10 ^ (k + 1) →
      ceil_log10 n = k + 1 ∧ (decimal n).length = k + 1) := by
  have hmono : 10 ^ k < 10 ^ (k + 1) := Nat.pow_lt_pow_right (by decide) (by omega)
  refine ⟨⟨?_, ?_⟩, ?_⟩
  · apply ceil_log10_spec _ k (by omega) (le_refl _)
    by_cases h0 : k = 0
    · exact Or.inl h0
    · exact Or.inr (Nat.pow_lt_pow_right (by decide) (by omega))
  · exact decimal_length _ (k + 1) (by omega) hmono (Or.inr (by simp))
  · intro n h1 h2
    refine ⟨ceil_log10_spec n (k + 1) (by omega) (by omega) (Or.inr (by simpa using h1)), ?_⟩
    exact decimal_length n (k + 1) (by omega) h2 (Or.inr (by simp; omega))

/-! ### Extent of the lost separator -/

theorem strip_escapes_plain (s t : Str) (h : ESC ∉ s) :
    strip_escapes_from false (s ++ t) = s ++ strip_escapes_from false t := by
  induction s with
  | nil => rfl
  | cons c cs ih =>
    have hc : c ≠ ESC := fun e => h (by simp [e])
    have hcs : ESC ∉ cs := fun e => h (by simp [e])
    rw [List.cons_append]
    simp only [strip_escapes_from, if_neg hc, ih hcs]
    rfl

theorem strip_escapes_colour (t : Str) :
    strip_escapes_from false (GREY ++ t) = strip_escapes_from false t ∧
    strip_escapes_from false (YELLOW ++ t) = strip_escapes_from false t ∧
    strip_escapes_from false (RED ++ t) = strip_escapes_from false t ∧
    strip_escapes_from false (RESET ++ t) = strip_escapes_from false t :=
  ⟨rfl, rfl, rfl, rfl⟩

theorem esc_not_in_decimal (n : Nat) : ESC ∉ decimal n := by
  intro h
  exact absurd ((decimal_spec n).1 _ h) (by decide)

/-- The extent of the defect behind C18: for a frame with module, symbol and
source file whose display path holds no backslash and whose last separator, if
any, is not the first character, the text printed by `Frameinfo::print` is,
colours apart, `at <display path>:<line> in <symbol>` (display path and symbol
holding no escape character). -/
theorem frameinfo_print_plain_text (f : Frameinfo) (m : Str) (hm : f.shared_obj = some m)
    (hsym : f.symbol ≠ []) (hsrc : f.source_file_path ≠ [])
    (hb : BACKSLASH ∉ f.short_source_file_path)
    (hsize : f.short_source_file_path.length < NPOS)
    (he1 : ESC ∉ f.short_source_file_path) (he2 : ESC ∉ f.symbol)
    (hpos : rfind f.short_source_file_path SLASH NPOS ≠ 0) (fuel : Nat) :
    (Frameinfo.print (fuel + 1) f).map strip_escapes = .ok (plain_frame_text f) := by
  have hsplit := split_path_filename_no_backslash f.short_source_file_path hb hsize fuel
  have h1 : ¬ f.symbol.length = 0 := by
    intro h
    exact hsym (List.length_eq_zero.mp h)
  have h2 : ¬ f.source_file_path.length = 0 := by
    intro h
    exact hsrc (List.length_eq_zero.mp h)
  have hp : Frameinfo.print (fuel + 1) f
      = .ok (full_form_text f (rfind f.short_source_file_path SLASH NPOS)) := by
    simp only [Frameinfo.print, hm, if_neg h1, if_neg h2, hsplit]
  rw [hp]
  simp only [Except.map]
  apply congrArg Except.ok
  have hgt : rfind f.short_source_file_path SLASH NPOS > 0 := Nat.pos_of_ne_zero hpos
  have ht : ESC ∉ f.short_source_file_path.take
      ((rfind f.short_source_file_path SLASH NPOS + 1) % SIZE) :=
    fun h => he1 (List.mem_of_mem_take h)
  have hd : ESC ∉ f.short_source_file_path.drop
      ((rfind f.short_source_file_path SLASH NPOS + 1) % SIZE) :=
    fun h => he1 (List.mem_of_mem_drop h)
  have hc := strip_escapes_colour
  have hat : ESC ∉ "at ".toList := by decide
  have hcolon : ESC ∉ ":".toList := by decide
  have hsp : ESC ∉ " ".toList := by decide
  have hin : ESC ∉ "in".toList := by decide
  have hendl : ESC ∉ ENDL := by decide
  have hdec := esc_not_in_decimal f.linenr
  unfold strip_escapes full_form_text plain_frame_text
  rw [if_pos hgt]
  simp only [List.append_assoc]
  rw [(hc _).1, strip_escapes_plain _ _ hat, strip_escapes_plain _ _ ht, (hc _).2.1,
    strip_escapes_plain _ _ hd, (hc _).1, strip_escapes_plain _ _ hcolon, (hc _).2.2.1,
    strip_escapes_plain _ _ hdec, strip_escapes_plain _ _ hsp, (hc _).1,
    strip_escapes_plain _ _ hin, (hc _).2.1, strip_escapes_plain _ _ hsp,
    strip_escapes_plain _ _ he2, (hc _).2.2.2]
  have hend : strip_escapes_from false ENDL = ENDL := by decide
  have hjoin := List.take_append_drop
    ((rfind f.short_source_file_path SLASH NPOS + 1) % SIZE) f.short_source_file_path
  rw [hend]
  simp only [String.toList, List.append_assoc, List.cons_append, List.nil_append]
  rw [← List.append_assoc, hjoin]

/-- The frame of `main` at line 3 of `src/f.cpp` is printed, colours apart, as
`at src/f.cpp:3 in main`. -/
theorem frameinfo_print_plain_text_sample :
    (Frameinfo.print 1
      { shared_obj := some "/bin/app".toList, symbol := "main".toList,
        source_file_path := "/home/u/src/f.cpp".toList,
        short_source_file_path := "src/f.cpp".toList, linenr := 3 }).map strip_escapes
      = .ok "at src/f.cpp:3 in main\n".toList :=
  frameinfo_print_plain_text
    { shared_obj := some "/bin/app".toList, symbol := "main".toList,
      source_file_path := "/home/u/src/f.cpp".toList,
      short_source_file_path := "src/f.cpp".toList, linenr := 3 }
    "/bin/app".toList rfl (by decide) (by decide) (by decide) (by decide) (by decide)
    (by decide) (by decide) 0


/-- A file whose lines all end with a line feed has these lines and no text
after them. -/
theorem lines_of_file_of_lines (ls : List Str) (hls : ∀ l ∈ ls, LF ∉ l) :
    lines_of (file_of_lines ls) = (ls, []) := by
  induction ls with
  | nil => rfl
  | cons l ls ih =>
    have ih2 := ih (fun x hx => hls x (List.mem_cons_of_mem _ hx))
    have hl : LF ∉ l := hls l (List.mem_cons_self _ _)
    have key : ∀ (l : Str), LF ∉ l →
        lines_of (l ++ LF :: file_of_lines ls) = (l :: ls, []) := by
      intro l
      induction l with
      | nil =>
        intro _
        simp [lines_of, ih2]
      | cons c cs ihc =>
        intro hc
        have hne : c ≠ LF := fun e => hc (by simp [e])
        have hcs : LF ∉ cs := fun e => hc (by simp [e])
        have h := ihc hcs
        rw [List.cons_append]
        simp only [lines_of, if_neg hne, h]
    have e : file_of_lines (l :: ls) = l ++ LF :: file_of_lines ls := by
      simp [file_of_lines]
    rw [e]
    exact key l hl

theorem line_count_file_of_lines (ls : List Str) (hls : ∀ l ∈ ls, LF ∉ l) :
    line_count (file_of_lines ls) = ls.length := by
  simp [line_count, lines_of_file_of_lines ls hls]

/-- C2: for every file, whether or not its last line ends with a line feed,
with `L = line_count` lines, from every state reached by earlier `read_line`
calls, `read_line n` with `n > L` ends with `eof_error`: it returns no string
and raises no other error. -/
theorem read_line_past_end_is_eof (content : Str) (reqs : List Nat) (n : Nat)
    (hn : line_count content < n) :
    ((run_requests (LineReader.init content) reqs).read_line n).1 = .error .eof_error := by
  obtain ⟨_, h2, h3⟩ := lines_of_spec content
  obtain ⟨r2, _, _, h⟩ := tracks_read_line_spec _ _ h2 h3 _ (tracks_reachable content reqs) n
  have hle : (lines_of content).1.length ≤ line_count content := Nat.le_add_right _ _
  have : ¬ (1 ≤ n ∧ n ≤ (lines_of content).1.length) := by omega
  rw [h, if_neg this]

/-- Witness for C2: the two-line file `"a\nb"`, whose last line has no line
feed, the requests 2, 7, 1, then a request for line 3. -/
theorem read_line_past_end_is_eof_witness :
    line_count "a\nb".toList = 2 ∧
    ((run_requests (LineReader.init "a\nb".toList) [2, 7, 1]).read_line 3).1
      = .error .eof_error :=
  ⟨by decide, read_line_past_end_is_eof "a\nb".toList [2, 7, 1] 3 (by decide)⟩

/-- When `base = d/x` ends inside the component `x·y` of `path = d/x·y/rest`
(no backslash in `d` and `x`, no separator in `x` and `y`, `y` not empty), the
scan does not take `x` as shared, the first loop uses up `base`, no `"../"` is
collected, and `shorten_path` returns `/x·y/rest`. -/
theorem shorten_path_mid_component_result (d x y rest : Str) (hd : BACKSLASH ∉ d)
    (hx : BACKSLASH ∉ x) (hxs : SLASH ∉ x) (hy : SLASH ∉ y) (hyne : y ≠ []) :
    (shorten_scan (d ++ SLASH :: (x ++ y ++ SLASH :: rest)) (d ++ SLASH :: x)).2 = d.length ∧
    dotdot_segments (d ++ SLASH :: (x ++ y ++ SLASH :: rest)) (d ++ SLASH :: x) = [] ∧
    shorten_path (d ++ SLASH :: (x ++ y ++ SLASH :: rest)) (d ++ SLASH :: x)
      = SLASH :: (x ++ y ++ SLASH :: rest) := by
  have hscan := shorten_scan_mid_component d x y rest hd hx hxs hy hyne
  have hdots : dotdot_segments (d ++ SLASH :: (x ++ y ++ SLASH :: rest)) (d ++ SLASH :: x)
      = [] := by
    unfold dotdot_segments
    rw [hscan]
    simp [dotdot_loop]
  have hrel : relative_form (d ++ SLASH :: (x ++ y ++ SLASH :: rest)) (d ++ SLASH :: x)
      = SLASH :: (x ++ y ++ SLASH :: rest) := by
    unfold relative_form
    rw [hscan, hdots]
    simp
  refine ⟨by rw [hscan], hdots, ?_⟩
  unfold shorten_path
  rw [hrel]
  by_cases h : (SLASH :: (x ++ y ++ SLASH :: rest)).length
      < (d ++ SLASH :: (x ++ y ++ SLASH :: rest)).length
  · rw [if_pos h]
  · rw [if_neg h]
    have hd0 : d = [] := by
      apply List.eq_nil_of_length_eq_zero
      simp only [List.length_append, List.length_cons] at h
      omega
    rw [hd0, List.nil_append]

/-- C12, the failing inputs: for the path `/a/bcd/f.cpp` and the base `/a/bc`
the result is `/bcd/f.cpp`, which is neither the path nor `../bcd/f.cpp`; for
`/aaaa/bcd/f.cpp` and `/aaaa/bc`, where `../bcd/f.cpp` is shorter than the
path, the result is `/bcd/f.cpp` as well. The component `bc` of the base is
not taken as shared (the divergence point is the separator in front of it),
but no `"../"` is collected for it. -/
theorem shorten_path_mid_component_loses_dotdot :
    shorten_path "/a/bcd/f.cpp".toList "/a/bc".toList = "/bcd/f.cpp".toList ∧
    (shorten_scan "/a/bcd/f.cpp".toList "/a/bc".toList).2 = 2 ∧
    dotdot_segments "/a/bcd/f.cpp".toList "/a/bc".toList = [] ∧
    shorten_path "/aaaa/bcd/f.cpp".toList "/aaaa/bc".toList = "/bcd/f.cpp".toList ∧
    (shorten_scan "/aaaa/bcd/f.cpp".toList "/aaaa/bc".toList).2 = 5 ∧
    dotdot_segments "/aaaa/bcd/f.cpp".toList "/aaaa/bc".toList = [] ∧
    "../bcd/f.cpp".toList.length < "/aaaa/bcd/f.cpp".toList.length ∧
    "/bcd/f.cpp".toList ≠ "/aaaa/bcd/f.cpp".toList ∧
    "/bcd/f.cpp".toList ≠ "../bcd/f.cpp".toList := by
  decide


/-- Lines 374 and 378: the module and the symbol line are stored whatever the
location line holds. -/
theorem parse_frame_stores (cwd m : Str) (fi : Frameinfo) (sym loc : Str) :
    (parse_frame cwd m fi sym loc).symbol = sym ∧
    (parse_frame cwd m fi sym loc).shared_obj = some m := by
  unfold parse_frame
  by_cases hp : List.take (rfind loc ':' NPOS) loc = "??".toList
  · rw [if_pos hp]
    exact ⟨rfl, rfl⟩
  · rw [if_neg hp]
    exact ⟨rfl, rfl⟩

/-- Lines 387-389: the display path of a known source path is that path
shortened against the working directory. -/
theorem parse_frame_short (cwd m : Str) (fi : Frameinfo) (sym p t : Str) (h : ':' ∉ t)
    (hsize : (p ++ ':' :: t).length < SIZE) (hp : p ≠ "??".toList) :
    (parse_frame cwd m fi sym (p ++ ':' :: t)).short_source_file_path
      = shorten_path p cwd := by
  have hcolon := rfind_last_colon p t h hsize
  have htake : (p ++ ':' :: t).take p.length = p := List.take_left _ _
  unfold parse_frame
  simp only [hcolon, htake]
  rw [if_neg hp]

/-- C7: when the resolver writes one two-line record per frame for every
batch, the run completes and, for every range visited: `popen` got the command
line whose arguments are, in order, the offsets of the frames of the range;
these frames are the frames of the module in increasing stack order; and the
frame at position `k` of the range ends with the record at position `k` of the
output stored in it, whether or not records repeat: its module is the module
of the range, its symbol is the first line of the record, and for a second
line `p:t` (`t` without colon) its source path is `p` (empty for `"??"`), its
display path is `p` shortened against the working directory, and its line is
the number `t` stands for. The offset of a frame is its return address minus
one minus the load base of its module. -/
theorem batch_records_map_to_frames (env : Env) (skip : Nat) (recs : Str → List (Str × Str))
    (hres : ResolverWrites env skip recs) :
    (symbolize env skip).outcome = .completed ∧
    (symbolize env skip).invocations
      = (symbolize env skip).batches.map (fun b =>
          command_base ++ " ".toList ++ b.1 ++
            (b.2.map (fun i => " ".toList ++ format_pointer (elf_offset env i))).flatten) ∧
    (∀ b ∈ (symbolize env skip).batches,
      b.2 = (env.frame_range skip).filter (fun i => decide (env.module_of i = some b.1)) ∧
      b.2.Sorted (· < ·) ∧
      ∀ (k : Nat) (h1 : k < b.2.length) (h2 : k < (recs b.1).length),
        (symbolize env skip).frameinfos.getD (b.2.get ⟨k, h1⟩) Frameinfo.empty
          = parse_frame env.cwd b.1 Frameinfo.empty
              ((recs b.1).get ⟨k, h2⟩).1 ((recs b.1).get ⟨k, h2⟩).2 ∧
        ((symbolize env skip).frameinfos.getD (b.2.get ⟨k, h1⟩) Frameinfo.empty).shared_obj
          = some b.1 ∧
        ((symbolize env skip).frameinfos.getD (b.2.get ⟨k, h1⟩) Frameinfo.empty).symbol
          = ((recs b.1).get ⟨k, h2⟩).1 ∧
        ∀ (p t : Str), ((recs b.1).get ⟨k, h2⟩).2 = p ++ ':' :: t → ':' ∉ t →
          ((recs b.1).get ⟨k, h2⟩).2.length < SIZE →
          ((symbolize env skip).frameinfos.getD (b.2.get ⟨k, h1⟩)
              Frameinfo.empty).source_file_path = (if p = "??".toList then [] else p) ∧
          (p ≠ "??".toList →
            ((symbolize env skip).frameinfos.getD (b.2.get ⟨k, h1⟩)
              Frameinfo.empty).short_source_file_path = shorten_path p env.cwd) ∧
          ((symbolize env skip).frameinfos.getD (b.2.get ⟨k, h1⟩)
              Frameinfo.empty).linenr = strtoull t ∧
          ∀ n, n < SIZE → t = decimal n →
            ((symbolize env skip).frameinfos.getD (b.2.get ⟨k, h1⟩)
              Frameinfo.empty).linenr = n) ∧
    (∀ i d, env.lookup i = some d → d.2 + 1 ≤ env.bt_buf.getD i 0 →
      env.bt_buf.getD i 0 < SIZE → elf_offset env i = env.bt_buf.getD i 0 - 1 - d.2) := by
  have hans := resolver_answers_of_writes env skip recs hres
  obtain ⟨new, hpost⟩ := symbolize_post env skip hans
  have hb : (symbolize env skip).batches = new := by
    rw [hpost.batches_eq]; rfl
  have hinv : (symbolize env skip).invocations
      = new.map (fun b => batch_command env b.1 b.2) := by
    rw [hpost.invocations_eq]; rfl
  rw [hb, hinv]
  refine ⟨hpost.outcome_eq, rfl, ?_, ?_⟩
  · intro b hb2
    have hfr := hpost.frames_eq b hb2
    refine ⟨hfr, ?_, ?_⟩
    · rw [hfr]
      exact List.Pairwise.filter _ (List.pairwise_lt_range' _ _)
    · intro k h1 h2
      have heq : (symbolize env skip).frameinfos.getD (b.2.get ⟨k, h1⟩) Frameinfo.empty
          = parse_frame env.cwd b.1 Frameinfo.empty
              ((recs b.1).get ⟨k, h2⟩).1 ((recs b.1).get ⟨k, h2⟩).2 := by
        obtain ⟨x, hx, hxk⟩ := hpost.from_iter b hb2
        have hne : module_frames env skip b.1 ≠ [] := by
          rw [← hxk]; exact module_frames_ne_nil_of_mem env skip x hx
        obtain ⟨hw1, hw2, hw3⟩ := hres b.1 hne
        obtain ⟨out, fis0, fis1, rest, hp, hproc, hlen0, hempty, hfinal⟩ := hpost.stored b hb2
        rw [hfr] at hp hproc
        rw [hw1] at hp
        have hout : out = encode_records (recs b.1) := by
          have := Option.some.inj hp
          exact (Prod.ext_iff.mp this).1.symm
        have hbound : ∀ i ∈ module_frames env skip b.1, i < fis0.length := by
          intro i hi
          have := ((mem_module_frames env skip b.1 i).mp hi).2.1
          have := stack_depth_le env
          omega
        obtain ⟨fis2, hproc2, _, hzip⟩ := process_batch_records env.cwd b.1
          (module_frames env skip b.1) (recs b.1) fis0 [] (module_frames_nodup env skip b.1)
          hbound hw2 hw3
        rw [List.append_nil, ← hout, hproc] at hproc2
        have hfis : fis1 = fis2 := by
          have := Except.ok.inj hproc2
          exact (Prod.ext_iff.mp this).1
        have hmem : (b.2.get ⟨k, h1⟩, (recs b.1).get ⟨k, h2⟩) ∈ b.2.zip (recs b.1) := by
          have hk : k < (b.2.zip (recs b.1)).length := by
            rw [List.length_zip]; omega
          have := List.getElem_mem hk
          rw [List.getElem_zip] at this
          exact this
        have hin : b.2.get ⟨k, h1⟩ ∈ b.2 := List.get_mem _ _ _
        rw [hfinal _ hin, hfis]
        have hz := hzip (b.2.get ⟨k, h1⟩, (recs b.1).get ⟨k, h2⟩) (by rw [← hfr]; exact hmem)
        rw [hz, hempty _ hin]
      refine ⟨heq, ?_, ?_, ?_⟩
      · rw [heq]
        exact (parse_frame_stores _ _ _ _ _).2
      · rw [heq]
        exact (parse_frame_stores _ _ _ _ _).1
      · intro p t hloc ht hsize
        rw [heq, hloc]
        rw [hloc] at hsize
        obtain ⟨f1, f2, _, _⟩ := parse_frame_fields env.cwd b.1 Frameinfo.empty
          ((recs b.1).get ⟨k, h2⟩).1 p t ht hsize
        refine ⟨f1, ?_, f2, ?_⟩
        · intro hp
          exact parse_frame_short _ _ _ _ p t ht hsize hp
        · intro n hn hdec
          rw [f2, hdec]
          exact strtoull_decimal n hn
  · intro i d hl h1 h2
    have hS : SIZE = 2 ^ 64 := rfl
    simp only [elf_offset, hl]
    rw [Nat.mod_eq_of_lt h2]
    have hd : d.2 < SIZE := by omega
    rw [Nat.mod_eq_of_lt hd]
    have : env.bt_buf.getD i 0 + 2 * SIZE - 1 - d.2
        = (env.bt_buf.getD i 0 - 1 - d.2) + 2 * SIZE := by omega
    rw [this, Nat.add_mod, Nat.mul_mod_left, Nat.add_zero, Nat.mod_mod,
      Nat.mod_eq_of_lt (by omega)]

/-- Witness for C7: the sample run. Frame 2, the first of `/bin/app`, holds
the first record of that batch (`main`, `/home/u/a.cpp`, line 12); the frames
1 and 4 of `/lib/libc.so` hold its two records, which name the same symbol `g`
at the lines 7 and 9. -/
theorem batch_records_map_to_frames_witness :
    ResolverWrites sample_env 1 sample_records ∧
    (symbolize sample_env 1).outcome = .completed ∧
    (symbolize sample_env 1).invocations
      = (symbolize sample_env 1).batches.map (fun b =>
          command_base ++ " ".toList ++ b.1 ++
            (b.2.map (fun i => " ".toList ++ format_pointer (elf_offset sample_env i))).flatten) ∧
    ((symbolize sample_env 1).frameinfos.getD 2 Frameinfo.empty).shared_obj
      = some "/bin/app".toList ∧
    ((symbolize sample_env 1).frameinfos.getD 2 Frameinfo.empty).symbol = "main".toList ∧
    ((symbolize sample_env 1).frameinfos.getD 2 Frameinfo.empty).source_file_path
      = "/home/u/a.cpp".toList ∧
    ((symbolize sample_env 1).frameinfos.getD 2 Frameinfo.empty).short_source_file_path
      = "a.cpp".toList ∧
    ((symbolize sample_env 1).frameinfos.getD 2 Frameinfo.empty).linenr = 12 ∧
    ((symbolize sample_env 1).frameinfos.getD 1 Frameinfo.empty).symbol = "g".toList ∧
    ((symbolize sample_env 1).frameinfos.getD 1 Frameinfo.empty).linenr = 7 ∧
    ((symbolize sample_env 1).frameinfos.getD 4 Frameinfo.empty).symbol = "g".toList ∧
    ((symbolize sample_env 1).frameinfos.getD 4 Frameinfo.empty).linenr = 9 := by
  have h := batch_records_map_to_frames sample_env 1 sample_records sample_resolver_writes
  have hb := sample_run.1
  have happ := (h.2.2.1 ("/bin/app".toList, [2, 5]) (by rw [hb]; simp)).2.2 0
    (by decide) (by decide)
  have hlibc0 := (h.2.2.1 ("/lib/libc.so".toList, [1, 4]) (by rw [hb]; simp)).2.2 0
    (by decide) (by decide)
  have hlibc1 := (h.2.2.1 ("/lib/libc.so".toList, [1, 4]) (by rw [hb]; simp)).2.2 1
    (by decide) (by decide)
  have a := happ.2.2.2 "/home/u/a.cpp".toList "12".toList (by decide) (by decide) (by decide)
  have l0 := hlibc0.2.2.2 "/x/y.c".toList "7".toList (by decide) (by decide) (by decide)
  have l1 := hlibc1.2.2.2 "/x/y.c".toList "9".toList (by decide) (by decide) (by decide)
  exact ⟨sample_resolver_writes, h.1, h.2.1, happ.2.1, happ.2.2.1,
    a.1.trans (if_neg (by decide)), (a.2.1 (by decide)).trans (by decide),
    a.2.2.2 12 (by decide) (by decide), hlibc0.2.2.1, l0.2.2.2 7 (by decide) (by decide),
    hlibc1.2.2.1, l1.2.2.2 9 (by decide) (by decide)⟩

end NiceBacktrace
